import Mathlib

/-!
# A shallow embedding of the object pool of libstpool (`src/src/mpool.c`)

The pool hands out fixed-size object slots carved from blocks.  Every block
record (`struct mpool_blk_t`) is linked into one bucket chain of the Directory
(`mbase`) and, while it has a free slot, into the free buffer queue (`mq`).

Modelling conventions.

* Pointers are natural numbers, `0` is `NULL`.  A block record is identified
  by its own address (`id`); the Directory chains own the records and the free
  queue `mq` holds record addresses, first entry = `mq.next`.
* `size_t`/`uint64_t` values are byte counts, slot counts and addresses of
  buffers that coexist in one address space; their arithmetic is exact, except
  for the padded object size computed by `mpool_init` from the size the caller
  asks for, which wraps at `2 ^ 64`.  The narrower types of the source are
  modelled with their wrap-around: `uint16_t u16_num`, `uint8_t slot`, the
  7-bit field `f_slot`, and the `int length` of `mpool_new`.
* `assert` is active (the code is built without `NDEBUG`): a failed assertion
  aborts, which the operations report as `none`.
* The results of `calloc` inside `mpool_new_blk` are inputs of the operations
  (`nblk`: address of the block record, `cbuf`: address of the buffer, `0` when
  the allocation fails).
* `mem` records the header bytes written by `mpool_new_blk`, newest first; it
  is the part of memory `mpool_delete` reads.
* The lock is not modelled: the operations are the sequential behaviour.
* `list.h` and `mpool.h` are not among the sources.  The list primitives are
  given their usual meaning (`list_add` inserts after the given node,
  `list_add_tail`/`list_move_tail` before it, `list_move` after it); the bit
  macros are 1-based accessors of the bitmap.
-/

namespace Mpool

set_option maxRecDepth 100000

/-- The type `mbuffer_free` of a buffer release function; `null` is the null
function pointer and `free` is the C library function. -/
inductive mbuffer_free where
  | null
  | free
  | user (f : Nat)
  deriving DecidableEq, Repr

/-- Calls made to the outside when a block is released. -/
inductive mpool_event where
  | mfree (fn : mbuffer_free) (base : Nat)
  | free_blk (id : Nat)
  deriving DecidableEq, Repr

/-- The record `struct mpool_blk_t`.  The two link fields are represented by the
position of the record in a Directory chain and of `id` in the free queue.  The
bitmap is the bit-level view of its `(num + 7) / 8` bytes. -/
structure mpool_blk_t where
  id : Nat
  slot : Nat
  u16_num : Nat
  base : Nat
  end_ : Nat
  length : Nat
  bitmap : List Bool
  num : Nat
  left : Nat
  freeslot : Nat
  mfree : mbuffer_free
  deriving DecidableEq, Repr

/-- The record `struct mpool_attr_t` (fields of type `int`). -/
structure mpool_attr_t where
  blk_size : Int
  nmin_objs_cache : Int
  nmax_alloc : Int
  deriving DecidableEq, Repr

/-- The pool: `struct mpool_t` together with its `struct mpool_init_data_t`,
and the header bytes `mem` written so far. -/
structure mpool_t where
  align : Nat
  objlen : Nat
  mq : List Nat
  mbase : List (List mpool_blk_t)
  mqnarray : List Nat
  mbnum : Nat
  nacquires : Nat
  left : Nat
  allocated : Nat
  attr : mpool_attr_t
  mem : List (Nat × Nat)
  deriving DecidableEq, Repr

/-- The record `struct mpool_stat_t`. -/
structure mpool_stat_t where
  mem_hold_all : Nat
  objs_size : Nat
  nobjs_resved : Nat
  nobjs_allocated : Nat
  nobjs_acquired : Nat
  nblks : Nat
  deriving DecidableEq, Repr

/-- Modelled from the spec: the macro `BIT_get` of the absent `mpool.h`; bit `n`
(1-based) of the bitmap is set iff slot `n` is allocated. -/
def BIT_get (bitmap : List Bool) (n : Nat) : Bool := bitmap.getD (n - 1) false

/-- Modelled from the spec: the macro `BIT_set` of the absent `mpool.h`. -/
def BIT_set (bitmap : List Bool) (n : Nat) : List Bool := bitmap.set (n - 1) true

/-- Modelled from the spec: the macro `BIT_clr` of the absent `mpool.h`. -/
def BIT_clr (bitmap : List Bool) (n : Nat) : List Bool := bitmap.set (n - 1) false

/-- Conversion of an unsigned value to the 32-bit `int`. -/
def to_int (n : Nat) : Int :=
  if n % 2 ^ 32 < 2 ^ 31 then ((n % 2 ^ 32 : Nat) : Int) else ((n % 2 ^ 32 : Nat) : Int) - 2 ^ 32

/-- Conversion of an `int` to `size_t`. -/
def to_size_t (i : Int) : Nat := (i % 2 ^ 64).toNat

def PAGE_SIZE : Int := 1024 * 8

def m_default_attr : mpool_attr_t := ⟨PAGE_SIZE, 15, -1⟩

/-- The attribute check at the head of `mpool_attr_set`. -/
def attr_check (attr : mpool_attr_t) : mpool_attr_t :=
  let a1 := if attr.blk_size < 1024 * 4 then { attr with blk_size := 1024 * 4 } else attr
  let a2 := if a1.nmax_alloc < 0 then { a1 with nmax_alloc := -1 } else a1
  if a2.nmin_objs_cache < 0 then { a2 with nmin_objs_cache := 0 } else a2

def mpool_attr_set (mp : mpool_t) (attr : mpool_attr_t) : mpool_t :=
  { mp with attr := attr_check attr }

def mpool_attr_get (mp : mpool_t) : mpool_attr_t := mp.attr

/-- The function `mpool_init`; `none` is the failed `assert(objlen > 0)`.  The
padded size is computed in `size_t`. -/
def mpool_init (objlen : Nat) : Option mpool_t :=
  if 0 < objlen then
    some (mpool_attr_set
      { align := 4 - objlen % 4
        objlen := ((4 - objlen % 4) + objlen) % 2 ^ 64
        mq := []
        mbase := List.replicate 25 []
        mqnarray := List.replicate 25 0
        mbnum := 25
        nacquires := 0
        left := 0
        allocated := 0
        attr := ⟨0, 0, 0⟩
        mem := [] } m_default_attr)
  else none

/-- All block records of the Directory, bucket by bucket. -/
def blocks (mp : mpool_t) : List mpool_blk_t := mp.mbase.flatten

/-- Dereference of a block pointer. -/
def get_blk (mp : mpool_t) (id : Nat) : Option mpool_blk_t :=
  (blocks mp).find? (fun b => b.id == id)

/-- The field `left` read through a block pointer. -/
def blk_left (mp : mpool_t) (id : Nat) : Nat :=
  match get_blk mp id with
  | some b => b.left
  | none => 0

/-- Store the fields of `nb` through the block pointer `nb.id`. -/
def set_blk (mbase : List (List mpool_blk_t)) (nb : mpool_blk_t) : List (List mpool_blk_t) :=
  mbase.map (fun c => c.map (fun b => if b.id = nb.id then nb else b))

/-- The call `hlist_del(&blk->base_link)`. -/
def hlist_del (mbase : List (List mpool_blk_t)) (id : Nat) : List (List mpool_blk_t) :=
  mbase.map (fun c => c.filter (fun b => b.id != id))

/-- Walk a list and put `x` before the first entry that satisfies `c`. -/
def ins_first_before (c : Nat → Bool) (x : Nat) : List Nat → Option (List Nat)
  | [] => none
  | y :: ys => if c y then some (x :: y :: ys) else (ins_first_before c x ys).map (fun r => y :: r)

/-- Walk a list and put `x` after the first entry that satisfies `c`. -/
def ins_first_after (c : Nat → Bool) (x : Nat) : List Nat → Option (List Nat)
  | [] => none
  | y :: ys => if c y then some (y :: x :: ys) else (ins_first_after c x ys).map (fun r => y :: r)

/-- The balancing loop of `mpool_new_blk` over the counters `mqnarray[i..]`. -/
def balance_slot : Nat → Nat → Nat → List Nat → Nat
  | _, slot, _, [] => slot
  | elements, slot, i, c :: cs =>
    if elements = 0 then slot
    else if elements > c then balance_slot c i (i + 1) cs
    else balance_slot elements slot (i + 1) cs

/-- Insertion of the new block into its bucket chain (descending `end`). -/
def chain_insert (nblk : mpool_blk_t) : List mpool_blk_t → List mpool_blk_t
  | [] => [nblk]
  | iter :: rest =>
    if nblk.end_ > iter.end_ then nblk :: iter :: rest else iter :: chain_insert nblk rest

/-- Insertion of the new block into the free queue at the end of
`mpool_new_blk`: the reverse walk puts it after the last entry whose `left` it
reaches, and `list_add_tail` is used when there is none. -/
def mq_add_blk (left_of : Nat → Nat) (nid nleft : Nat) (mq : List Nat) : List Nat :=
  if mq.isEmpty then [nid]
  else
    match ins_first_before (fun x => decide (nleft ≥ left_of x)) nid mq.reverse with
    | some r => r.reverse
    | none => mq ++ [nid]

/-- The header bytes stored by the loop over the slots of a new block. -/
def write_hdrs (mem : List (Nat × Nat)) (base objlen nobjs slot : Nat) : List (Nat × Nat) :=
  (List.range nobjs).map (fun i => (base + i * objlen, slot % 128)) ++ mem

/-- The block record built by `mpool_new_blk` for the buffer `buffer1` of
`size1` bytes: its fields, and the bucket chosen by the balancing loop. -/
def mk_blk (mp : mpool_t) (nblk buffer1 size1 nobjs : Nat) (mfree1 : mbuffer_free) :
    mpool_blk_t :=
  { id := nblk
    slot := (balance_slot (mp.mqnarray.getD 0 0) 0 1 ((mp.mqnarray.take mp.mbnum).drop 1)) % 256
    u16_num := (nobjs / 16) % 65536
    base := buffer1
    end_ := buffer1 + (nobjs - 1) * mp.objlen
    length := size1
    bitmap := List.replicate (8 * ((nobjs + 7) / 8)) false
    num := nobjs
    left := nobjs
    freeslot := 1
    mfree := mfree1 }

/-- The registration of the new block record by `mpool_new_blk`: header bytes,
bucket chain, counters, free queue. -/
def link_blk (mp : mpool_t) (blk : mpool_blk_t) : mpool_t :=
  { mp with
      mem := write_hdrs mp.mem blk.base mp.objlen blk.num blk.slot
      mbase := mp.mbase.set blk.slot (chain_insert blk (mp.mbase.getD blk.slot []))
      mqnarray := mp.mqnarray.set blk.slot (mp.mqnarray.getD blk.slot 0 + 1)
      left := mp.left + blk.left
      mq := mq_add_blk (blk_left mp) blk.id blk.left mp.mq }

/-- The function `mpool_new_blk`; `none` is the return value `NULL`. -/
def mpool_new_blk (mp : mpool_t) (buffer size : Nat) (mfree : mbuffer_free)
    (nblk cbuf : Nat) : Option (mpool_t × mpool_blk_t) :=
  if (mfree ≠ mbuffer_free.null ∧ buffer = 0) ∨ size < mp.objlen then none
  else if nblk = 0 then none
  else if buffer = 0 then
    if cbuf = 0 then none
    else
      let blk := mk_blk mp nblk cbuf (size / mp.objlen * mp.objlen) (size / mp.objlen)
        mbuffer_free.free
      some (link_blk mp blk, blk)
  else
    let blk := mk_blk mp nblk buffer size (size / mp.objlen) mfree
    some (link_blk mp blk, blk)

/-- The function `mpool_add_buffer`: new state, return value, calls made. -/
def mpool_add_buffer (mp : mpool_t) (buffer size : Nat) (mfree : mbuffer_free)
    (nblk cbuf : Nat) : mpool_t × Int × List mpool_event :=
  match mpool_new_blk mp buffer size mfree nblk cbuf with
  | none => (mp, -1, if mfree ≠ mbuffer_free.null then [mpool_event.mfree mfree buffer] else [])
  | some (mp1, _) => (mp1, 0, [])

/-- Is the 16-bit word `w` of the bitmap equal to `(uint16_t)-1`? -/
def u16_full (bitmap : List Bool) (w : Nat) : Bool :=
  (List.range 16).all (fun j => BIT_get bitmap (16 * w + j + 1))

/-- The search for a clear bit in `mpool_new` when the next slot is not free;
`none` is the failed `assert(num <= index)`. -/
def scan_freeslot (blk : mpool_blk_t) (bitmap : List Bool) : Option Nat :=
  let r : Nat × Nat :=
    match (List.range blk.u16_num).find? (fun w => !(u16_full bitmap w)) with
    | some w => (16 * w, 16)
    | none => (16 * blk.u16_num, blk.num % 16)
  match (List.range r.2).find? (fun j => !(BIT_get bitmap (r.1 + (j + 1)))) with
  | some j => some (r.1 + (j + 1))
  | none => none

/-- The loop "Move the blocks forward" of `mpool_new`. -/
def mq_move_forward (left_of : Nat → Nat) (id left : Nat) (mq : List Nat) : List Nat :=
  let pre := mq.takeWhile (fun x => x != id)
  let post := mq.dropWhile (fun x => x != id)
  match ins_first_after (fun x => decide (left ≤ left_of x)) id pre.reverse with
  | some r => r.reverse ++ post.drop 1
  | none => mq

/-- The loop "Move the blocks backward" of `mpool_delete`. -/
def mq_move_backward (left_of : Nat → Nat) (id left : Nat) (mq : List Nat) : List Nat :=
  let pre := mq.takeWhile (fun x => x != id)
  let post := (mq.dropWhile (fun x => x != id)).drop 1
  match ins_first_after (fun x => decide (left ≤ left_of x)) id post with
  | some r => pre ++ r
  | none => mq

/-- The second half of `mpool_new`: take an object from `blk`.  The result is
the new state and the pointer returned; `none` is a failed assertion. -/
def take_obj (mp : mpool_t) (blk : mpool_blk_t) : Option (mpool_t × Nat) :=
  if ¬ (blk.left > 0 ∧ (blk.freeslot ≥ 1 ∧ blk.freeslot ≤ blk.num)) then none
  else if BIT_get blk.bitmap blk.freeslot then none
  else
    let ptr := blk.base + (blk.freeslot - 1) * mp.objlen
    let bitmap := BIT_set blk.bitmap blk.freeslot
    let left := blk.left - 1
    if left = 0 then
      some ({ mp with
                mbase := set_blk mp.mbase { blk with bitmap := bitmap, left := left }
                mq := mp.mq.erase blk.id
                left := mp.left - 1
                allocated := mp.allocated + 1 }, ptr + mp.align)
    else
      let freeslot := blk.freeslot + 1
      let found : Option Nat :=
        if freeslot > blk.num ∨ BIT_get bitmap freeslot then scan_freeslot blk bitmap
        else some freeslot
      match found with
      | none => none
      | some fs =>
        some ({ mp with
                  mbase := set_blk mp.mbase { blk with bitmap := bitmap, left := left, freeslot := fs }
                  mq := mq_move_forward (blk_left mp) blk.id left mp.mq
                  left := mp.left - 1
                  allocated := mp.allocated + 1 }, ptr + mp.align)

/-- The size requested by `mpool_new` for a new block: the expression is
evaluated in `size_t`, stored in the `int length` and converted to the `size_t`
parameter of `mpool_new_blk`. -/
def new_blk_size (mp : mpool_t) : Nat :=
  let cache : Int := mp.attr.nmin_objs_cache
  let t1 := (mp.objlen * to_size_t (if cache ≠ 0 then cache else 1)) % 2 ^ 64
  let t2 := (t1 + to_size_t mp.attr.blk_size) % 2 ^ 64
  let t3 := (t2 + 2 ^ 64 - 1) % 2 ^ 64
  let t4 := (t3 / to_size_t mp.attr.blk_size * to_size_t mp.attr.blk_size) % 2 ^ 64
  let length : Int := to_int t4
  to_size_t length

/-- The function `mpool_new`, returning also the block the object is taken
from: new state, pointer (`0` is `NULL`), block address.  `none` is a failed
assertion. -/
def mpool_new_core (mp : mpool_t) (nblk cbuf : Nat) : Option (mpool_t × Nat × Nat) :=
  let mp1 := { mp with nacquires := mp.nacquires + 1 }
  if mp1.attr.nmax_alloc ≥ 0 ∧ (mp1.allocated : Int) ≥ mp1.attr.nmax_alloc then some (mp1, 0, 0)
  else
    match mp1.mq with
    | id :: _ =>
      match get_blk mp1 id with
      | some blk => (take_obj mp1 blk).map (fun r => (r.1, r.2, blk.id))
      | none => none
    | [] =>
      match mpool_new_blk mp1 0 (new_blk_size mp1) mbuffer_free.null nblk cbuf with
      | none => some (mp1, 0, 0)
      | some (mp2, blk) => (take_obj mp2 blk).map (fun r => (r.1, r.2, blk.id))

/-- The function `mpool_new`. -/
def mpool_new (mp : mpool_t) (nblk cbuf : Nat) : Option (mpool_t × Nat) :=
  (mpool_new_core mp nblk cbuf).map (fun r => (r.1, r.2.1))

/-- The debug check `assert_ptr`: `true` when every `PASSERT` holds. -/
def assert_ptr (mp : mpool_t) (optr : Nat) (allocated : Bool) : Bool :=
  match mp.mem.lookup optr with
  | none => false
  | some f_slot =>
    if f_slot < mp.mbnum then
      match (mp.mbase.getD f_slot []).find?
          (fun blk => decide (blk.base ≤ optr) && decide (blk.end_ ≥ optr)) with
      | none => true
      | some blk =>
        let offset := optr - blk.base
        decide (offset % mp.objlen = 0) &&
          (if allocated then
            BIT_get blk.bitmap (offset / mp.objlen + 1) && decide (blk.left < blk.num)
          else
            !(BIT_get blk.bitmap (offset / mp.objlen + 1)) &&
              (decide (blk.left > 0) && decide (blk.left ≤ blk.num)))
    else false

/-- The walk of `mpool_delete` along a bucket chain: `none` is the
`assert(0)` taken when the pointer lies above a block's `end`, `some none` the
end of the chain. -/
def lookup_blk (optr : Nat) : List mpool_blk_t → Option (Option mpool_blk_t)
  | [] => some none
  | blk :: rest =>
    if optr > blk.end_ then none
    else if optr ≥ blk.base then some (some blk)
    else lookup_blk optr rest

/-- The block is unlinked from the free queue (`list_del`) and from its bucket
chain (`hlist_del`), and the counters are adjusted: the release of a block in
`mpool_delete` and in `mpool_flush`. -/
def unlink_blk (mp : mpool_t) (b : mpool_blk_t) : mpool_t :=
  { mp with
      mq := mp.mq.erase b.id
      mbase := hlist_del mp.mbase b.id
      left := mp.left - b.left
      mqnarray := mp.mqnarray.set b.slot (mp.mqnarray.getD b.slot 0 - 1) }

/-- The calls made after the lock is dropped when a block is released. -/
def release_events (blk : mpool_blk_t) : List mpool_event :=
  (if blk.mfree ≠ mbuffer_free.null then [mpool_event.mfree blk.mfree blk.base] else [])
    ++ [mpool_event.free_blk blk.id]

/-- The block record after `mpool_delete` has given slot `freeslot` back. -/
def freed_blk (blk : mpool_blk_t) (freeslot : Nat) : mpool_blk_t :=
  { blk with freeslot := freeslot, bitmap := BIT_clr blk.bitmap freeslot, left := blk.left + 1 }

/-- The body of `mpool_delete` for the block found by the walk. -/
def delete_in_blk (mp : mpool_t) (blk : mpool_blk_t) (optr : Nat) :
    mpool_t × List mpool_event :=
  let nb : mpool_blk_t := freed_blk blk ((optr - blk.base) / mp.objlen + 1)
  let mp1 : mpool_t :=
    { mp with mbase := set_blk mp.mbase nb, left := mp.left + 1, allocated := mp.allocated - 1 }
  if nb.left = 1 then
    ({ mp1 with mq := nb.id :: mp1.mq }, [])
  else if nb.left = nb.num then
    if (mp1.left : Int) ≥ (nb.left : Int) + mp1.attr.nmin_objs_cache then
      (unlink_blk mp1 nb, release_events nb)
    else
      ({ mp1 with mq := mq_move_backward (blk_left mp1) nb.id nb.left mp1.mq }, [])
  else (mp1, [])

/-- The function `mpool_delete`: new state and calls made; `none` is a failed
assertion, or the read of a header byte the pool never wrote. -/
def mpool_delete (mp : mpool_t) (ptr : Nat) : Option (mpool_t × List mpool_event) :=
  if ptr = 0 then none
  else
    let optr := ptr - mp.align
    match mp.mem.lookup optr with
    | none => none
    | some f_slot =>
      if ¬ assert_ptr mp optr true then none
      else
        match lookup_blk optr (mp.mbase.getD f_slot []) with
        | none => none
        | some none => some (mp, [])
        | some (some blk) =>
          let r := delete_in_blk mp blk optr
          if assert_ptr r.1 optr false then some r else none

/-- The function `mpool_stat`. -/
def mpool_stat (mp : mpool_t) : mpool_stat_t :=
  let st := ((mp.mbase.take mp.mbnum).flatten).foldl
    (fun (st : mpool_stat_t) blk =>
      { st with
          nobjs_resved := st.nobjs_resved + blk.left
          nobjs_allocated := st.nobjs_allocated + (blk.num - blk.left)
          mem_hold_all := st.mem_hold_all + blk.length
          nblks := st.nblks + 1 })
    { mem_hold_all := 0, objs_size := mp.objlen, nobjs_resved := 0, nobjs_allocated := 0,
      nobjs_acquired := 0, nblks := 0 }
  { st with nobjs_acquired := mp.nacquires }

/-- The loop of `mpool_flush`, at most `fuel` rounds; `none` is the failed
assertion `initd->left >= blk->left`. -/
def flush_loop : Nat → mpool_t → Option (mpool_t × List mpool_event)
  | 0, mp => some (mp, [])
  | fuel + 1, mp =>
    match mp.mq.getLast? with
    | none => some (mp, [])
    | some id =>
      match get_blk mp id with
      | none => none
      | some blk =>
        if blk.left ≠ blk.num then some (mp, [])
        else if ¬ (mp.left ≥ blk.left) then none
        else
          match flush_loop fuel (unlink_blk mp blk) with
          | none => none
          | some (mp1, ev) => some (mp1, release_events blk ++ ev)

/-- The function `mpool_flush`: every round unlinks one entry of the free
queue, so its length bounds the number of rounds. -/
def mpool_flush (mp : mpool_t) : Option (mpool_t × List mpool_event) :=
  flush_loop mp.mq.length mp

/-- The calls made by the release loop of `mpool_destroy` for one block. -/
def destroy_events (blk : mpool_blk_t) : List mpool_event :=
  if blk.mfree ≠ mbuffer_free.null then
    [mpool_event.mfree blk.mfree blk.base, mpool_event.free_blk blk.id]
  else []

/-- The function `mpool_destroy`: the pool that remains (`none` once the pool
has been torn down) and the calls made. -/
def mpool_destroy (mp : mpool_t) (force : Int) : Option mpool_t × List mpool_event :=
  let st := mpool_stat mp
  let release : Int := if st.nobjs_allocated ≠ 0 then force else 1
  if release ≠ 0 then
    (none, (((mp.mbase.take mp.mbnum).flatten).map destroy_events).flatten)
  else (some mp, [])

/-- The buffer `[buf, buf + len)` does not overlap the buffer of a block of
the pool: what the allocator, or the caller of `mpool_add_buffer`, guarantees. -/
def buf_fresh (mp : mpool_t) (buf len : Nat) : Prop :=
  ∀ b ∈ blocks mp, buf + len ≤ b.base ∨ b.base + b.length ≤ buf

/-- The address `nblk` is not the address of a block record of the pool. -/
def id_fresh (mp : mpool_t) (nblk : Nat) : Prop :=
  ∀ b ∈ blocks mp, b.id ≠ nblk

/-- The pool states reachable from `mpool_init` by sequential calls, together
with the live objects: the pairs (pointer returned by `mpool_new` and not yet
deleted, address of the block it was taken from).  The pool is initialised for
an object size whose padded size fits `size_t`, `mpool_delete` is called on
live pointers only, the allocator hands out fresh memory, and a buffer given to
`mpool_add_buffer` does not overlap a buffer the pool holds. -/
inductive Reachable : mpool_t → List (Nat × Nat) → Prop where
  | init (objlen : Nat) (mp : mpool_t) :
      objlen < 2 ^ 64 - 4 →
      mpool_init objlen = some mp → Reachable mp []
  | new (mp : mpool_t) (live : List (Nat × Nat)) (nblk cbuf : Nat)
      (mp1 : mpool_t) (ptr id : Nat) :
      Reachable mp live →
      (nblk ≠ 0 → id_fresh mp nblk) →
      (cbuf ≠ 0 → buf_fresh mp cbuf (new_blk_size mp / mp.objlen * mp.objlen)) →
      mpool_new_core mp nblk cbuf = some (mp1, ptr, id) →
      Reachable mp1 (if ptr = 0 then live else (ptr, id) :: live)
  | delete (mp : mpool_t) (live : List (Nat × Nat)) (ptr : Nat)
      (mp1 : mpool_t) (ev : List mpool_event) :
      Reachable mp live →
      ptr ∈ live.map Prod.fst →
      mpool_delete mp ptr = some (mp1, ev) →
      Reachable mp1 (live.filter (fun e => e.1 != ptr))
  | add_buffer (mp : mpool_t) (live : List (Nat × Nat)) (buffer size : Nat)
      (mfree : mbuffer_free) (nblk cbuf : Nat) (mp1 : mpool_t) (r : Int)
      (ev : List mpool_event) :
      Reachable mp live →
      (nblk ≠ 0 → id_fresh mp nblk) →
      (buffer ≠ 0 → buf_fresh mp buffer size) →
      (cbuf ≠ 0 → buf_fresh mp cbuf (size / mp.objlen * mp.objlen)) →
      mpool_add_buffer mp buffer size mfree nblk cbuf = (mp1, r, ev) →
      Reachable mp1 live
  | attr_set (mp : mpool_t) (live : List (Nat × Nat)) (attr : mpool_attr_t) :
      Reachable mp live → Reachable (mpool_attr_set mp attr) live
  | flush (mp : mpool_t) (live : List (Nat × Nat)) (mp1 : mpool_t)
      (ev : List mpool_event) :
      Reachable mp live →
      mpool_flush mp = some (mp1, ev) →
      Reachable mp1 live

/-- The address handed out for slot `s` (1-based) of block `b`. -/
def slot_ptr (mp : mpool_t) (b : mpool_blk_t) (s : Nat) : Nat :=
  b.base + (s - 1) * mp.objlen + mp.align

/-- Number of bits set in a bitmap. -/
def popcount (bitmap : List Bool) : Nat := bitmap.count true

/-- What holds of every block record of a reachable pool. -/
structure blk_ok (objlen : Nat) (b : mpool_blk_t) : Prop where
  num_pos : 0 < b.num
  end_eq : b.end_ = b.base + (b.num - 1) * objlen
  len_ge : b.num * objlen ≤ b.length
  u16_eq : b.u16_num = (b.num / 16) % 65536
  slot_lt : b.slot < 25
  bm_len : b.num ≤ b.bitmap.length
  bm_hi : ∀ n, b.num < n → BIT_get b.bitmap n = false
  left_eq : b.left + popcount b.bitmap = b.num
  hint : 0 < b.left → 1 ≤ b.freeslot ∧ b.freeslot ≤ b.num ∧ BIT_get b.bitmap b.freeslot = false

/-- The invariant of the pool: the shape of the Directory, the consistency of
the block records, of the free queue, of the counters and of the header bytes,
and the correspondence between set bits and live objects. -/
structure Inv (mp : mpool_t) (live : List (Nat × Nat)) : Prop where
  objlen_ge : 4 ≤ mp.objlen
  align_pos : 1 ≤ mp.align
  align_lt : mp.align < mp.objlen
  mbnum_eq : mp.mbnum = 25
  mbase_len : mp.mbase.length = 25
  mqn_len : mp.mqnarray.length = 25
  mqn_eq : ∀ (i : Nat) (c : List mpool_blk_t), mp.mbase[i]? = some c →
    mp.mqnarray[i]? = some c.length
  slot_eq : ∀ (i : Nat) (c : List mpool_blk_t), mp.mbase[i]? = some c → ∀ b ∈ c, b.slot = i
  ids_nodup : ((blocks mp).map (fun b => b.id)).Nodup
  chain_sorted : ∀ c ∈ mp.mbase, c.Pairwise (fun a b => b.end_ ≤ a.end_)
  disjoint : ∀ a ∈ blocks mp, ∀ b ∈ blocks mp, a.id ≠ b.id →
    a.base + a.length ≤ b.base ∨ b.base + b.length ≤ a.base
  blk : ∀ b ∈ blocks mp, blk_ok mp.objlen b
  hdr : ∀ b ∈ blocks mp, ∀ i, i < b.num → mp.mem.lookup (b.base + i * mp.objlen) = some b.slot
  mq_nodup : mp.mq.Nodup
  mq_mem : ∀ id, id ∈ mp.mq ↔ ∃ b ∈ blocks mp, b.id = id ∧ 0 < b.left
  left_eq : mp.left = ((blocks mp).map (fun b => b.left)).sum
  alloc_eq : mp.allocated = ((blocks mp).map (fun b => b.num - b.left)).sum
  live_nodup : (live.map Prod.fst).Nodup
  live_iff : ∀ ptr id, (ptr, id) ∈ live ↔
    ∃ b ∈ blocks mp, b.id = id ∧ ∃ s, 1 ≤ s ∧ s ≤ b.num ∧
      BIT_get b.bitmap s = true ∧ ptr = slot_ptr mp b s
  attr_blk : 4096 ≤ mp.attr.blk_size
  attr_cache : 0 ≤ mp.attr.nmin_objs_cache
  attr_max : -1 ≤ mp.attr.nmax_alloc

/-- The fields of a block record that never change after its creation. -/
structure same_static (b0 nb : mpool_blk_t) : Prop where
  id : nb.id = b0.id
  slot : nb.slot = b0.slot
  u16_num : nb.u16_num = b0.u16_num
  base : nb.base = b0.base
  end_ : nb.end_ = b0.end_
  length : nb.length = b0.length
  num : nb.num = b0.num
  mfree : nb.mfree = b0.mfree

/-- The block record after `take_obj` has reserved its free slot; `fs` is the
new next-free-slot hint. -/
def taken_blk (blk : mpool_blk_t) (fs : Nat) : mpool_blk_t :=
  { blk with bitmap := BIT_set blk.bitmap blk.freeslot, left := blk.left - 1, freeslot := fs }

/-- The pool after the bit of slot `s` of block `b` has been cleared and the
counters updated, with the block put on the free queue if it was full. -/
def freed_state (mp : mpool_t) (b : mpool_blk_t) (s : Nat) : mpool_t :=
  { mp with
      mbase := set_blk mp.mbase (freed_blk b s)
      mq := if (freed_blk b s).left = 1 then b.id :: mp.mq else mp.mq
      left := mp.left + 1
      allocated := mp.allocated - 1 }

/-- One call made by a client of the pool, with the results of the allocator
where the call may need them. -/
inductive pool_op where
  | new (nblk cbuf : Nat)
  | delete (ptr : Nat)
  | add_buffer (buffer size : Nat) (mfree : mbuffer_free) (nblk cbuf : Nat)
  | attr_set (attr : mpool_attr_t)
  | flush
  deriving DecidableEq, Repr

instance (mp : mpool_t) (buf len : Nat) : Decidable (buf_fresh mp buf len) :=
  inferInstanceAs (Decidable (∀ b ∈ blocks mp, buf + len ≤ b.base ∨ b.base + b.length ≤ buf))

instance (mp : mpool_t) (nblk : Nat) : Decidable (id_fresh mp nblk) :=
  inferInstanceAs (Decidable (∀ b ∈ blocks mp, b.id ≠ nblk))

/-- One step of a client: the call is made if it respects the conditions of
`Reachable` (a live pointer is deleted, fresh memory is supplied). -/
def step (st : mpool_t × List (Nat × Nat)) : pool_op → Option (mpool_t × List (Nat × Nat))
  | pool_op.new nblk cbuf =>
    if (nblk ≠ 0 → id_fresh st.1 nblk) ∧
        (cbuf ≠ 0 → buf_fresh st.1 cbuf (new_blk_size st.1 / st.1.objlen * st.1.objlen)) then
      match mpool_new_core st.1 nblk cbuf with
      | some r => some (r.1, if r.2.1 = 0 then st.2 else (r.2.1, r.2.2) :: st.2)
      | none => none
    else none
  | pool_op.delete ptr =>
    if ptr ∈ st.2.map Prod.fst then
      match mpool_delete st.1 ptr with
      | some r => some (r.1, st.2.filter (fun e => e.1 != ptr))
      | none => none
    else none
  | pool_op.add_buffer buffer size mfree nblk cbuf =>
    if (nblk ≠ 0 → id_fresh st.1 nblk) ∧ (buffer ≠ 0 → buf_fresh st.1 buffer size) ∧
        (cbuf ≠ 0 → buf_fresh st.1 cbuf (size / st.1.objlen * st.1.objlen)) then
      some ((mpool_add_buffer st.1 buffer size mfree nblk cbuf).1, st.2)
    else none
  | pool_op.attr_set attr => some (mpool_attr_set st.1 attr, st.2)
  | pool_op.flush =>
    match mpool_flush st.1 with
    | some r => some (r.1, st.2)
    | none => none

/-- A sequence of calls from a given state. -/
def run_from (st : mpool_t × List (Nat × Nat)) : List pool_op → Option (mpool_t × List (Nat × Nat))
  | [] => some st
  | op :: ops =>
    match step st op with
    | some st1 => run_from st1 ops
    | none => none

/-- A sequence of calls on a pool initialised for objects of `objlen` bytes, a
size whose padded size fits `size_t`. -/
def run (objlen : Nat) (ops : List pool_op) : Option (mpool_t × List (Nat × Nat)) :=
  if objlen < 2 ^ 64 - 4 then
    match mpool_init objlen with
    | some mp => run_from (mp, []) ops
    | none => none
  else none

/-- The values of `left` along the free queue, head first. -/
def mq_lefts (mp : mpool_t) : List Nat := mp.mq.map (blk_left mp)

/-- Free-List ordering: adjacent entries of the free queue have ascending
`left`. -/
def free_list_ordered (mp : mpool_t) : Prop := List.Chain' (fun a b => a ≤ b) (mq_lefts mp)

/-- Scenario for the ordering of the free queue: objects of 1361 bytes (three
per block of 4096 bytes), no spare cache; two blocks are filled, then one object
of the first and two of the second are given back. -/
def order_ops : List pool_op :=
  [pool_op.attr_set ⟨4096, 0, -1⟩,
   pool_op.new 1000 100000, pool_op.new 0 0, pool_op.new 0 0,
   pool_op.new 2000 200000, pool_op.new 0 0, pool_op.new 0 0,
   pool_op.delete 100003, pool_op.delete 200003, pool_op.delete 201367]

/-- Scenario with three outstanding allocations: objects of 24 bytes,
attributes (4096, 0, unbounded), three calls of `mpool_new`. -/
def demo_ops : List pool_op :=
  [pool_op.attr_set ⟨4096, 0, -1⟩, pool_op.new 1000 100000, pool_op.new 0 0, pool_op.new 0 0]

/-- The pool and the live objects at the end of `demo_ops`. -/
def demo_state : mpool_t × List (Nat × Nat) :=
  match run 24 demo_ops with
  | some st => st
  | none => (⟨0, 0, [], [], [], 0, 0, 0, 0, ⟨0, 0, 0⟩, []⟩, [])

/-- A summary of the blocks of a pool: address of the record, capacity, free
slots. -/
def blk_summary (mp : mpool_t) : List (Nat × Nat × Nat) :=
  (blocks mp).map (fun b => (b.id, b.num, b.left))

/-- The call `mpool_new` followed at once by `mpool_delete` of its result:
the pointer and the final state; `none` if `mpool_new` returns `NULL` or an
assertion fails. -/
def round_trip (mp : mpool_t) (nblk cbuf : Nat) : Option (Nat × mpool_t) :=
  match mpool_new mp nblk cbuf with
  | some (mp1, ptr) =>
    if ptr = 0 then none
    else
      match mpool_delete mp1 ptr with
      | some (mp2, _) => some (ptr, mp2)
      | none => none
  | none => none

/-- Scenario for the throttle: objects of 1048572 bytes (slots of 2^20 bytes),
attributes (4096, 4096, 5). -/
def throttle_ops : List pool_op := [pool_op.attr_set ⟨4096, 4096, 5⟩]

/-- Scenario for the release of a drained block of capacity 1: objects of 4092
bytes (one slot per block of 4096 bytes), no spare cache, one object taken. -/
def drain_one_ops : List pool_op := [pool_op.attr_set ⟨4096, 0, -1⟩, pool_op.new 1000 100000]

/-- Scenario for the retention of a drained block: objects of 1361 bytes
(three per block), spare cache 3; the first block is filled, a second block is
created and its object given back, then two objects of the first block are
given back. -/
def retain_ops : List pool_op :=
  [pool_op.attr_set ⟨4096, 3, -1⟩,
   pool_op.new 1000 100000, pool_op.new 0 0, pool_op.new 0 0, pool_op.new 2000 200000,
   pool_op.delete 200003, pool_op.delete 100003, pool_op.delete 101367]

/-- Scenario for `mpool_flush`: objects of 2044 bytes (two per block), spare
cache 2; two blocks are filled, one object of the second block and both objects
of the first are given back. -/
def flush_ops : List pool_op :=
  [pool_op.attr_set ⟨4096, 2, -1⟩,
   pool_op.new 1000 100000, pool_op.new 0 0, pool_op.new 2000 200000, pool_op.new 0 0,
   pool_op.delete 200004, pool_op.delete 100004, pool_op.delete 102052]

/-- The state that stands for a failed scenario. -/
def no_state : mpool_t × List (Nat × Nat) :=
  (⟨0, 0, [], [], [], 0, 0, 0, 0, ⟨0, 0, 0⟩, []⟩, [])

/-- Scenario with one block of capacity 3 that has one occupied slot, and
min-spare-cache 3. -/
def retain_one_ops : List pool_op := [pool_op.attr_set ⟨4096, 3, -1⟩, pool_op.new 1000 100000]

/-- The pool and the live objects at the end of `retain_one_ops`. -/
def retain_one_state : mpool_t × List (Nat × Nat) :=
  match run 1361 retain_one_ops with
  | some st => st
  | none => no_state

/-- The block of `retain_one_state`. -/
def retain_one_blk : mpool_blk_t :=
  { id := 1000, slot := 0, u16_num := 0, base := 100000, end_ := 102728, length := 4092,
    bitmap := [true, false, false, false, false, false, false, false],
    num := 3, left := 2, freeslot := 2, mfree := mbuffer_free.free }

/-- The pool after `mpool_new` and `mpool_delete` of its result in
`demo_state`. -/
def demo_round_trip : mpool_t :=
  match round_trip demo_state.1 0 0 with
  | some r => r.2
  | none => no_state.1

/-- The outcome of `mpool_new` in `demo_state`: new state, pointer, block. -/
def demo_new : mpool_t × Nat × Nat :=
  match mpool_new_core demo_state.1 0 0 with
  | some r => r
  | none => (no_state.1, 0, 0)

/-- The outcome of `mpool_new_blk` in `demo_state` for a request of 4096
bytes, with the record at 3000 and the buffer at 300000. -/
def demo_new_blk : mpool_t × mpool_blk_t :=
  match mpool_new_blk demo_state.1 0 4096 mbuffer_free.null 3000 300000 with
  | some r => r
  | none => (no_state.1, retain_one_blk)

/-- Scenario with slots larger than the growth granularity: objects of 4096
bytes (slots of 4100 bytes), attributes (4096, 0, unbounded), no call of
`mpool_new` yet. -/
def big_slot_ops : List pool_op := [pool_op.attr_set ⟨4096, 0, -1⟩]

/-- The pool at the end of `big_slot_ops`. -/
def big_slot_state : mpool_t × List (Nat × Nat) :=
  match run 4096 big_slot_ops with
  | some st => st
  | none => no_state

/-- Scenario with a block of 2^20 slots: objects of 1 byte (slots of 4
bytes), attributes (4194304, 0, unbounded); two objects are taken, then the
first one is given back. -/
def huge_ops : List pool_op :=
  [pool_op.attr_set ⟨4194304, 0, -1⟩, pool_op.new 1000 100000, pool_op.new 0 0,
   pool_op.delete 100003]

/-- A sequence of calls of `mpool_delete`, in the given order: the final
state and the calls made; `none` if an assertion fails. -/
def delete_all (mp : mpool_t) : List Nat → Option (mpool_t × List mpool_event)
  | [] => some (mp, [])
  | p :: ps =>
    match mpool_delete mp p with
    | some r =>
      match delete_all r.1 ps with
      | some r2 => some (r2.1, r.2 ++ r2.2)
      | none => none
    | none => none

/-- The record of a block as `mpool_new_blk` creates it with `calloc`: record
address, buffer address, capacity and length as given, every slot free, the
hint on slot 1. -/
structure fresh_blk (b0 : mpool_blk_t) (nblk cbuf num len : Nat) : Prop where
  id_eq : b0.id = nblk
  base_eq : b0.base = cbuf
  num_eq : b0.num = num
  length_eq : b0.length = len
  left_eq : b0.left = num
  freeslot_eq : b0.freeslot = 1
  u16_eq : b0.u16_num = (num / 16) % 65536
  mfree_eq : b0.mfree = mbuffer_free.free
  bits : ∀ n, BIT_get b0.bitmap n = false
  len : num ≤ b0.bitmap.length

/-- The record of a block after the slots `1..k` were handed out in order,
starting from the record `b0` of the new block. -/
def fill_blk (b0 : mpool_blk_t) : Nat → mpool_blk_t
  | 0 => b0
  | k + 1 => taken_blk (fill_blk b0 k) (k + 2)

/-- The live objects after the slots `1..k` of the block `id`, whose buffer
starts at `base`, were handed out in order (newest first). -/
def fill_live (base objlen align id : Nat) : Nat → List (Nat × Nat)
  | 0 => []
  | k + 1 => (base + k * objlen + align, id) :: fill_live base objlen align id k

/-- Literal scenario, first part: objects of 24 bytes, attributes
(4096, 0, unbounded), then `k + 1` calls of `mpool_new`; for the first block
the allocator returns the record `n1` and the buffer `c1`. -/
def scenario_fill_ops (n1 c1 k : Nat) : List pool_op :=
  pool_op.attr_set ⟨4096, 0, -1⟩ :: pool_op.new n1 c1 :: List.replicate k (pool_op.new 0 0)

/-- Literal scenario: 146 calls of `mpool_new`, then the 147th, for which the
allocator returns the record `n2` and the buffer `c2`. -/
def scenario_ops (n1 c1 n2 c2 : Nat) : List pool_op :=
  scenario_fill_ops n1 c1 145 ++ [pool_op.new n2 c2]

/-- The pointers of the 146 objects of the first block of the scenario. -/
def scenario_ptrs (c1 : Nat) : List Nat := (List.range 146).map (fun i => c1 + i * 28 + 4)

/-! ## Lists: the Directory and the free queue -/

theorem flatten_set_blk (D : List (List mpool_blk_t)) (nb : mpool_blk_t) :
    (set_blk D nb).flatten = D.flatten.map (fun b => if b.id = nb.id then nb else b) := by
  unfold set_blk
  induction D with
  | nil => rfl
  | cons c D ih => simp only [List.map_cons, List.flatten_cons, List.map_append, ih]

theorem flatten_hlist_del (D : List (List mpool_blk_t)) (id : Nat) :
    (hlist_del D id).flatten = D.flatten.filter (fun b => b.id != id) := by
  unfold hlist_del
  induction D with
  | nil => rfl
  | cons c D ih => simp only [List.map_cons, List.flatten_cons, List.filter_append, ih]

theorem chain_insert_perm (nb : mpool_blk_t) (c : List mpool_blk_t) :
    (chain_insert nb c).Perm (nb :: c) := by
  induction c with
  | nil => simp [chain_insert]
  | cons it rest ih =>
    unfold chain_insert
    split
    · exact List.Perm.refl _
    · exact (List.Perm.cons it ih).trans (List.Perm.swap _ _ _)

theorem flatten_set_perm (D : List (List mpool_blk_t)) (i : Nat) (c c1 : List mpool_blk_t)
    (x : mpool_blk_t) (hi : D[i]? = some c) (hc : c1.Perm (x :: c)) :
    (D.set i c1).flatten.Perm (x :: D.flatten) := by
  induction D generalizing i with
  | nil => simp at hi
  | cons d D ih =>
    cases i with
    | zero =>
      simp at hi
      subst hi
      simp only [List.set_cons_zero, List.flatten_cons]
      exact (List.Perm.append_right _ hc)
    | succ i =>
      simp at hi
      simp only [List.set_cons_succ, List.flatten_cons]
      have := ih i hi
      exact (List.Perm.append_left d this).trans (List.perm_middle)

theorem ins_first_before_perm (c : Nat → Bool) (x : Nat) (l r : List Nat)
    (h : ins_first_before c x l = some r) : r.Perm (x :: l) := by
  induction l generalizing r with
  | nil => simp [ins_first_before] at h
  | cons y ys ih =>
    unfold ins_first_before at h
    split at h
    · simp at h; subst h; exact List.Perm.refl _
    · cases h1 : ins_first_before c x ys with
      | none => simp [h1] at h
      | some r1 =>
        simp [h1] at h
        subst h
        exact (List.Perm.cons y (ih r1 h1)).trans (List.Perm.swap _ _ _)

theorem ins_first_after_perm (c : Nat → Bool) (x : Nat) (l r : List Nat)
    (h : ins_first_after c x l = some r) : r.Perm (x :: l) := by
  induction l generalizing r with
  | nil => simp [ins_first_after] at h
  | cons y ys ih =>
    unfold ins_first_after at h
    split at h
    · simp at h; subst h; exact List.Perm.swap _ _ _
    · cases h1 : ins_first_after c x ys with
      | none => simp [h1] at h
      | some r1 =>
        simp [h1] at h
        subst h
        exact (List.Perm.cons y (ih r1 h1)).trans (List.Perm.swap _ _ _)

theorem split_at_mem (id : Nat) (mq : List Nat) (h : id ∈ mq) :
    mq = mq.takeWhile (fun x => x != id) ++ id :: (mq.dropWhile (fun x => x != id)).drop 1 := by
  induction mq with
  | nil => simp at h
  | cons y ys ih =>
    by_cases hy : y = id
    · subst hy; simp [List.takeWhile, List.dropWhile]
    · have h1 : id ∈ ys := by
        rcases List.mem_cons.1 h with h | h
        · exact absurd h.symm hy
        · exact h
      have hne : (y != id) = true := by simpa using hy
      simp only [List.takeWhile, List.dropWhile, hne, List.cons_append]
      congr 1
      exact ih h1

theorem mq_move_forward_perm (f : Nat → Nat) (id left : Nat) (mq : List Nat) (h : id ∈ mq) :
    (mq_move_forward f id left mq).Perm mq := by
  unfold mq_move_forward
  dsimp only
  split
  · rename_i r hr
    have hp := ins_first_after_perm _ _ _ _ hr
    have hs := split_at_mem id mq h
    have : (r.reverse ++ (mq.dropWhile (fun x => x != id)).drop 1).Perm
        ((id :: (mq.takeWhile (fun x => x != id)).reverse).reverse ++ (mq.dropWhile (fun x => x != id)).drop 1) :=
      List.Perm.append_right _ ((List.reverse_perm _).trans (hp.trans (List.reverse_perm _).symm))
    refine this.trans ?_
    rw [List.reverse_cons, List.reverse_reverse, List.append_assoc]
    simp only [List.singleton_append]
    exact List.Perm.of_eq hs.symm
  · exact List.Perm.refl _

theorem mq_move_backward_perm (f : Nat → Nat) (id left : Nat) (mq : List Nat) (h : id ∈ mq) :
    (mq_move_backward f id left mq).Perm mq := by
  unfold mq_move_backward
  dsimp only
  split
  · rename_i r hr
    have hp := ins_first_after_perm _ _ _ _ hr
    have hs := split_at_mem id mq h
    refine (List.Perm.append_left _ hp).trans ?_
    exact List.Perm.of_eq hs.symm
  · exact List.Perm.refl _

theorem mq_add_blk_perm (f : Nat → Nat) (nid nleft : Nat) (mq : List Nat) :
    (mq_add_blk f nid nleft mq).Perm (nid :: mq) := by
  unfold mq_add_blk
  split
  · rename_i h
    have : mq = [] := by simpa using h
    subst this; exact List.Perm.refl _
  · split
    · rename_i r hr
      have hp := ins_first_before_perm _ _ _ _ hr
      exact (List.reverse_perm _).trans (hp.trans (List.Perm.cons _ (List.reverse_perm _)))
    · exact List.perm_append_singleton _ _

/-! ## Bitmaps -/

theorem getD_set (l : List Bool) (i j : Nat) (v : Bool) :
    (l.set i v).getD j false = if i = j ∧ i < l.length then v else l.getD j false := by
  simp only [List.getD_eq_getElem?_getD, List.getElem?_set]
  by_cases h : i = j
  · subst h
    by_cases h2 : i < l.length
    · simp [h2]
    · simp [h2, List.getElem?_eq_none (Nat.le_of_not_lt h2)]
  · simp [h]

theorem count_set (l : List Bool) (i : Nat) (v : Bool) (h : i < l.length) :
    (l.set i v).count true + (if l.getD i false then 1 else 0)
      = l.count true + (if v then 1 else 0) := by
  induction l generalizing i with
  | nil => simp at h
  | cons a l ih =>
    cases i with
    | zero =>
      cases a <;> cases v <;> simp [List.count_cons]
    | succ i =>
      have h1 : i < l.length := by simpa using h
      have := ih i h1
      simp only [List.set_cons_succ, List.count_cons, List.getD_cons_succ]
      omega

theorem BIT_get_set (bm : List Bool) (n m : Nat) (hn : 1 ≤ n) (hm : 1 ≤ m) :
    BIT_get (BIT_set bm n) m = if n = m ∧ n - 1 < bm.length then true else BIT_get bm m := by
  unfold BIT_get BIT_set
  rw [getD_set]
  have : (n - 1 = m - 1) ↔ n = m := by omega
  simp only [this]

theorem BIT_get_clr (bm : List Bool) (n m : Nat) (hn : 1 ≤ n) (hm : 1 ≤ m) :
    BIT_get (BIT_clr bm n) m = if n = m ∧ n - 1 < bm.length then false else BIT_get bm m := by
  unfold BIT_get BIT_clr
  rw [getD_set]
  have : (n - 1 = m - 1) ↔ n = m := by omega
  simp only [this]

theorem BIT_set_length (bm : List Bool) (n : Nat) : (BIT_set bm n).length = bm.length := by
  simp [BIT_set]

theorem BIT_clr_length (bm : List Bool) (n : Nat) : (BIT_clr bm n).length = bm.length := by
  simp [BIT_clr]

theorem popcount_set (bm : List Bool) (n : Nat) (h : n - 1 < bm.length)
    (hb : BIT_get bm n = false) : popcount (BIT_set bm n) = popcount bm + 1 := by
  have := count_set bm (n - 1) true h
  unfold BIT_get at hb
  unfold popcount BIT_set
  rw [hb] at this
  simpa using this

theorem popcount_clr (bm : List Bool) (n : Nat) (h : n - 1 < bm.length)
    (hb : BIT_get bm n = true) : popcount (BIT_clr bm n) + 1 = popcount bm := by
  have := count_set bm (n - 1) false h
  unfold BIT_get at hb
  unfold popcount BIT_clr
  rw [hb] at this
  simpa using this

theorem popcount_replicate (k : Nat) : popcount (List.replicate k false) = 0 := by
  simp [popcount, List.count_replicate]

theorem BIT_get_replicate (k n : Nat) : BIT_get (List.replicate k false) n = false := by
  unfold BIT_get
  rw [List.getD_eq_getElem?_getD]
  by_cases h : n - 1 < k
  · simp [List.getElem?_replicate, h]
  · simp [List.getElem?_replicate, h]

/-- The search of `mpool_new` for a clear bit returns a slot of the block whose
bit is clear. -/
theorem scan_freeslot_ok (blk : mpool_blk_t) (bm : List Bool) (fs : Nat)
    (hu : blk.u16_num = (blk.num / 16) % 65536)
    (h : scan_freeslot blk bm = some fs) :
    1 ≤ fs ∧ fs ≤ blk.num ∧ BIT_get bm fs = false := by
  unfold scan_freeslot at h
  have hule : blk.u16_num ≤ blk.num / 16 := by rw [hu]; exact Nat.mod_le _ _
  split at h
  · rename_i w hw
    dsimp only at h
    split at h
    · rename_i j hj
      injection h with h
      have hj1 := List.find?_some hj
      have hj2 := List.mem_of_find?_eq_some hj
      have hw2 := List.mem_of_find?_eq_some hw
      simp only [List.mem_range] at hj2 hw2
      subst h
      refine ⟨by omega, by omega, ?_⟩
      simpa using hj1
    · exact absurd h (by simp)
  · dsimp only at h
    split at h
    · rename_i j hj
      injection h with h
      have hj1 := List.find?_some hj
      have hj2 := List.mem_of_find?_eq_some hj
      simp only [List.mem_range] at hj2
      subst h
      have : blk.num % 16 + 16 * (blk.num / 16) = blk.num := Nat.mod_add_div _ _
      refine ⟨by omega, by omega, ?_⟩
      simpa using hj1
    · exact absurd h (by simp)

/-! ## Bucket chains and header bytes -/

theorem chain_insert_sorted (nb : mpool_blk_t) (c : List mpool_blk_t)
    (h : c.Pairwise (fun a b => b.end_ ≤ a.end_)) :
    (chain_insert nb c).Pairwise (fun a b => b.end_ ≤ a.end_) := by
  induction c with
  | nil => simp [chain_insert]
  | cons it rest ih =>
    rw [List.pairwise_cons] at h
    unfold chain_insert
    split
    · rename_i hgt
      rw [List.pairwise_cons]
      refine ⟨?_, List.pairwise_cons.2 h⟩
      intro b hb
      rcases List.mem_cons.1 hb with hb | hb
      · subst hb; omega
      · have := h.1 b hb; omega
    · rename_i hle
      rw [List.pairwise_cons]
      refine ⟨?_, ih h.2⟩
      intro b hb
      rcases List.mem_cons.1 ((chain_insert_perm nb rest).mem_iff.1 hb) with hb | hb
      · subst hb; omega
      · exact h.1 b hb

theorem balance_slot_lt (el sl i : Nat) (cs : List Nat) (h : sl < i) :
    balance_slot el sl i cs < i + cs.length := by
  induction cs generalizing el sl i with
  | nil => simpa [balance_slot] using h
  | cons c cs ih =>
    unfold balance_slot
    split
    · simp; omega
    · split
      · have := ih c i (i + 1) (by omega)
        simp; omega
      · have := ih el sl (i + 1) (by omega)
        simp; omega

theorem lookup_append_of_mem (l1 l2 : List (Nat × Nat)) (a v : Nat)
    (h : ∀ e ∈ l1, e.2 = v) (ha : a ∈ l1.map Prod.fst) :
    (l1 ++ l2).lookup a = some v := by
  induction l1 with
  | nil => simp at ha
  | cons e l1 ih =>
    obtain ⟨k, w⟩ := e
    by_cases hk : a = k
    · subst hk
      have := h (a, w) (List.mem_cons_self _ _)
      simp at this
      simp [List.lookup, this]
    · have hne : (a == k) = false := by simpa using hk
      simp only [List.cons_append, List.lookup, hne]
      apply ih
      · intro e he; exact h e (List.mem_cons_of_mem _ he)
      · simp only [List.map_cons, List.mem_cons] at ha
        rcases ha with ha | ha
        · exact absurd ha hk
        · exact ha

theorem lookup_append_of_not_mem (l1 l2 : List (Nat × Nat)) (a : Nat)
    (ha : a ∉ l1.map Prod.fst) : (l1 ++ l2).lookup a = l2.lookup a := by
  induction l1 with
  | nil => rfl
  | cons e l1 ih =>
    obtain ⟨k, w⟩ := e
    simp only [List.map_cons, List.mem_cons, not_or] at ha
    have hne : (a == k) = false := by simpa using ha.1
    simp only [List.cons_append, List.lookup, hne]
    exact ih ha.2

theorem write_hdrs_in (mem : List (Nat × Nat)) (base objlen nobjs slot i : Nat)
    (hs : slot < 128) (hi : i < nobjs) :
    (write_hdrs mem base objlen nobjs slot).lookup (base + i * objlen) = some slot := by
  unfold write_hdrs
  apply lookup_append_of_mem
  · intro e he
    simp only [List.mem_map, List.mem_range] at he
    obtain ⟨j, _, rfl⟩ := he
    exact Nat.mod_eq_of_lt hs
  · simp only [List.map_map, List.mem_map, List.mem_range]
    exact ⟨i, hi, rfl⟩

theorem write_hdrs_out (mem : List (Nat × Nat)) (base objlen nobjs slot a : Nat)
    (ho : 0 < objlen) (ha : a < base ∨ base + nobjs * objlen ≤ a) :
    (write_hdrs mem base objlen nobjs slot).lookup a = mem.lookup a := by
  unfold write_hdrs
  apply lookup_append_of_not_mem
  simp only [List.map_map, List.mem_map, List.mem_range, not_exists, not_and]
  intro j hj heq
  simp only [Function.comp] at heq
  have : j * objlen + objlen ≤ nobjs * objlen := by
    have : (j + 1) * objlen ≤ nobjs * objlen := Nat.mul_le_mul_right _ hj
    rw [Nat.add_mul] at this; omega
  rcases ha with ha | ha
  · omega
  · omega

/-! ## The invariant: initial state, attributes, frame -/

theorem replicate_nil_getElem? (k i : Nat) (c : List mpool_blk_t)
    (h : (List.replicate k ([] : List mpool_blk_t))[i]? = some c) : c = [] := by
  have := List.getElem?_mem h
  exact (List.eq_of_mem_replicate this)

theorem flatten_replicate_nil (k : Nat) :
    (List.replicate k ([] : List mpool_blk_t)).flatten = [] := by
  induction k with
  | zero => rfl
  | succ k ih => simp [List.replicate_succ, ih]

theorem attr_check_ok (a : mpool_attr_t) :
    4096 ≤ (attr_check a).blk_size ∧ 0 ≤ (attr_check a).nmin_objs_cache ∧
      -1 ≤ (attr_check a).nmax_alloc := by
  obtain ⟨b, c, m⟩ := a
  unfold attr_check
  dsimp only
  split_ifs <;> dsimp only at * <;> omega

theorem Inv_init (objlen : Nat) (mp : mpool_t) (hfit : objlen < 2 ^ 64 - 4)
    (h : mpool_init objlen = some mp) : Inv mp [] := by
  have hwrap : ((4 - objlen % 4) + objlen) % 2 ^ 64 = (4 - objlen % 4) + objlen :=
    Nat.mod_eq_of_lt (by omega)
  unfold mpool_init at h
  rw [hwrap] at h
  split at h
  · rename_i hpos
    injection h with h
    subst h
    have hb : blocks (mpool_attr_set
      { align := 4 - objlen % 4
        objlen := (4 - objlen % 4) + objlen
        mq := []
        mbase := List.replicate 25 []
        mqnarray := List.replicate 25 0
        mbnum := 25
        nacquires := 0
        left := 0
        allocated := 0
        attr := ⟨0, 0, 0⟩
        mem := [] } m_default_attr) = [] := flatten_replicate_nil 25
    have hm := Nat.mod_lt objlen (show 0 < 4 by decide)
    refine
      { objlen_ge := ?_, align_pos := ?_, align_lt := ?_, mbnum_eq := rfl, mbase_len := ?_,
        mqn_len := ?_, mqn_eq := ?_, slot_eq := ?_, ids_nodup := ?_, chain_sorted := ?_,
        disjoint := ?_, blk := ?_, hdr := ?_, mq_nodup := ?_, mq_mem := ?_, left_eq := ?_,
        alloc_eq := ?_, live_nodup := ?_, live_iff := ?_, attr_blk := ?_, attr_cache := ?_,
        attr_max := ?_ }
    · show 4 ≤ (4 - objlen % 4) + objlen
      have := Nat.mod_le objlen 4
      omega
    · show 1 ≤ 4 - objlen % 4
      omega
    · show 4 - objlen % 4 < (4 - objlen % 4) + objlen
      omega
    · show (List.replicate 25 ([] : List mpool_blk_t)).length = 25
      simp
    · show (List.replicate 25 0).length = 25
      simp
    · intro i c hc
      have hc1 : (List.replicate 25 ([] : List mpool_blk_t))[i]? = some c := hc
      have := replicate_nil_getElem? _ _ _ hc1
      subst this
      show (List.replicate 25 0)[i]? = some 0
      have hi : i < 25 := by
        by_contra hge
        have hlen : (List.replicate 25 ([] : List mpool_blk_t)).length ≤ i := by simp; omega
        rw [List.getElem?_eq_none hlen] at hc1
        exact absurd hc1 (by simp)
      rw [List.getElem?_replicate]
      simp only [hi, if_true]
    · intro i c hc b hb1
      have hc1 : (List.replicate 25 ([] : List mpool_blk_t))[i]? = some c := hc
      have := replicate_nil_getElem? _ _ _ hc1
      subst this
      simp at hb1
    · rw [hb]; simp
    · intro c hc
      have hc1 : c ∈ List.replicate 25 ([] : List mpool_blk_t) := hc
      rw [List.eq_of_mem_replicate hc1]
      simp
    · intro a ha; rw [hb] at ha; simp at ha
    · intro a ha; rw [hb] at ha; simp at ha
    · intro a ha; rw [hb] at ha; simp at ha
    · show ([] : List Nat).Nodup
      simp
    · intro id
      rw [hb]
      show id ∈ ([] : List Nat) ↔ _
      simp
    · rw [hb]; rfl
    · rw [hb]; rfl
    · simp
    · intro ptr id
      rw [hb]; simp
    · exact (attr_check_ok m_default_attr).1
    · exact (attr_check_ok m_default_attr).2.1
    · exact (attr_check_ok m_default_attr).2.2
  · exact absurd h (by simp)

theorem Inv_attr_set (mp : mpool_t) (live : List (Nat × Nat)) (attr : mpool_attr_t)
    (h : Inv mp live) : Inv (mpool_attr_set mp attr) live :=
  { h with
    attr_blk := (attr_check_ok attr).1
    attr_cache := (attr_check_ok attr).2.1
    attr_max := (attr_check_ok attr).2.2 }

theorem Inv_nacquires (mp : mpool_t) (live : List (Nat × Nat)) (k : Nat)
    (h : Inv mp live) : Inv { mp with nacquires := k } live :=
  { h with }

theorem Inv_mq_perm (mp : mpool_t) (live : List (Nat × Nat)) (mq1 : List Nat)
    (h : Inv mp live) (hp : mq1.Perm mp.mq) : Inv { mp with mq := mq1 } live :=
  { h with
    mq_nodup := hp.nodup_iff.2 h.mq_nodup
    mq_mem := fun id => (hp.mem_iff).trans (h.mq_mem id) }

/-! ## The invariant: a new block -/

theorem link_blk_blocks (mp : mpool_t) (blk : mpool_blk_t) (hs : blk.slot < mp.mbase.length) :
    (blocks (link_blk mp blk)).Perm (blk :: blocks mp) := by
  have hc : mp.mbase[blk.slot]? = some (mp.mbase[blk.slot]) := List.getElem?_eq_getElem hs
  have hg : mp.mbase.getD blk.slot [] = mp.mbase[blk.slot] := by
    rw [List.getD_eq_getElem?_getD, hc]; rfl
  show (mp.mbase.set blk.slot (chain_insert blk (mp.mbase.getD blk.slot []))).flatten.Perm _
  rw [hg]
  exact flatten_set_perm _ _ _ _ blk hc (chain_insert_perm blk _)

theorem slot_region (objlen num i : Nat) (hi : i < num) :
    i * objlen + objlen ≤ num * objlen := by
  have : (i + 1) * objlen ≤ num * objlen := Nat.mul_le_mul_right _ hi
  rw [Nat.add_mul] at this
  omega

theorem link_blk_inv (mp : mpool_t) (live : List (Nat × Nat)) (blk : mpool_blk_t)
    (h : Inv mp live) (hid : id_fresh mp blk.id) (hfresh : buf_fresh mp blk.base blk.length)
    (hok : blk_ok mp.objlen blk) (hclr : ∀ n, BIT_get blk.bitmap n = false)
    (hleft : blk.left = blk.num) :
    Inv (link_blk mp blk) live := by
  have hs : blk.slot < mp.mbase.length := by rw [h.mbase_len]; exact hok.slot_lt
  have hc : mp.mbase[blk.slot]? = some (mp.mbase[blk.slot]) := List.getElem?_eq_getElem hs
  have hg : mp.mbase.getD blk.slot [] = mp.mbase[blk.slot] := by
    rw [List.getD_eq_getElem?_getD, hc]; rfl
  have hperm := link_blk_blocks mp blk hs
  have hmem : ∀ b, b ∈ blocks (link_blk mp blk) ↔ b = blk ∨ b ∈ blocks mp :=
    fun b => hperm.mem_iff.trans List.mem_cons
  have hmq : (mq_add_blk (blk_left mp) blk.id blk.left mp.mq).Perm (blk.id :: mp.mq) :=
    mq_add_blk_perm _ _ _ _
  have hnotmq : blk.id ∉ mp.mq := by
    intro hin
    obtain ⟨b, hb, hbid, _⟩ := (h.mq_mem blk.id).1 hin
    exact hid b hb hbid
  have hopos : 0 < mp.objlen := by have := h.objlen_ge; omega
  refine
    { objlen_ge := h.objlen_ge, align_pos := h.align_pos, align_lt := h.align_lt,
      mbnum_eq := h.mbnum_eq, mbase_len := ?_,
      mqn_len := ?_, mqn_eq := ?_, slot_eq := ?_, ids_nodup := ?_, chain_sorted := ?_,
      disjoint := ?_, blk := ?_, hdr := ?_, mq_nodup := ?_, mq_mem := ?_, left_eq := ?_,
      alloc_eq := ?_, live_nodup := h.live_nodup, live_iff := ?_, attr_blk := h.attr_blk,
      attr_cache := h.attr_cache, attr_max := h.attr_max }
  · show (mp.mbase.set _ _).length = 25
    rw [List.length_set]; exact h.mbase_len
  · show (mp.mqnarray.set _ _).length = 25
    rw [List.length_set]; exact h.mqn_len
  · intro i c hic
    have hic1 : (mp.mbase.set blk.slot (chain_insert blk (mp.mbase.getD blk.slot [])))[i]?
        = some c := hic
    show (mp.mqnarray.set blk.slot (mp.mqnarray.getD blk.slot 0 + 1))[i]? = some c.length
    by_cases hi : blk.slot = i
    · subst hi
      rw [List.getElem?_set_self hs] at hic1
      injection hic1 with hic1
      have hq := h.mqn_eq blk.slot _ hc
      have hs2 : blk.slot < mp.mqnarray.length := by rw [h.mqn_len]; exact hok.slot_lt
      rw [List.getElem?_set_self hs2, List.getD_eq_getElem?_getD, hq, ← hic1, hg,
        (chain_insert_perm blk _).length_eq]
      rfl
    · rw [List.getElem?_set_ne hi] at hic1
      rw [List.getElem?_set_ne hi]
      exact h.mqn_eq i c hic1
  · intro i c hic b hb
    have hic1 : (mp.mbase.set blk.slot (chain_insert blk (mp.mbase.getD blk.slot [])))[i]?
        = some c := hic
    by_cases hi : blk.slot = i
    · subst hi
      rw [List.getElem?_set_self hs] at hic1
      injection hic1 with hic1
      rw [← hic1, hg] at hb
      rcases List.mem_cons.1 ((chain_insert_perm blk _).mem_iff.1 hb) with hb | hb
      · rw [hb]
      · exact h.slot_eq blk.slot _ hc b hb
    · rw [List.getElem?_set_ne hi] at hic1
      exact h.slot_eq i c hic1 b hb
  · have := (hperm.map (fun b => b.id)).nodup_iff.2
    apply this
    rw [List.map_cons, List.nodup_cons]
    refine ⟨?_, h.ids_nodup⟩
    intro hin
    obtain ⟨b, hb, hbid⟩ := List.mem_map.1 hin
    exact hid b hb hbid
  · intro c hcm
    have hcm1 : c ∈ mp.mbase.set blk.slot (chain_insert blk (mp.mbase.getD blk.slot [])) := hcm
    rcases List.mem_or_eq_of_mem_set hcm1 with hcm2 | hcm2
    · exact h.chain_sorted c hcm2
    · rw [hcm2]
      apply chain_insert_sorted
      rw [hg]
      exact h.chain_sorted _ (List.getElem_mem _)
  · intro a ha b hb hne
    rcases (hmem a).1 ha with ha1 | ha1
    · rcases (hmem b).1 hb with hb1 | hb1
      · rw [ha1, hb1] at hne; exact absurd rfl hne
      · have := hfresh b hb1
        rw [ha1]; omega
    · rcases (hmem b).1 hb with hb1 | hb1
      · have := hfresh a ha1
        rw [hb1]; omega
      · exact h.disjoint a ha1 b hb1 hne
  · intro b hb
    rcases (hmem b).1 hb with hb | hb
    · subst hb; exact hok
    · exact h.blk b hb
  · intro b hb i hi
    show (write_hdrs mp.mem blk.base mp.objlen blk.num blk.slot).lookup (b.base + i * mp.objlen)
      = some b.slot
    rcases (hmem b).1 hb with hb | hb
    · subst hb
      exact write_hdrs_in _ _ _ _ _ _ (by have := hok.slot_lt; omega) hi
    · rw [write_hdrs_out _ _ _ _ _ _ hopos]
      · exact h.hdr b hb i hi
      · have h1 := hfresh b hb
        have h2 := (h.blk b hb).len_ge
        have h3 := hok.len_ge
        have h4 := slot_region mp.objlen b.num i hi
        omega
  · exact hmq.nodup_iff.2 (List.nodup_cons.2 ⟨hnotmq, h.mq_nodup⟩)
  · intro id
    show id ∈ mq_add_blk (blk_left mp) blk.id blk.left mp.mq ↔ _
    rw [hmq.mem_iff, List.mem_cons, h.mq_mem id]
    constructor
    · rintro (hid1 | ⟨b, hb, hbid, hbl⟩)
      · exact ⟨blk, (hmem blk).2 (Or.inl rfl), hid1.symm, by rw [hleft]; exact hok.num_pos⟩
      · exact ⟨b, (hmem b).2 (Or.inr hb), hbid, hbl⟩
    · rintro ⟨b, hb, hbid, hbl⟩
      rcases (hmem b).1 hb with hb | hb
      · subst hb; exact Or.inl hbid.symm
      · exact Or.inr ⟨b, hb, hbid, hbl⟩
  · show mp.left + blk.left = _
    rw [(hperm.map (fun b => b.left)).sum_eq, List.map_cons, List.sum_cons, h.left_eq]
    omega
  · show mp.allocated = _
    rw [(hperm.map (fun b => b.num - b.left)).sum_eq, List.map_cons, List.sum_cons, h.alloc_eq,
      hleft]
    omega
  · intro ptr id
    rw [h.live_iff ptr id]
    constructor
    · rintro ⟨b, hb, hbid, s, hs1, hs2, hbit, hptr⟩
      exact ⟨b, (hmem b).2 (Or.inr hb), hbid, s, hs1, hs2, hbit, hptr⟩
    · rintro ⟨b, hb, hbid, s, hs1, hs2, hbit, hptr⟩
      rcases (hmem b).1 hb with hb | hb
      · subst hb
        rw [hclr s] at hbit
        exact absurd hbit (by simp)
      · exact ⟨b, hb, hbid, s, hs1, hs2, hbit, hptr⟩

theorem mk_blk_ok (mp : mpool_t) (live : List (Nat × Nat)) (h : Inv mp live)
    (nblk buffer1 size1 nobjs : Nat) (mfree1 : mbuffer_free)
    (hn : 0 < nobjs) (hl : nobjs * mp.objlen ≤ size1) :
    blk_ok mp.objlen (mk_blk mp nblk buffer1 size1 nobjs mfree1) := by
  have hb : balance_slot (mp.mqnarray.getD 0 0) 0 1 ((mp.mqnarray.take mp.mbnum).drop 1) < 25 := by
    have := balance_slot_lt (mp.mqnarray.getD 0 0) 0 1 ((mp.mqnarray.take mp.mbnum).drop 1)
      (by omega)
    have hlen : ((mp.mqnarray.take mp.mbnum).drop 1).length = 24 := by
      rw [List.length_drop, List.length_take, h.mqn_len, h.mbnum_eq]
      rfl
    omega
  refine
    { num_pos := hn, end_eq := rfl, len_ge := hl, u16_eq := rfl, slot_lt := ?_, bm_len := ?_,
      bm_hi := ?_, left_eq := ?_, hint := ?_ }
  · show _ % 256 < 25
    rw [Nat.mod_eq_of_lt (by omega)]
    exact hb
  · show nobjs ≤ (List.replicate (8 * ((nobjs + 7) / 8)) false).length
    rw [List.length_replicate]
    omega
  · intro n _
    exact BIT_get_replicate _ _
  · show nobjs + popcount (List.replicate _ false) = nobjs
    rw [popcount_replicate]
    rfl
  · intro _
    exact ⟨Nat.le_refl 1, hn, BIT_get_replicate _ _⟩

theorem mpool_new_blk_inv (mp : mpool_t) (live : List (Nat × Nat)) (buffer size : Nat)
    (mfree : mbuffer_free) (nblk cbuf : Nat) (mp1 : mpool_t) (blk : mpool_blk_t)
    (h : Inv mp live) (hid : nblk ≠ 0 → id_fresh mp nblk)
    (hbuf : buffer ≠ 0 → buf_fresh mp buffer size)
    (hcbuf : cbuf ≠ 0 → buf_fresh mp cbuf (size / mp.objlen * mp.objlen))
    (hr : mpool_new_blk mp buffer size mfree nblk cbuf = some (mp1, blk)) :
    Inv mp1 live ∧ blk ∈ blocks mp1 ∧ blk.left = blk.num ∧ id_fresh mp blk.id ∧
      mp1 = link_blk mp blk := by
  have hopos : 0 < mp.objlen := by have := h.objlen_ge; omega
  unfold mpool_new_blk at hr
  split at hr
  · exact absurd hr (by simp)
  · rename_i h1
    have hsz : mp.objlen ≤ size := by
      by_contra hlt
      exact h1 (Or.inr (by omega))
    have hn : 0 < size / mp.objlen := Nat.div_pos hsz hopos
    split at hr
    · exact absurd hr (by simp)
    · rename_i h2
      split at hr
      · rename_i h3
        split at hr
        · exact absurd hr (by simp)
        · rename_i h4
          dsimp only at hr
          injection hr with hr
          injection hr with hr1 hr2
          subst hr2
          subst hr1
          have hok := mk_blk_ok mp live h nblk cbuf (size / mp.objlen * mp.objlen)
            (size / mp.objlen) mbuffer_free.free hn (Nat.le_refl _)
          have hs : (mk_blk mp nblk cbuf (size / mp.objlen * mp.objlen) (size / mp.objlen)
            mbuffer_free.free).slot < mp.mbase.length := by rw [h.mbase_len]; exact hok.slot_lt
          refine ⟨link_blk_inv mp live _ h (hid h2) (hcbuf h4) hok
            (fun n => BIT_get_replicate _ _) rfl, ?_, rfl, hid h2, rfl⟩
          exact (link_blk_blocks mp _ hs).mem_iff.2 (List.mem_cons_self _ _)
      · rename_i h3
        dsimp only at hr
        injection hr with hr
        injection hr with hr1 hr2
        subst hr2
        subst hr1
        have hok := mk_blk_ok mp live h nblk buffer size
          (size / mp.objlen) mfree hn (Nat.div_mul_le_self _ _)
        have hs : (mk_blk mp nblk buffer size (size / mp.objlen) mfree).slot < mp.mbase.length := by
          rw [h.mbase_len]; exact hok.slot_lt
        refine ⟨link_blk_inv mp live _ h (hid h2) (hbuf h3) hok
          (fun n => BIT_get_replicate _ _) rfl, ?_, rfl, hid h2, rfl⟩
        exact (link_blk_blocks mp _ hs).mem_iff.2 (List.mem_cons_self _ _)

/-! ## Block records addressed by `id` -/

theorem blk_unique (B : List mpool_blk_t) (hnd : (B.map (fun b => b.id)).Nodup)
    (a b : mpool_blk_t) (ha : a ∈ B) (hb : b ∈ B) (hid : a.id = b.id) : a = b :=
  List.inj_on_of_nodup_map hnd ha hb hid

theorem map_upd_of_not_mem (B : List mpool_blk_t) (nb : mpool_blk_t)
    (h : ∀ b ∈ B, b.id ≠ nb.id) :
    B.map (fun b => if b.id = nb.id then nb else b) = B := by
  have : B.map (fun b => if b.id = nb.id then nb else b) = B.map (fun b => b) := by
    apply List.map_congr_left
    intro b hb
    simp [h b hb]
  rw [this, List.map_id']

theorem sum_map_upd (B : List mpool_blk_t) (f : mpool_blk_t → Nat) (b0 nb : mpool_blk_t)
    (hnd : (B.map (fun b => b.id)).Nodup) (hb0 : b0 ∈ B) (hid : nb.id = b0.id) :
    ((B.map (fun b => if b.id = nb.id then nb else b)).map f).sum + f b0
      = (B.map f).sum + f nb := by
  induction B with
  | nil => simp at hb0
  | cons a B ih =>
    rw [List.map_cons, List.nodup_cons] at hnd
    by_cases ha : a.id = nb.id
    · have hab : a = b0 := by
        rcases List.mem_cons.1 hb0 with h1 | h1
        · exact h1.symm
        · exfalso
          apply hnd.1
          rw [ha, hid]
          exact List.mem_map.2 ⟨b0, h1, rfl⟩
      have hno : ∀ b ∈ B, b.id ≠ nb.id := by
        intro b hb hbid
        apply hnd.1
        rw [ha, ← hbid]
        exact List.mem_map.2 ⟨b, hb, rfl⟩
      rw [List.map_cons, map_upd_of_not_mem B nb hno]
      subst hab
      simp only [ha, if_true, List.map_cons, List.sum_cons]
      omega
    · have hb1 : b0 ∈ B := by
        rcases List.mem_cons.1 hb0 with h1 | h1
        · exact absurd (by rw [← h1, hid]) ha
        · exact h1
      have := ih hnd.2 hb1
      simp only [List.map_cons, ha, if_false, List.sum_cons]
      omega

theorem sum_filter_ne (B : List mpool_blk_t) (f : mpool_blk_t → Nat) (b0 : mpool_blk_t)
    (hnd : (B.map (fun b => b.id)).Nodup) (hb0 : b0 ∈ B) :
    ((B.filter (fun b => b.id != b0.id)).map f).sum + f b0 = (B.map f).sum := by
  induction B with
  | nil => simp at hb0
  | cons a B ih =>
    rw [List.map_cons, List.nodup_cons] at hnd
    by_cases ha : a.id = b0.id
    · have hab : a = b0 := by
        rcases List.mem_cons.1 hb0 with h1 | h1
        · exact h1.symm
        · exfalso
          apply hnd.1
          rw [ha]
          exact List.mem_map.2 ⟨b0, h1, rfl⟩
      have hno : ∀ b ∈ B, (b.id != b0.id) = true := by
        intro b hb
        simp only [bne_iff_ne, ne_eq]
        intro hbid
        apply hnd.1
        rw [ha, ← hbid]
        exact List.mem_map.2 ⟨b, hb, rfl⟩
      have hf : (a.id != b0.id) = false := by simp [ha]
      rw [List.filter_cons_of_neg (by simp [ha]), List.filter_eq_self.2 hno, List.map_cons,
        List.sum_cons, hab]
      omega
    · have hb1 : b0 ∈ B := by
        rcases List.mem_cons.1 hb0 with h1 | h1
        · exact absurd (by rw [← h1]) ha
        · exact h1
      have := ih hnd.2 hb1
      rw [List.filter_cons_of_pos (by simpa using ha)]
      simp only [List.map_cons, List.sum_cons]
      omega

theorem mem_blocks_of_chain (mp : mpool_t) (i : Nat) (c : List mpool_blk_t)
    (hc : mp.mbase[i]? = some c) (b : mpool_blk_t) (hb : b ∈ c) : b ∈ blocks mp :=
  List.mem_flatten.2 ⟨c, List.getElem?_mem hc, hb⟩

theorem chain_of_mem_blocks (mp : mpool_t) (live : List (Nat × Nat)) (h : Inv mp live)
    (b : mpool_blk_t) (hb : b ∈ blocks mp) :
    ∃ c, mp.mbase[b.slot]? = some c ∧ b ∈ c := by
  obtain ⟨c, hc, hbc⟩ := List.mem_flatten.1 hb
  obtain ⟨i, hi, hic⟩ := List.getElem_of_mem hc
  have hic1 : mp.mbase[i]? = some c := by rw [List.getElem?_eq_getElem hi, hic]
  have := h.slot_eq i c hic1 b hbc
  rw [this]
  exact ⟨c, hic1, hbc⟩

theorem popcount_zero (bm : List Bool) (h : popcount bm = 0) (n : Nat) : BIT_get bm n = false := by
  unfold popcount at h
  unfold BIT_get
  rw [List.getD_eq_getElem?_getD]
  cases hx : bm[n - 1]? with
  | none => rfl
  | some v =>
    cases v with
    | false => rfl
    | true =>
      have hm := List.getElem?_mem hx
      have := List.count_pos_iff.2 hm
      omega

/-! ## The invariant: update of one block record -/

theorem mem_blocks_upd (B : List mpool_blk_t) (b0 nb : mpool_blk_t)
    (hb0 : b0 ∈ B) (hid : nb.id = b0.id) (b : mpool_blk_t) :
    b ∈ B.map (fun b => if b.id = nb.id then nb else b) ↔ b = nb ∨ (b ∈ B ∧ b.id ≠ nb.id) := by
  rw [List.mem_map]
  constructor
  · rintro ⟨a, ha, rfl⟩
    by_cases h : a.id = nb.id
    · simp [h]
    · simp only [h, if_false]
      exact Or.inr ⟨ha, h⟩
  · rintro (h | ⟨h1, h2⟩)
    · exact ⟨b0, hb0, by simp [hid, h]⟩
    · exact ⟨b, h1, by simp [h2]⟩

theorem Inv_update (mp : mpool_t) (live : List (Nat × Nat)) (b0 nb : mpool_blk_t)
    (mq1 : List Nat) (left1 alloc1 : Nat) (live1 : List (Nat × Nat))
    (h : Inv mp live) (hb0 : b0 ∈ blocks mp) (hst : same_static b0 nb)
    (hbm_len : nb.num ≤ nb.bitmap.length)
    (hbm_hi : ∀ n, nb.num < n → BIT_get nb.bitmap n = false)
    (hleft : nb.left + popcount nb.bitmap = nb.num)
    (hhint : 0 < nb.left →
      1 ≤ nb.freeslot ∧ nb.freeslot ≤ nb.num ∧ BIT_get nb.bitmap nb.freeslot = false)
    (hmqnd : mq1.Nodup)
    (hmq : ∀ id, id ∈ mq1 ↔ (id ≠ nb.id ∧ id ∈ mp.mq) ∨ (id = nb.id ∧ 0 < nb.left))
    (hl : left1 + b0.left = mp.left + nb.left)
    (ha : alloc1 + (b0.num - b0.left) = mp.allocated + (nb.num - nb.left))
    (hlnd : (live1.map Prod.fst).Nodup)
    (hlo : ∀ ptr id, id ≠ nb.id → ((ptr, id) ∈ live1 ↔ (ptr, id) ∈ live))
    (hln : ∀ ptr, (ptr, nb.id) ∈ live1 ↔
      ∃ s, 1 ≤ s ∧ s ≤ nb.num ∧ BIT_get nb.bitmap s = true ∧ ptr = slot_ptr mp nb s) :
    Inv { mp with mbase := set_blk mp.mbase nb, mq := mq1, left := left1, allocated := alloc1 }
      live1 := by
  have hB0 : ∀ m : mpool_t, m.mbase = set_blk mp.mbase nb →
      blocks m = (blocks mp).map (fun b => if b.id = nb.id then nb else b) := by
    intro m hm
    unfold blocks
    rw [hm]
    exact flatten_set_blk mp.mbase nb
  have hB := hB0
    { mp with mbase := set_blk mp.mbase nb, mq := mq1, left := left1, allocated := alloc1 } rfl
  have hmem := mem_blocks_upd (blocks mp) b0 nb hb0 hst.id
  have hg : ∀ b ∈ blocks mp, b.id = nb.id → b = b0 := by
    intro b hb hbid
    exact blk_unique _ h.ids_nodup b b0 hb hb0 (by rw [hbid, hst.id])
  have hok0 := h.blk b0 hb0
  refine
    { objlen_ge := h.objlen_ge, align_pos := h.align_pos, align_lt := h.align_lt,
      mbnum_eq := h.mbnum_eq, mbase_len := ?_,
      mqn_len := h.mqn_len, mqn_eq := ?_, slot_eq := ?_, ids_nodup := ?_, chain_sorted := ?_,
      disjoint := ?_, blk := ?_, hdr := ?_, mq_nodup := hmqnd, mq_mem := ?_, left_eq := ?_,
      alloc_eq := ?_, live_nodup := hlnd, live_iff := ?_, attr_blk := h.attr_blk,
      attr_cache := h.attr_cache, attr_max := h.attr_max }
  · show (set_blk mp.mbase nb).length = 25
    unfold set_blk
    rw [List.length_map]; exact h.mbase_len
  · intro i c hic
    have hic1 : (set_blk mp.mbase nb)[i]? = some c := hic
    unfold set_blk at hic1
    rw [List.getElem?_map] at hic1
    cases hx : mp.mbase[i]? with
    | none => rw [hx] at hic1; exact absurd hic1 (by simp)
    | some c0 =>
      rw [hx] at hic1
      simp only [Option.map_some'] at hic1
      injection hic1 with hic1
      have := h.mqn_eq i c0 hx
      show mp.mqnarray[i]? = some c.length
      rw [this, ← hic1, List.length_map]
  · intro i c hic b hb
    have hic1 : (set_blk mp.mbase nb)[i]? = some c := hic
    unfold set_blk at hic1
    rw [List.getElem?_map] at hic1
    cases hx : mp.mbase[i]? with
    | none => rw [hx] at hic1; exact absurd hic1 (by simp)
    | some c0 =>
      rw [hx] at hic1
      simp only [Option.map_some'] at hic1
      injection hic1 with hic1
      rw [← hic1] at hb
      obtain ⟨a, ha1, ha2⟩ := List.mem_map.1 hb
      have hsl := h.slot_eq i c0 hx a ha1
      by_cases hai : a.id = nb.id
      · simp only [hai, if_true] at ha2
        have := hg a (mem_blocks_of_chain mp i c0 hx a ha1) hai
        rw [← ha2, hst.slot, ← this]
        exact hsl
      · simp only [hai, if_false] at ha2
        rw [← ha2]; exact hsl
  · rw [hB, List.map_map]
    have : (blocks mp).map ((fun b => b.id) ∘ fun b => if b.id = nb.id then nb else b)
        = (blocks mp).map (fun b => b.id) := by
      apply List.map_congr_left
      intro b _
      simp only [Function.comp]
      by_cases hbi : b.id = nb.id
      · simp [hbi]
      · simp [hbi]
    rw [this]
    exact h.ids_nodup
  · intro c hc
    have hc1 : c ∈ set_blk mp.mbase nb := hc
    unfold set_blk at hc1
    obtain ⟨c0, hc0, rfl⟩ := List.mem_map.1 hc1
    rw [List.pairwise_map]
    refine List.Pairwise.imp_of_mem ?_ (h.chain_sorted c0 hc0)
    intro a b ha hb hab
    have he : ∀ x ∈ c0, (if x.id = nb.id then nb else x).end_ = x.end_ := by
      intro x hx
      by_cases hxi : x.id = nb.id
      · simp only [hxi, if_true]
        have := hg x (List.mem_flatten.2 ⟨c0, hc0, hx⟩) hxi
        rw [hst.end_, this]
      · simp [hxi]
    rw [he a ha, he b hb]
    exact hab
  · intro a ha b hb hne
    rw [hB] at ha hb
    rcases (hmem a).1 ha with ha1 | ⟨ha1, ha2⟩
    · rcases (hmem b).1 hb with hb1 | ⟨hb1, hb2⟩
      · rw [ha1, hb1] at hne; exact absurd rfl hne
      · have := h.disjoint b0 hb0 b hb1 (by rw [← hst.id]; exact fun e => hb2 e.symm)
        rw [ha1, hst.base, hst.length]; exact this
    · rcases (hmem b).1 hb with hb1 | ⟨hb1, hb2⟩
      · have := h.disjoint a ha1 b0 hb0 (by rw [← hst.id]; exact ha2)
        rw [hb1, hst.base, hst.length]; exact this
      · exact h.disjoint a ha1 b hb1 hne
  · intro b hb
    rw [hB] at hb
    rcases (hmem b).1 hb with hb1 | ⟨hb1, _⟩
    · subst hb1
      exact
        { num_pos := (by rw [hst.num]; exact hok0.num_pos),
          end_eq := (by rw [hst.end_, hst.base, hst.num]; exact hok0.end_eq),
          len_ge := (by rw [hst.length, hst.num]; exact hok0.len_ge),
          u16_eq := (by rw [hst.u16_num, hst.num]; exact hok0.u16_eq),
          slot_lt := (by rw [hst.slot]; exact hok0.slot_lt),
          bm_len := hbm_len,
          bm_hi := hbm_hi,
          left_eq := hleft,
          hint := hhint }
    · exact h.blk b hb1
  · intro b hb i hi
    rw [hB] at hb
    show mp.mem.lookup (b.base + i * mp.objlen) = some b.slot
    rcases (hmem b).1 hb with hb1 | ⟨hb1, _⟩
    · subst hb1
      rw [hst.base, hst.slot]
      exact h.hdr b0 hb0 i (by rw [← hst.num]; exact hi)
    · exact h.hdr b hb1 i hi
  · intro id
    show id ∈ mq1 ↔ _
    rw [hmq id, hB]
    constructor
    · rintro (⟨h1, h2⟩ | ⟨h1, h2⟩)
      · obtain ⟨b, hb, hbid, hbl⟩ := (h.mq_mem id).1 h2
        exact ⟨b, (hmem b).2 (Or.inr ⟨hb, by rw [hbid]; exact h1⟩), hbid, hbl⟩
      · exact ⟨nb, (hmem nb).2 (Or.inl rfl), h1.symm, h2⟩
    · rintro ⟨b, hb, hbid, hbl⟩
      rcases (hmem b).1 hb with hb1 | ⟨hb1, hb2⟩
      · subst hb1; exact Or.inr ⟨hbid.symm, hbl⟩
      · exact Or.inl ⟨by rw [← hbid]; exact hb2, (h.mq_mem id).2 ⟨b, hb1, hbid, hbl⟩⟩
  · show left1 = _
    rw [hB]
    have := sum_map_upd (blocks mp) (fun b => b.left) b0 nb h.ids_nodup hb0 hst.id
    have h2 := h.left_eq
    simp only at this
    omega
  · show alloc1 = _
    rw [hB]
    have := sum_map_upd (blocks mp) (fun b => b.num - b.left) b0 nb h.ids_nodup hb0 hst.id
    have h2 := h.alloc_eq
    simp only at this
    omega
  · intro ptr id
    rw [hB]
    by_cases hid : id = nb.id
    · subst hid
      rw [hln ptr]
      constructor
      · rintro ⟨s, hs⟩
        exact ⟨nb, (hmem nb).2 (Or.inl rfl), rfl, s, hs⟩
      · rintro ⟨b, hb, hbid, s, hs⟩
        rcases (hmem b).1 hb with hb1 | ⟨_, hb2⟩
        · subst hb1; exact ⟨s, hs⟩
        · exact absurd hbid hb2
    · rw [hlo ptr id hid, h.live_iff ptr id]
      constructor
      · rintro ⟨b, hb, hbid, hs⟩
        exact ⟨b, (hmem b).2 (Or.inr ⟨hb, by rw [hbid]; exact hid⟩), hbid, hs⟩
      · rintro ⟨b, hb, hbid, hs⟩
        rcases (hmem b).1 hb with hb1 | ⟨hb1, _⟩
        · subst hb1; exact absurd hbid.symm hid
        · exact ⟨b, hb1, hbid, hs⟩

/-! ## The invariant: taking an object -/

theorem le_sum_map (B : List mpool_blk_t) (f : mpool_blk_t → Nat) (b : mpool_blk_t)
    (hb : b ∈ B) : f b ≤ (B.map f).sum := by
  induction B with
  | nil => simp at hb
  | cons a B ih =>
    rw [List.map_cons, List.sum_cons]
    rcases List.mem_cons.1 hb with h | h
    · subst h; omega
    · have := ih h; omega

theorem take_obj_some (mp : mpool_t) (blk : mpool_blk_t) (mp1 : mpool_t) (ptr : Nat)
    (hu : blk.u16_num = (blk.num / 16) % 65536)
    (hr : take_obj mp blk = some (mp1, ptr)) :
    0 < blk.left ∧ 1 ≤ blk.freeslot ∧ blk.freeslot ≤ blk.num ∧
    BIT_get blk.bitmap blk.freeslot = false ∧ ptr = slot_ptr mp blk blk.freeslot ∧
    ∃ fs,
      (blk.left - 1 = 0 → fs = blk.freeslot) ∧
      (blk.left - 1 ≠ 0 → 1 ≤ fs ∧ fs ≤ blk.num ∧
        BIT_get (BIT_set blk.bitmap blk.freeslot) fs = false) ∧
      mp1 = { mp with
                mbase := set_blk mp.mbase (taken_blk blk fs)
                mq := if blk.left - 1 = 0 then mp.mq.erase blk.id
                      else mq_move_forward (blk_left mp) blk.id (blk.left - 1) mp.mq
                left := mp.left - 1
                allocated := mp.allocated + 1 } := by
  unfold take_obj at hr
  split at hr
  · exact absurd hr (by simp)
  · rename_i h1
    have h1' : blk.left > 0 ∧ (blk.freeslot ≥ 1 ∧ blk.freeslot ≤ blk.num) := by
      by_contra hc; exact h1 hc
    split at hr
    · exact absurd hr (by simp)
    · rename_i h2
      have h2' : BIT_get blk.bitmap blk.freeslot = false := by
        cases hx : BIT_get blk.bitmap blk.freeslot with
        | false => rfl
        | true => exact absurd hx h2
      refine ⟨h1'.1, h1'.2.1, h1'.2.2, h2', ?_⟩
      dsimp only at hr
      split at hr
      · rename_i h3
        injection hr with hr
        injection hr with hr1 hr2
        refine ⟨hr2.symm, blk.freeslot, fun _ => rfl, fun hne => absurd h3 hne, ?_⟩
        rw [← hr1, if_pos h3]
        rfl
      · rename_i h3
        split at hr
        · exact absurd hr (by simp)
        · rename_i fs hfs
          injection hr with hr
          injection hr with hr1 hr2
          refine ⟨hr2.symm, fs, fun he => absurd he h3, fun _ => ?_, ?_⟩
          · split at hfs
            · have := scan_freeslot_ok blk _ fs hu hfs
              exact this
            · rename_i h4
              injection hfs with hfs
              subst hfs
              have h4' : ¬ (blk.freeslot + 1 > blk.num) ∧
                  ¬ (BIT_get (BIT_set blk.bitmap blk.freeslot) (blk.freeslot + 1) = true) := by
                constructor
                · intro hc; exact h4 (Or.inl hc)
                · intro hc; exact h4 (Or.inr hc)
              refine ⟨by omega, by omega, ?_⟩
              cases hx : BIT_get (BIT_set blk.bitmap blk.freeslot) (blk.freeslot + 1) with
              | false => rfl
              | true => exact absurd hx h4'.2
          · rw [← hr1, if_neg h3]
            rfl

theorem slot_ptr_inj (mp : mpool_t) (b : mpool_blk_t) (s t : Nat) (ho : 0 < mp.objlen)
    (hs : 1 ≤ s) (ht : 1 ≤ t) (h : slot_ptr mp b s = slot_ptr mp b t) : s = t := by
  unfold slot_ptr at h
  have h1 : (s - 1) * mp.objlen = (t - 1) * mp.objlen := by omega
  have := Nat.eq_of_mul_eq_mul_right ho h1
  omega

theorem slot_ptr_range (mp : mpool_t) (live : List (Nat × Nat)) (h : Inv mp live)
    (b : mpool_blk_t) (hb : b ∈ blocks mp) (s : Nat) (hs1 : 1 ≤ s) (hs2 : s ≤ b.num) :
    b.base ≤ slot_ptr mp b s - mp.align ∧ slot_ptr mp b s - mp.align ≤ b.end_ ∧
      b.base < slot_ptr mp b s ∧ slot_ptr mp b s < b.base + b.length ∧
      slot_ptr mp b s - mp.align = b.base + (s - 1) * mp.objlen := by
  have hok := h.blk b hb
  have h1 := slot_region mp.objlen b.num (s - 1) (by omega)
  have h2 := hok.len_ge
  have h3 := h.align_lt
  have h4 := h.align_pos
  have h5 : (s - 1) * mp.objlen ≤ (b.num - 1) * mp.objlen := Nat.mul_le_mul_right _ (by omega)
  rw [hok.end_eq]
  unfold slot_ptr
  refine ⟨by omega, by omega, by omega, by omega, by omega⟩

/-- Two slots with the same address are the same slot of the same block. -/
theorem slot_ptr_unique (mp : mpool_t) (live : List (Nat × Nat)) (h : Inv mp live)
    (a b : mpool_blk_t) (ha : a ∈ blocks mp) (hb : b ∈ blocks mp) (s t : Nat)
    (hs1 : 1 ≤ s) (hs2 : s ≤ a.num) (ht1 : 1 ≤ t) (ht2 : t ≤ b.num)
    (he : slot_ptr mp a s = slot_ptr mp b t) : a = b ∧ s = t := by
  have hab : a = b := by
    by_contra hne
    have hid : a.id ≠ b.id := fun e => hne (blk_unique _ h.ids_nodup a b ha hb e)
    have hd := h.disjoint a ha b hb hid
    have hra := slot_ptr_range mp live h a ha s hs1 hs2
    have hrb := slot_ptr_range mp live h b hb t ht1 ht2
    omega
  subst hab
  exact ⟨rfl, slot_ptr_inj mp a s t (by have := h.objlen_ge; omega) hs1 ht1 he⟩

theorem take_obj_inv (mp : mpool_t) (live : List (Nat × Nat)) (blk : mpool_blk_t)
    (mp1 : mpool_t) (ptr : Nat) (h : Inv mp live) (hb : blk ∈ blocks mp)
    (hr : take_obj mp blk = some (mp1, ptr)) :
    Inv mp1 ((ptr, blk.id) :: live) ∧ ptr ≠ 0 := by
  have hok := h.blk blk hb
  obtain ⟨hl, hf1, hf2, hbit, hptr, fs, hfs0, hfs1, hmp1⟩ :=
    take_obj_some mp blk mp1 ptr hok.u16_eq hr
  have hopos : 0 < mp.objlen := by have := h.objlen_ge; omega
  have hidx : blk.freeslot - 1 < blk.bitmap.length := by have := hok.bm_len; omega
  have hinmq : blk.id ∈ mp.mq := (h.mq_mem blk.id).2 ⟨blk, hb, rfl, hl⟩
  have hpc := popcount_set blk.bitmap blk.freeslot hidx hbit
  have hleq := hok.left_eq
  have hsum := le_sum_map (blocks mp) (fun b => b.left) blk hb
  have hleft := h.left_eq
  have hpne : ptr ≠ 0 := by
    rw [hptr]; unfold slot_ptr; have := h.align_pos; omega
  refine ⟨?_, hpne⟩
  rw [hmp1]
  apply Inv_update mp live blk (taken_blk blk fs) _ _ _ _ h hb
  · exact ⟨rfl, rfl, rfl, rfl, rfl, rfl, rfl, rfl⟩
  · show blk.num ≤ (BIT_set blk.bitmap blk.freeslot).length
    rw [BIT_set_length]; exact hok.bm_len
  · intro n hn
    have hn1 : blk.num < n := hn
    show BIT_get (BIT_set blk.bitmap blk.freeslot) n = false
    rw [BIT_get_set _ _ _ hf1 (by omega)]
    have : ¬ (blk.freeslot = n ∧ blk.freeslot - 1 < blk.bitmap.length) := by omega
    simp only [this, if_false]
    exact hok.bm_hi n hn
  · show blk.left - 1 + popcount (BIT_set blk.bitmap blk.freeslot) = blk.num
    omega
  · intro hpos
    have hpos1 : 0 < blk.left - 1 := hpos
    exact hfs1 (by omega)
  · split
    · exact h.mq_nodup.erase _
    · exact (mq_move_forward_perm _ _ _ _ hinmq).nodup_iff.2 h.mq_nodup
  · intro id
    show _ ↔ (id ≠ blk.id ∧ id ∈ mp.mq) ∨ (id = blk.id ∧ 0 < blk.left - 1)
    split
    · rename_i h0
      rw [h.mq_nodup.mem_erase_iff]
      constructor
      · rintro ⟨h1, h2⟩; exact Or.inl ⟨h1, h2⟩
      · rintro (⟨h1, h2⟩ | ⟨_, h2⟩)
        · exact ⟨h1, h2⟩
        · omega
    · rename_i h0
      rw [(mq_move_forward_perm _ _ _ _ hinmq).mem_iff]
      constructor
      · intro hin
        by_cases hid : id = blk.id
        · exact Or.inr ⟨hid, by omega⟩
        · exact Or.inl ⟨hid, hin⟩
      · rintro (⟨_, h2⟩ | ⟨h1, _⟩)
        · exact h2
        · rw [h1]; exact hinmq
  · show mp.left - 1 + blk.left = mp.left + (blk.left - 1)
    simp only at hsum
    omega
  · show mp.allocated + 1 + (blk.num - blk.left) = mp.allocated + (blk.num - (blk.left - 1))
    omega
  · rw [List.map_cons, List.nodup_cons]
    refine ⟨?_, h.live_nodup⟩
    intro hin
    obtain ⟨e, he, hee⟩ := List.mem_map.1 hin
    obtain ⟨p2, id2⟩ := e
    simp only at hee
    subst hee
    obtain ⟨b2, hb2, _, s2, hs1, hs2, hbit2, hp2⟩ := (h.live_iff p2 id2).1 he
    rw [hptr] at hp2
    obtain ⟨hbb, hss⟩ := slot_ptr_unique mp live h blk b2 hb hb2 blk.freeslot s2 hf1 hf2 hs1 hs2 hp2
    subst hbb
    rw [← hss, hbit] at hbit2
    exact absurd hbit2 (by simp)
  · intro p id hid
    rw [List.mem_cons]
    constructor
    · rintro (h1 | h1)
      · injection h1 with _ h2
        exact absurd h2 hid
      · exact h1
    · intro h1; exact Or.inr h1
  · intro p
    show (p, blk.id) ∈ (ptr, blk.id) :: live ↔
      ∃ s, 1 ≤ s ∧ s ≤ blk.num ∧ BIT_get (BIT_set blk.bitmap blk.freeslot) s = true ∧
        p = slot_ptr mp (taken_blk blk fs) s
    have hsp : ∀ s, slot_ptr mp (taken_blk blk fs) s = slot_ptr mp blk s := fun s => rfl
    rw [List.mem_cons]
    constructor
    · rintro (h1 | h1)
      · injection h1 with h1 _
        refine ⟨blk.freeslot, hf1, hf2, ?_, ?_⟩
        · rw [BIT_get_set _ _ _ hf1 hf1]; simp [hidx]
        · rw [h1, hptr, hsp]
      · obtain ⟨b2, hb2, hbid, s, hs1, hs2, hbit2, hp2⟩ := (h.live_iff p blk.id).1 h1
        have := blk_unique _ h.ids_nodup b2 blk hb2 hb hbid
        subst this
        refine ⟨s, hs1, hs2, ?_, ?_⟩
        · rw [BIT_get_set _ _ _ hf1 hs1]
          split
          · rfl
          · exact hbit2
        · rw [hp2, hsp]
    · rintro ⟨s, hs1, hs2, hbit2, hp2⟩
      rw [BIT_get_set _ _ _ hf1 hs1] at hbit2
      by_cases hsf : blk.freeslot = s
      · left
        rw [hp2, hsp, ← hsf, hptr]
      · right
        have : ¬ (blk.freeslot = s ∧ blk.freeslot - 1 < blk.bitmap.length) := fun hc => hsf hc.1
        simp only [this, if_false] at hbit2
        exact (h.live_iff p blk.id).2 ⟨blk, hb, rfl, s, hs1, hs2, hbit2, by rw [hp2, hsp]⟩

theorem get_blk_some (mp : mpool_t) (id : Nat) (b : mpool_blk_t) (h : get_blk mp id = some b) :
    b ∈ blocks mp ∧ b.id = id := by
  unfold get_blk at h
  refine ⟨List.mem_of_find?_eq_some h, ?_⟩
  have := List.find?_some h
  simpa using this

theorem get_blk_of_mem (mp : mpool_t) (live : List (Nat × Nat)) (h : Inv mp live)
    (b : mpool_blk_t) (hb : b ∈ blocks mp) : get_blk mp b.id = some b := by
  cases hx : get_blk mp b.id with
  | none =>
    unfold get_blk at hx
    rw [List.find?_eq_none] at hx
    have := hx b hb
    simp at this
  | some a =>
    obtain ⟨ha, haid⟩ := get_blk_some mp b.id a hx
    rw [blk_unique _ h.ids_nodup a b ha hb haid]

theorem mpool_new_core_inv (mp : mpool_t) (live : List (Nat × Nat)) (nblk cbuf : Nat)
    (mp1 : mpool_t) (ptr id : Nat) (h : Inv mp live)
    (hid : nblk ≠ 0 → id_fresh mp nblk)
    (hcbuf : cbuf ≠ 0 → buf_fresh mp cbuf (new_blk_size mp / mp.objlen * mp.objlen))
    (hr : mpool_new_core mp nblk cbuf = some (mp1, ptr, id)) :
    Inv mp1 (if ptr = 0 then live else (ptr, id) :: live) := by
  have h1 := Inv_nacquires mp live (mp.nacquires + 1) h
  unfold mpool_new_core at hr
  dsimp only at hr
  split at hr
  · injection hr with hr
    injection hr with hr1 hr2
    injection hr2 with hr2 hr3
    subst hr1; subst hr2
    simpa using h1
  · split at hr
    · rename_i id0 rest hmq
      split at hr
      · rename_i blk hblk
        cases ht : take_obj { mp with nacquires := mp.nacquires + 1 } blk with
        | none => rw [ht] at hr; exact absurd hr (by simp)
        | some r =>
          obtain ⟨m2, p2⟩ := r
          rw [ht] at hr
          simp only [Option.map_some'] at hr
          injection hr with hr
          injection hr with hr1 hr2
          injection hr2 with hr2 hr3
          subst hr1; subst hr2; subst hr3
          obtain ⟨hb, _⟩ := get_blk_some _ _ _ hblk
          obtain ⟨hinv, hne⟩ := take_obj_inv _ live blk m2 p2 h1 hb ht
          simp only [hne, if_false]
          exact hinv
      · exact absurd hr (by simp)
    · split at hr
      · injection hr with hr
        injection hr with hr1 hr2
        injection hr2 with hr2 hr3
        subst hr1; subst hr2
        simpa using h1
      · rename_i m2 blk hnb
        obtain ⟨hinv2, hb2, _, _, _⟩ := mpool_new_blk_inv _ live 0 _ mbuffer_free.null nblk cbuf
          m2 blk h1 hid (fun hc => absurd rfl hc) hcbuf hnb
        cases ht : take_obj m2 blk with
        | none => rw [ht] at hr; exact absurd hr (by simp)
        | some r =>
          obtain ⟨m3, p3⟩ := r
          rw [ht] at hr
          simp only [Option.map_some'] at hr
          injection hr with hr
          injection hr with hr1 hr2
          injection hr2 with hr2 hr3
          subst hr1; subst hr2; subst hr3
          obtain ⟨hinv, hne⟩ := take_obj_inv _ live blk m3 p3 hinv2 hb2 ht
          simp only [hne, if_false]
          exact hinv

/-! ## The invariant: release of a fully free block -/

theorem length_filter_ne (B : List mpool_blk_t) (b0 : mpool_blk_t)
    (hnd : (B.map (fun b => b.id)).Nodup) (hb0 : b0 ∈ B) :
    (B.filter (fun b => b.id != b0.id)).length + 1 = B.length := by
  have := sum_filter_ne B (fun _ => 1) b0 hnd hb0
  simpa using this

theorem mem_filter_ne (B : List mpool_blk_t) (id : Nat) (b : mpool_blk_t) :
    b ∈ B.filter (fun b => b.id != id) ↔ b ∈ B ∧ b.id ≠ id := by
  simp [List.mem_filter]

theorem popcount_pos (bm : List Bool) (n : Nat) (h : BIT_get bm n = true) : 0 < popcount bm := by
  by_contra hc
  have := popcount_zero bm (by omega) n
  rw [this] at h
  exact absurd h (by simp)

theorem blocks_unlink (mp : mpool_t) (b : mpool_blk_t) :
    blocks (unlink_blk mp b) = (blocks mp).filter (fun x => x.id != b.id) :=
  flatten_hlist_del mp.mbase b.id

theorem Inv_release (mp : mpool_t) (live : List (Nat × Nat)) (b : mpool_blk_t)
    (h : Inv mp live) (hb : b ∈ blocks mp) (hfull : b.left = b.num) :
    Inv (unlink_blk mp b) live := by
  have hB := blocks_unlink mp b
  have hmem : ∀ x, x ∈ blocks (unlink_blk mp b) ↔ x ∈ blocks mp ∧ x.id ≠ b.id := by
    intro x; rw [hB]; exact mem_filter_ne _ _ _
  obtain ⟨c0, hc0, hbc0⟩ := chain_of_mem_blocks mp live h b hb
  have hok := h.blk b hb
  have hpc : popcount b.bitmap = 0 := by have := hok.left_eq; omega
  have hchain : ∀ (i : Nat) (c : List mpool_blk_t), (hlist_del mp.mbase b.id)[i]? = some c →
      ∃ c1, mp.mbase[i]? = some c1 ∧ c = c1.filter (fun x => x.id != b.id) := by
    intro i c hic
    unfold hlist_del at hic
    rw [List.getElem?_map] at hic
    cases hx : mp.mbase[i]? with
    | none => rw [hx] at hic; exact absurd hic (by simp)
    | some c1 =>
      rw [hx] at hic
      simp only [Option.map_some'] at hic
      injection hic with hic
      exact ⟨c1, rfl, hic.symm⟩
  refine
    { objlen_ge := h.objlen_ge, align_pos := h.align_pos, align_lt := h.align_lt,
      mbnum_eq := h.mbnum_eq, mbase_len := ?_,
      mqn_len := ?_, mqn_eq := ?_, slot_eq := ?_, ids_nodup := ?_, chain_sorted := ?_,
      disjoint := ?_, blk := ?_, hdr := ?_, mq_nodup := ?_, mq_mem := ?_, left_eq := ?_,
      alloc_eq := ?_, live_nodup := h.live_nodup, live_iff := ?_, attr_blk := h.attr_blk,
      attr_cache := h.attr_cache, attr_max := h.attr_max }
  · show (hlist_del mp.mbase b.id).length = 25
    unfold hlist_del
    rw [List.length_map]; exact h.mbase_len
  · show (mp.mqnarray.set _ _).length = 25
    rw [List.length_set]; exact h.mqn_len
  · intro i c hic
    obtain ⟨c1, hc1, hcc⟩ := hchain i c hic
    show (mp.mqnarray.set b.slot (mp.mqnarray.getD b.slot 0 - 1))[i]? = some c.length
    have hq := h.mqn_eq i c1 hc1
    by_cases hi : b.slot = i
    · subst hi
      rw [hc0] at hc1
      injection hc1 with hc1
      subst hc1
      have hs2 : b.slot < mp.mqnarray.length := by rw [h.mqn_len]; exact hok.slot_lt
      have hnd : (c0.map (fun x => x.id)).Nodup :=
        List.Nodup.sublist ((List.sublist_flatten_of_mem (List.getElem?_mem hc0)).map _)
          h.ids_nodup
      have hlen := length_filter_ne c0 b hnd hbc0
      rw [List.getElem?_set_self hs2, List.getD_eq_getElem?_getD, hq, hcc]
      simp only [Option.getD_some]
      congr 1
      omega
    · rw [List.getElem?_set_ne hi, hq, hcc]
      congr 2
      symm
      rw [List.filter_eq_self]
      intro a ha
      simp only [bne_iff_ne, ne_eq]
      intro haid
      have hab := blk_unique _ h.ids_nodup a b (mem_blocks_of_chain mp i c1 hc1 a ha) hb haid
      have := h.slot_eq i c1 hc1 a ha
      rw [hab] at this
      exact hi this
  · intro i c hic x hx
    obtain ⟨c1, hc1, hcc⟩ := hchain i c hic
    rw [hcc] at hx
    exact h.slot_eq i c1 hc1 x (List.mem_of_mem_filter hx)
  · rw [hB]
    exact List.Nodup.sublist ((List.filter_sublist _).map _) h.ids_nodup
  · intro c hc
    have hc1 : c ∈ hlist_del mp.mbase b.id := hc
    unfold hlist_del at hc1
    obtain ⟨c1, hc1m, rfl⟩ := List.mem_map.1 hc1
    exact (h.chain_sorted c1 hc1m).filter _
  · intro x hx y hy hne
    exact h.disjoint x ((hmem x).1 hx).1 y ((hmem y).1 hy).1 hne
  · intro x hx
    exact h.blk x ((hmem x).1 hx).1
  · intro x hx i hi
    exact h.hdr x ((hmem x).1 hx).1 i hi
  · exact h.mq_nodup.erase _
  · intro id
    show id ∈ mp.mq.erase b.id ↔ _
    rw [h.mq_nodup.mem_erase_iff, h.mq_mem id]
    constructor
    · rintro ⟨h1, x, hx, hxid, hxl⟩
      exact ⟨x, (hmem x).2 ⟨hx, by rw [hxid]; exact h1⟩, hxid, hxl⟩
    · rintro ⟨x, hx, hxid, hxl⟩
      have := (hmem x).1 hx
      exact ⟨by rw [← hxid]; exact this.2, x, this.1, hxid, hxl⟩
  · show mp.left - b.left = _
    rw [hB]
    have := sum_filter_ne (blocks mp) (fun x => x.left) b h.ids_nodup hb
    have h2 := h.left_eq
    simp only at this
    omega
  · show mp.allocated = _
    rw [hB]
    have := sum_filter_ne (blocks mp) (fun x => x.num - x.left) b h.ids_nodup hb
    have h2 := h.alloc_eq
    simp only at this
    omega
  · intro ptr id
    rw [h.live_iff ptr id]
    constructor
    · rintro ⟨x, hx, hxid, s, hs1, hs2, hbit, hp⟩
      refine ⟨x, (hmem x).2 ⟨hx, ?_⟩, hxid, s, hs1, hs2, hbit, hp⟩
      intro hxb
      have := blk_unique _ h.ids_nodup x b hx hb hxb
      subst this
      rw [popcount_zero _ hpc s] at hbit
      exact absurd hbit (by simp)
    · rintro ⟨x, hx, hxid, s, hs1, hs2, hbit, hp⟩
      exact ⟨x, ((hmem x).1 hx).1, hxid, s, hs1, hs2, hbit, hp⟩

/-! ## The lookup of `mpool_delete` -/

theorem end_lt_region (mp : mpool_t) (live : List (Nat × Nat)) (h : Inv mp live)
    (b : mpool_blk_t) (hb : b ∈ blocks mp) : b.end_ < b.base + b.length := by
  have hok := h.blk b hb
  have h1 := slot_region mp.objlen b.num (b.num - 1) (by have := hok.num_pos; omega)
  have h2 := hok.len_ge
  have h3 := h.objlen_ge
  rw [hok.end_eq]
  omega

/-- At most one block of the Directory has the address in its range
`[base, end]`. -/
theorem contains_unique (mp : mpool_t) (live : List (Nat × Nat)) (h : Inv mp live)
    (a b : mpool_blk_t) (ha : a ∈ blocks mp) (hb : b ∈ blocks mp) (optr : Nat)
    (ha1 : a.base ≤ optr) (ha2 : optr ≤ a.end_) (hb1 : b.base ≤ optr) (hb2 : optr ≤ b.end_) :
    a = b := by
  by_contra hne
  have hid : a.id ≠ b.id := fun e => hne (blk_unique _ h.ids_nodup a b ha hb e)
  have hd := h.disjoint a ha b hb hid
  have h1 := end_lt_region mp live h a ha
  have h2 := end_lt_region mp live h b hb
  omega

theorem lookup_blk_chain (mp : mpool_t) (live : List (Nat × Nat)) (h : Inv mp live)
    (b : mpool_blk_t) (hb : b ∈ blocks mp) (optr : Nat)
    (hb1 : b.base ≤ optr) (hb2 : optr ≤ b.end_) (c : List mpool_blk_t)
    (hc : ∀ a ∈ c, a ∈ blocks mp) (hs : c.Pairwise (fun x y => y.end_ ≤ x.end_))
    (hbc : b ∈ c) : lookup_blk optr c = some (some b) := by
  induction c with
  | nil => simp at hbc
  | cons a rest ih =>
    rw [List.pairwise_cons] at hs
    unfold lookup_blk
    by_cases hab : a = b
    · subst hab
      rw [if_neg (by omega), if_pos (by omega)]
    · have hbr : b ∈ rest := by
        rcases List.mem_cons.1 hbc with h1 | h1
        · exact absurd h1.symm hab
        · exact h1
      have hle := hs.1 b hbr
      rw [if_neg (by omega)]
      have hnb : ¬ (optr ≥ a.base) := by
        intro hge
        exact hab (contains_unique mp live h a b (hc a (List.mem_cons_self _ _)) hb optr hge
          (by omega) hb1 hb2)
      rw [if_neg hnb]
      exact ih (fun x hx => hc x (List.mem_cons_of_mem _ hx)) hs.2 hbr

theorem lookup_blk_found (mp : mpool_t) (live : List (Nat × Nat)) (h : Inv mp live)
    (b : mpool_blk_t) (hb : b ∈ blocks mp) (optr : Nat)
    (hb1 : b.base ≤ optr) (hb2 : optr ≤ b.end_) :
    lookup_blk optr (mp.mbase.getD b.slot []) = some (some b) := by
  obtain ⟨c, hc, hbc⟩ := chain_of_mem_blocks mp live h b hb
  have hg : mp.mbase.getD b.slot [] = c := by
    rw [List.getD_eq_getElem?_getD, hc]; rfl
  rw [hg]
  exact lookup_blk_chain mp live h b hb optr hb1 hb2 c
    (fun a ha => mem_blocks_of_chain mp b.slot c hc a ha)
    (h.chain_sorted c (List.getElem?_mem hc)) hbc

/-- The debug check passes when the header byte is known and every block whose
range holds the address satisfies the checks. -/
theorem assert_ptr_true (mp : mpool_t) (live : List (Nat × Nat)) (h : Inv mp live)
    (optr f_slot : Nat) (allocated : Bool)
    (hm : mp.mem.lookup optr = some f_slot) (hf : f_slot < 25)
    (hall : ∀ b ∈ blocks mp, b.base ≤ optr → optr ≤ b.end_ →
      (optr - b.base) % mp.objlen = 0 ∧
      (if allocated then
        BIT_get b.bitmap ((optr - b.base) / mp.objlen + 1) = true ∧ b.left < b.num
      else
        BIT_get b.bitmap ((optr - b.base) / mp.objlen + 1) = false ∧
          0 < b.left ∧ b.left ≤ b.num)) :
    assert_ptr mp optr allocated = true := by
  unfold assert_ptr
  rw [hm]
  dsimp only
  rw [if_pos (by rw [h.mbnum_eq]; exact hf)]
  split
  · rfl
  · rename_i blk hfind
    have hmem := List.mem_of_find?_eq_some hfind
    have hp := List.find?_some hfind
    simp only [Bool.and_eq_true, decide_eq_true_eq] at hp
    have hblk : blk ∈ blocks mp := by
      rw [List.getD_eq_getElem?_getD] at hmem
      cases hx : mp.mbase[f_slot]? with
      | none => rw [hx] at hmem; simp at hmem
      | some c =>
        rw [hx] at hmem
        exact mem_blocks_of_chain mp f_slot c hx blk hmem
    have := hall blk hblk hp.1 hp.2
    cases allocated with
    | true =>
      simp only [if_true] at this ⊢
      simp [this.1, this.2.1, this.2.2]
    | false =>
      simp only [Bool.false_eq_true, if_false] at this ⊢
      simp [this.1, this.2.1, this.2.2.1, this.2.2.2]

/-! ## The invariant: giving an object back -/

theorem slot_of_optr (objlen base s : Nat) (ho : 0 < objlen) (hs : 1 ≤ s) :
    (base + (s - 1) * objlen - base) / objlen + 1 = s ∧
      (base + (s - 1) * objlen - base) % objlen = 0 := by
  have h1 : base + (s - 1) * objlen - base = (s - 1) * objlen := by omega
  rw [h1, Nat.mul_div_cancel _ ho, Nat.mul_mod_left]
  exact ⟨by omega, rfl⟩

theorem freed_state_inv (mp : mpool_t) (live : List (Nat × Nat)) (b : mpool_blk_t) (s : Nat)
    (h : Inv mp live) (hb : b ∈ blocks mp) (hs1 : 1 ≤ s) (hs2 : s ≤ b.num)
    (hbit : BIT_get b.bitmap s = true) :
    Inv (freed_state mp b s) (live.filter (fun e => e.1 != slot_ptr mp b s)) := by
  have hok := h.blk b hb
  have hopos : 0 < mp.objlen := by have := h.objlen_ge; omega
  have hidx : s - 1 < b.bitmap.length := by have := hok.bm_len; omega
  have hpc := popcount_clr b.bitmap s hidx hbit
  have hleq := hok.left_eq
  have hsum := le_sum_map (blocks mp) (fun x => x.num - x.left) b hb
  have halloc := h.alloc_eq
  have hsp : ∀ t, slot_ptr mp (freed_blk b s) t = slot_ptr mp b t := fun t => rfl
  unfold freed_state
  apply Inv_update mp live b (freed_blk b s) _ _ _ _ h hb
  · exact ⟨rfl, rfl, rfl, rfl, rfl, rfl, rfl, rfl⟩
  · show b.num ≤ (BIT_clr b.bitmap s).length
    rw [BIT_clr_length]; exact hok.bm_len
  · intro n hn
    have hn1 : b.num < n := hn
    show BIT_get (BIT_clr b.bitmap s) n = false
    rw [BIT_get_clr _ _ _ hs1 (by omega)]
    split
    · rfl
    · exact hok.bm_hi n hn1
  · show b.left + 1 + popcount (BIT_clr b.bitmap s) = b.num
    omega
  · intro _
    refine ⟨hs1, hs2, ?_⟩
    show BIT_get (BIT_clr b.bitmap s) s = false
    rw [BIT_get_clr _ _ _ hs1 hs1]
    simp [hidx]
  · split
    · rename_i h1
      have h1' : b.left + 1 = 1 := h1
      rw [List.nodup_cons]
      refine ⟨?_, h.mq_nodup⟩
      intro hin
      obtain ⟨x, hx, hxid, hxl⟩ := (h.mq_mem b.id).1 hin
      have := blk_unique _ h.ids_nodup x b hx hb hxid
      subst this
      omega
    · exact h.mq_nodup
  · intro id
    show _ ↔ (id ≠ b.id ∧ id ∈ mp.mq) ∨ (id = b.id ∧ 0 < b.left + 1)
    split
    · rename_i h1
      have h1' : b.left + 1 = 1 := h1
      rw [List.mem_cons]
      constructor
      · rintro (h2 | h2)
        · exact Or.inr ⟨h2, by omega⟩
        · by_cases hid : id = b.id
          · exact Or.inr ⟨hid, by omega⟩
          · exact Or.inl ⟨hid, h2⟩
      · rintro (⟨_, h2⟩ | ⟨h2, _⟩)
        · exact Or.inr h2
        · exact Or.inl h2
    · rename_i h1
      have h1' : ¬ (b.left + 1 = 1) := h1
      constructor
      · intro h2
        by_cases hid : id = b.id
        · exact Or.inr ⟨hid, by omega⟩
        · exact Or.inl ⟨hid, h2⟩
      · rintro (⟨_, h2⟩ | ⟨h2, _⟩)
        · exact h2
        · rw [h2]
          exact (h.mq_mem b.id).2 ⟨b, hb, rfl, by omega⟩
  · show mp.left + 1 + b.left = mp.left + (b.left + 1)
    omega
  · show mp.allocated - 1 + (b.num - b.left) = mp.allocated + (b.num - (b.left + 1))
    simp only at hsum
    omega
  · exact List.Nodup.sublist ((List.filter_sublist _).map _) h.live_nodup
  · intro p id hid
    have hid1 : id ≠ b.id := hid
    rw [List.mem_filter]
    constructor
    · exact fun h1 => h1.1
    · intro h1
      refine ⟨h1, ?_⟩
      simp only [bne_iff_ne, ne_eq]
      intro hp
      obtain ⟨x, hx, hxid, t, ht1, ht2, _, hpt⟩ := (h.live_iff p id).1 h1
      rw [hp] at hpt
      have := (slot_ptr_unique mp live h b x hb hx s t hs1 hs2 ht1 ht2 hpt).1
      rw [← this] at hxid
      exact hid1 hxid.symm
  · intro p
    show (p, b.id) ∈ live.filter (fun e => e.1 != slot_ptr mp b s) ↔
      ∃ t, 1 ≤ t ∧ t ≤ b.num ∧ BIT_get (BIT_clr b.bitmap s) t = true ∧
        p = slot_ptr mp (freed_blk b s) t
    rw [List.mem_filter]
    simp only [bne_iff_ne, ne_eq]
    constructor
    · rintro ⟨h1, h2⟩
      obtain ⟨x, hx, hxid, t, ht1, ht2, hbt, hpt⟩ := (h.live_iff p b.id).1 h1
      have := blk_unique _ h.ids_nodup x b hx hb hxid
      subst this
      refine ⟨t, ht1, ht2, ?_, by rw [hpt, hsp]⟩
      rw [BIT_get_clr _ _ _ hs1 ht1]
      have hne : ¬ (s = t ∧ s - 1 < x.bitmap.length) := by
        rintro ⟨hst, _⟩
        subst hst
        exact h2 hpt
      simp only [hne, if_false]
      exact hbt
    · rintro ⟨t, ht1, ht2, hbt, hpt⟩
      rw [BIT_get_clr _ _ _ hs1 ht1] at hbt
      have hne : s ≠ t := by
        intro hst
        subst hst
        simp [hidx] at hbt
      have hne2 : ¬ (s = t ∧ s - 1 < b.bitmap.length) := fun hc => hne hc.1
      simp only [hne2, if_false] at hbt
      refine ⟨(h.live_iff p b.id).2 ⟨b, hb, rfl, t, ht1, ht2, hbt, by rw [hpt, hsp]⟩, ?_⟩
      intro hp
      rw [hpt, hsp] at hp
      exact hne (slot_ptr_inj mp b t s hopos ht1 hs1 hp).symm

theorem delete_in_blk_eq (mp : mpool_t) (b : mpool_blk_t) (optr : Nat) :
    delete_in_blk mp b optr =
      if (freed_blk b ((optr - b.base) / mp.objlen + 1)).left = 1 then
        (freed_state mp b ((optr - b.base) / mp.objlen + 1), [])
      else if (freed_blk b ((optr - b.base) / mp.objlen + 1)).left =
          (freed_blk b ((optr - b.base) / mp.objlen + 1)).num then
        if ((freed_state mp b ((optr - b.base) / mp.objlen + 1)).left : Int) ≥
            ((freed_blk b ((optr - b.base) / mp.objlen + 1)).left : Int) +
              mp.attr.nmin_objs_cache then
          (unlink_blk (freed_state mp b ((optr - b.base) / mp.objlen + 1))
            (freed_blk b ((optr - b.base) / mp.objlen + 1)),
            release_events (freed_blk b ((optr - b.base) / mp.objlen + 1)))
        else
          ({ freed_state mp b ((optr - b.base) / mp.objlen + 1) with
              mq := mq_move_backward (blk_left (freed_state mp b ((optr - b.base) / mp.objlen + 1)))
                b.id (freed_blk b ((optr - b.base) / mp.objlen + 1)).left mp.mq }, [])
      else (freed_state mp b ((optr - b.base) / mp.objlen + 1), []) := by
  unfold delete_in_blk freed_state
  dsimp only
  by_cases h1 : (freed_blk b ((optr - b.base) / mp.objlen + 1)).left = 1
  · rw [if_pos h1, if_pos h1, if_pos h1]
    rfl
  · rw [if_neg h1, if_neg h1, if_neg h1]
    rfl

theorem delete_in_blk_mem (mp : mpool_t) (b : mpool_blk_t) (optr : Nat) :
    (delete_in_blk mp b optr).1.mem = mp.mem := by
  rw [delete_in_blk_eq]
  split
  · rfl
  · split
    · split <;> rfl
    · rfl

theorem delete_in_blk_inv (mp : mpool_t) (live : List (Nat × Nat)) (b : mpool_blk_t) (s : Nat)
    (optr : Nat) (h : Inv mp live) (hb : b ∈ blocks mp) (hs1 : 1 ≤ s) (hs2 : s ≤ b.num)
    (hbit : BIT_get b.bitmap s = true) (hoptr : (optr - b.base) / mp.objlen + 1 = s) :
    Inv (delete_in_blk mp b optr).1 (live.filter (fun e => e.1 != slot_ptr mp b s)) ∧
      ∀ x ∈ blocks (delete_in_blk mp b optr).1,
        x = freed_blk b s ∨ (x ∈ blocks mp ∧ x.id ≠ b.id) := by
  have hinv := freed_state_inv mp live b s h hb hs1 hs2 hbit
  have hBf : blocks (freed_state mp b s)
      = (blocks mp).map (fun x => if x.id = (freed_blk b s).id then freed_blk b s else x) :=
    flatten_set_blk mp.mbase (freed_blk b s)
  have hmemf : ∀ x, x ∈ blocks (freed_state mp b s) ↔
      x = freed_blk b s ∨ (x ∈ blocks mp ∧ x.id ≠ b.id) := by
    intro x
    rw [hBf]
    exact mem_blocks_upd (blocks mp) b (freed_blk b s) hb rfl x
  have hnb : freed_blk b s ∈ blocks (freed_state mp b s) := (hmemf _).2 (Or.inl rfl)
  rw [delete_in_blk_eq, hoptr]
  split
  · exact ⟨hinv, fun x hx => (hmemf x).1 hx⟩
  · rename_i h1
    split
    · rename_i h2
      split
      · refine ⟨Inv_release _ _ (freed_blk b s) hinv hnb h2, ?_⟩
        intro x hx
        have hx1 : x ∈ blocks (unlink_blk (freed_state mp b s) (freed_blk b s)) := hx
        rw [blocks_unlink] at hx1
        exact (hmemf x).1 (List.mem_of_mem_filter hx1)
      · have hin : b.id ∈ (freed_state mp b s).mq :=
          (hinv.mq_mem b.id).2 ⟨freed_blk b s, hnb, rfl, Nat.succ_pos _⟩
        have hmq : (freed_state mp b s).mq = mp.mq := by
          unfold freed_state
          dsimp only
          rw [if_neg h1]
        refine ⟨?_, fun x hx => (hmemf x).1 hx⟩
        have hp := mq_move_backward_perm (blk_left (freed_state mp b s)) b.id
          (freed_blk b s).left mp.mq (by rw [← hmq]; exact hin)
        exact Inv_mq_perm (freed_state mp b s) _ _ hinv (by rw [hmq]; exact hp)
    · exact ⟨hinv, fun x hx => (hmemf x).1 hx⟩

/-- On a live pointer `mpool_delete` passes its assertions, finds the block the
object was taken from, and preserves the invariant. -/
theorem mpool_delete_live (mp : mpool_t) (live : List (Nat × Nat)) (ptr id : Nat)
    (h : Inv mp live) (hl : (ptr, id) ∈ live) :
    ∃ b s, b ∈ blocks mp ∧ b.id = id ∧ 1 ≤ s ∧ s ≤ b.num ∧ BIT_get b.bitmap s = true ∧
      ptr = slot_ptr mp b s ∧
      mp.mem.lookup (ptr - mp.align) = some b.slot ∧
      lookup_blk (ptr - mp.align) (mp.mbase.getD b.slot []) = some (some b) ∧
      (ptr - mp.align - b.base) / mp.objlen + 1 = s ∧
      mpool_delete mp ptr = some (delete_in_blk mp b (ptr - mp.align)) ∧
      Inv (delete_in_blk mp b (ptr - mp.align)).1 (live.filter (fun e => e.1 != ptr)) := by
  obtain ⟨b, hb, hbid, s, hs1, hs2, hbit, hptr⟩ := (h.live_iff ptr id).1 hl
  have hok := h.blk b hb
  have hopos : 0 < mp.objlen := by have := h.objlen_ge; omega
  obtain ⟨hr1, hr2, hr3, hr4, hr5⟩ := slot_ptr_range mp live h b hb s hs1 hs2
  rw [← hptr] at hr1 hr2 hr3 hr4 hr5
  have hso := slot_of_optr mp.objlen b.base s hopos hs1
  rw [← hr5] at hso
  have hhdr : mp.mem.lookup (ptr - mp.align) = some b.slot := by
    rw [hr5]
    exact h.hdr b hb (s - 1) (by omega)
  have hlook := lookup_blk_found mp live h b hb (ptr - mp.align) hr1 hr2
  have hpc := popcount_pos b.bitmap s hbit
  have hleq := hok.left_eq
  obtain ⟨hinv, hblocks⟩ := delete_in_blk_inv mp live b s (ptr - mp.align) h hb hs1 hs2 hbit hso.1
  rw [← hptr] at hinv
  have ha1 : assert_ptr mp (ptr - mp.align) true = true := by
    apply assert_ptr_true mp live h _ b.slot true hhdr hok.slot_lt
    intro x hx hx1 hx2
    have := contains_unique mp live h x b hx hb _ hx1 hx2 hr1 hr2
    subst this
    simp only [if_true]
    rw [hso.1]
    exact ⟨hso.2, hbit, by omega⟩
  have ha2 : assert_ptr (delete_in_blk mp b (ptr - mp.align)).1 (ptr - mp.align) false = true := by
    apply assert_ptr_true _ _ hinv _ b.slot false
      (by rw [delete_in_blk_mem]; exact hhdr) hok.slot_lt
    intro x hx hx1 hx2
    rcases hblocks x hx with hxe | ⟨hxm, hxid⟩
    · subst hxe
      simp only [Bool.false_eq_true, if_false]
      have e1 : (freed_blk b s).base = b.base := rfl
      have e2 : (freed_blk b s).bitmap = BIT_clr b.bitmap s := rfl
      have e3 : (freed_blk b s).left = b.left + 1 := rfl
      have e4 : (freed_blk b s).num = b.num := rfl
      have e5 : (delete_in_blk mp b (ptr - mp.align)).1.objlen = mp.objlen := by
        rw [delete_in_blk_eq]
        split
        · rfl
        · split
          · split <;> rfl
          · rfl
      rw [e1, e2, e3, e4, e5, hso.1]
      refine ⟨hso.2, ?_, by omega, by omega⟩
      rw [BIT_get_clr _ _ _ hs1 hs1]
      have : s - 1 < b.bitmap.length := by have := hok.bm_len; omega
      simp [this]
    · exfalso
      have hx1' : x.base ≤ ptr - mp.align := hx1
      have := contains_unique mp live h x b hxm hb _ hx1' hx2 hr1 hr2
      exact hxid (by rw [this])
  refine ⟨b, s, hb, hbid, hs1, hs2, hbit, hptr, hhdr, hlook, hso.1, ?_, hinv⟩
  unfold mpool_delete
  have hp0 : ptr ≠ 0 := by omega
  rw [if_neg hp0]
  dsimp only
  rw [hhdr]
  dsimp only
  rw [if_neg (by rw [ha1]; simp), hlook]
  dsimp only
  rw [if_pos ha2]

/-! ## The invariant holds in every reachable state -/

theorem flush_loop_inv (fuel : Nat) (mp : mpool_t) (live : List (Nat × Nat)) (mp1 : mpool_t)
    (ev : List mpool_event) (h : Inv mp live) (hr : flush_loop fuel mp = some (mp1, ev)) :
    Inv mp1 live := by
  induction fuel generalizing mp ev with
  | zero =>
    unfold flush_loop at hr
    injection hr with hr
    injection hr with hr1 _
    rw [← hr1]; exact h
  | succ fuel ih =>
    unfold flush_loop at hr
    split at hr
    · injection hr with hr
      injection hr with hr1 _
      rw [← hr1]; exact h
    · rename_i id hid
      split at hr
      · exact absurd hr (by simp)
      · rename_i blk hblk
        obtain ⟨hb, _⟩ := get_blk_some mp id blk hblk
        split at hr
        · injection hr with hr
          injection hr with hr1 _
          rw [← hr1]; exact h
        · rename_i hfull
          have hfull1 : blk.left = blk.num := by
            by_contra hc; exact hfull hc
          split at hr
          · exact absurd hr (by simp)
          · split at hr
            · exact absurd hr (by simp)
            · rename_i m2 ev2 hrec
              injection hr with hr
              injection hr with hr1 _
              rw [hr1] at hrec
              exact ih (unlink_blk mp blk) ev2 (Inv_release mp live blk h hb hfull1) hrec

theorem Reachable_inv (mp : mpool_t) (live : List (Nat × Nat)) (h : Reachable mp live) :
    Inv mp live := by
  induction h with
  | init objlen mp hfit hi => exact Inv_init objlen mp hfit hi
  | new mp live nblk cbuf mp1 ptr id _ hid hcbuf hr ih =>
    exact mpool_new_core_inv mp live nblk cbuf mp1 ptr id ih hid hcbuf hr
  | delete mp live ptr mp1 ev _ hl hr ih =>
    obtain ⟨e, he, hee⟩ := List.mem_map.1 hl
    obtain ⟨p, id⟩ := e
    simp only at hee
    subst hee
    obtain ⟨b, s, _, _, _, _, _, _, _, _, _, hdel, hinv⟩ := mpool_delete_live mp live p id ih he
    rw [hdel] at hr
    injection hr with hr
    have : mp1 = (delete_in_blk mp b (p - mp.align)).1 := by rw [hr]
    rw [this]
    exact hinv
  | add_buffer mp live buffer size mfree nblk cbuf mp1 r ev _ hid hbuf hcbuf hr ih =>
    unfold mpool_add_buffer at hr
    split at hr
    · injection hr with hr1 _
      rw [← hr1]; exact ih
    · rename_i m2 blk hnb
      injection hr with hr1 _
      rw [← hr1]
      exact (mpool_new_blk_inv mp live buffer size mfree nblk cbuf m2 blk ih hid hbuf hcbuf hnb).1
  | attr_set mp live attr _ ih => exact Inv_attr_set mp live attr ih
  | flush mp live mp1 ev _ hr ih => exact flush_loop_inv _ mp live mp1 ev ih hr

/-! ## Scenarios are reachable -/

theorem step_reachable (st st1 : mpool_t × List (Nat × Nat)) (op : pool_op)
    (h : Reachable st.1 st.2) (hs : step st op = some st1) : Reachable st1.1 st1.2 := by
  cases op with
  | new nblk cbuf =>
    dsimp only [step] at hs
    split at hs
    · rename_i hc
      split at hs
      · rename_i r hr
        injection hs with hs
        subst hs
        exact Reachable.new st.1 st.2 nblk cbuf r.1 r.2.1 r.2.2 h hc.1 hc.2 hr
      · exact absurd hs (by simp)
    · exact absurd hs (by simp)
  | delete ptr =>
    dsimp only [step] at hs
    split at hs
    · rename_i hc
      split at hs
      · rename_i r hr
        injection hs with hs
        subst hs
        exact Reachable.delete st.1 st.2 ptr r.1 r.2 h hc hr
      · exact absurd hs (by simp)
    · exact absurd hs (by simp)
  | add_buffer buffer size mfree nblk cbuf =>
    dsimp only [step] at hs
    split at hs
    · rename_i hc
      injection hs with hs
      subst hs
      exact Reachable.add_buffer st.1 st.2 buffer size mfree nblk cbuf _ _ _ h hc.1 hc.2.1 hc.2.2 rfl
    · exact absurd hs (by simp)
  | attr_set attr =>
    dsimp only [step] at hs
    injection hs with hs
    subst hs
    exact Reachable.attr_set st.1 st.2 attr h
  | flush =>
    dsimp only [step] at hs
    split at hs
    · rename_i r hr
      injection hs with hs
      subst hs
      exact Reachable.flush st.1 st.2 r.1 r.2 h hr
    · exact absurd hs (by simp)

theorem run_from_reachable (ops : List pool_op) (st st1 : mpool_t × List (Nat × Nat))
    (h : Reachable st.1 st.2) (hr : run_from st ops = some st1) : Reachable st1.1 st1.2 := by
  induction ops generalizing st with
  | nil =>
    unfold run_from at hr
    injection hr with hr
    subst hr
    exact h
  | cons op ops ih =>
    unfold run_from at hr
    split at hr
    · rename_i st2 hs
      exact ih st2 (step_reachable st st2 op h hs) hr
    · exact absurd hr (by simp)

theorem run_reachable (objlen : Nat) (ops : List pool_op) (st : mpool_t × List (Nat × Nat))
    (hr : run objlen ops = some st) : Reachable st.1 st.2 := by
  unfold run at hr
  split at hr
  · rename_i hfit
    split at hr
    · rename_i mp hi
      exact run_from_reachable ops (mp, []) st (Reachable.init objlen mp hfit hi) hr
    · exact absurd hr (by simp)
  · exact absurd hr (by simp)

/-- A property that holds of the outcome of a scenario holds of some reachable
state. -/
theorem exists_reachable_of_run (objlen : Nat) (ops : List pool_op)
    (P : mpool_t → List (Nat × Nat) → Prop) (dec : ∀ mp live, Decidable (P mp live))
    (h : (run objlen ops).any (fun st => @decide (P st.1 st.2) (dec st.1 st.2)) = true) :
    ∃ mp live, Reachable mp live ∧ P mp live := by
  cases hr : run objlen ops with
  | none => rw [hr] at h; exact absurd h (by simp)
  | some st =>
    rw [hr] at h
    simp only [Option.any_some, decide_eq_true_eq] at h
    exact ⟨st.1, st.2, run_reachable objlen ops st hr, h⟩

/-! ## C1: ordering of the free queue -/

/-- C1 (the code breaks the claim): objects of 1361 bytes, attributes
(4096, 0, unbounded); two blocks of three slots are filled, then one object of
the first block and two of the second are deleted.  The state is reachable and
its free queue holds the second block (two free slots) before the first (one
free slot): the ascending order of `left` along the free queue does not hold. -/
theorem C1_free_list_order_broken :
    ∃ mp live, Reachable mp live ∧ mq_lefts mp = [2, 1] ∧ ¬ free_list_ordered mp := by
  have h := exists_reachable_of_run 1361 order_ops
    (fun mp _ => mq_lefts mp = [2, 1]) (fun _ _ => inferInstance) (by decide)
  obtain ⟨mp, live, hr, hl⟩ := h
  refine ⟨mp, live, hr, hl, ?_⟩
  unfold free_list_ordered
  rw [hl]
  simp

theorem demo_reachable : Reachable demo_state.1 demo_state.2 :=
  run_reachable 24 demo_ops demo_state (by decide)

/-! ## C2: the lookup of `mpool_delete` finds the owning block -/

/-- C2: in every reachable state, for every live object (pointer `ptr` taken
from the block with address `id`), the header byte of the object names the
bucket of that block, the walk of `mpool_delete` along that bucket chain finds
that block, the slot address `ptr - align` lies in its range `[base, end]`, and
no other block of the Directory has the slot address in its range. -/
theorem C2_directory_completeness (mp : mpool_t) (live : List (Nat × Nat)) (ptr id : Nat)
    (hr : Reachable mp live) (hl : (ptr, id) ∈ live) :
    ∃ b, b ∈ blocks mp ∧ b.id = id ∧
      mp.mem.lookup (ptr - mp.align) = some b.slot ∧
      lookup_blk (ptr - mp.align) (mp.mbase.getD b.slot []) = some (some b) ∧
      b.base ≤ ptr - mp.align ∧ ptr - mp.align ≤ b.end_ ∧
      ∀ b1 ∈ blocks mp, b1.base ≤ ptr - mp.align → ptr - mp.align ≤ b1.end_ → b1 = b := by
  have h := Reachable_inv mp live hr
  obtain ⟨b, s, hb, hbid, hs1, hs2, _, hptr, hhdr, hlook, _, _, _⟩ :=
    mpool_delete_live mp live ptr id h hl
  obtain ⟨hr1, hr2, _, _, _⟩ := slot_ptr_range mp live h b hb s hs1 hs2
  rw [← hptr] at hr1 hr2
  exact ⟨b, hb, hbid, hhdr, hlook, hr1, hr2,
    fun b1 hb1 h1 h2 => contains_unique mp live h b1 b hb1 hb _ h1 h2 hr1 hr2⟩

/-- Witness of C2 in the pool with three outstanding allocations. -/
theorem C2_directory_completeness_witness :
    Reachable demo_state.1 demo_state.2 ∧ (100004, 1000) ∈ demo_state.2 ∧
    ∃ b, b ∈ blocks demo_state.1 ∧ b.id = 1000 ∧
      demo_state.1.mem.lookup (100004 - demo_state.1.align) = some b.slot ∧
      lookup_blk (100004 - demo_state.1.align) (demo_state.1.mbase.getD b.slot [])
        = some (some b) ∧
      b.base ≤ 100004 - demo_state.1.align ∧ 100004 - demo_state.1.align ≤ b.end_ ∧
      ∀ b1 ∈ blocks demo_state.1, b1.base ≤ 100004 - demo_state.1.align →
        100004 - demo_state.1.align ≤ b1.end_ → b1 = b :=
  ⟨demo_reachable, by decide,
    C2_directory_completeness demo_state.1 demo_state.2 100004 1000 demo_reachable (by decide)⟩

/-! ## C3: bitmap and free-slot count of a block -/

theorem stat_fold (l : List mpool_blk_t) (st0 : mpool_stat_t) :
    l.foldl
      (fun (st : mpool_stat_t) blk =>
        { st with
            nobjs_resved := st.nobjs_resved + blk.left
            nobjs_allocated := st.nobjs_allocated + (blk.num - blk.left)
            mem_hold_all := st.mem_hold_all + blk.length
            nblks := st.nblks + 1 }) st0 =
      { mem_hold_all := st0.mem_hold_all + (l.map (fun b => b.length)).sum
        objs_size := st0.objs_size
        nobjs_resved := st0.nobjs_resved + (l.map (fun b => b.left)).sum
        nobjs_allocated := st0.nobjs_allocated + (l.map (fun b => b.num - b.left)).sum
        nobjs_acquired := st0.nobjs_acquired
        nblks := st0.nblks + l.length } := by
  induction l generalizing st0 with
  | nil => simp
  | cons b l ih =>
    rw [List.foldl_cons, ih]
    simp only [List.map_cons, List.sum_cons, List.length_cons]
    congr 1 <;> omega

theorem mpool_stat_eq (mp : mpool_t) (live : List (Nat × Nat)) (h : Inv mp live) :
    mpool_stat mp =
      { mem_hold_all := ((blocks mp).map (fun b => b.length)).sum
        objs_size := mp.objlen
        nobjs_resved := ((blocks mp).map (fun b => b.left)).sum
        nobjs_allocated := ((blocks mp).map (fun b => b.num - b.left)).sum
        nobjs_acquired := mp.nacquires
        nblks := (blocks mp).length } := by
  unfold mpool_stat
  have ht : mp.mbase.take mp.mbnum = mp.mbase := by
    rw [h.mbnum_eq]
    apply List.take_of_length_le
    rw [h.mbase_len]
  rw [ht, stat_fold]
  simp only [Nat.zero_add]
  rfl

theorem mqnarray_eq (mp : mpool_t) (live : List (Nat × Nat)) (h : Inv mp live) :
    mp.mqnarray = mp.mbase.map List.length := by
  apply List.ext_getElem?
  intro n
  rw [List.getElem?_map]
  cases hx : mp.mbase[n]? with
  | none =>
    have : mp.mqnarray.length ≤ n := by
      rw [h.mqn_len, ← h.mbase_len]
      exact List.getElem?_eq_none_iff.1 hx
    rw [List.getElem?_eq_none this]
    rfl
  | some c =>
    rw [h.mqn_eq n c hx]
    rfl

theorem sum_map_length (D : List (List mpool_blk_t)) :
    (D.map List.length).sum = D.flatten.length := by
  induction D with
  | nil => rfl
  | cons c D ih =>
    simp only [List.map_cons, List.sum_cons, List.flatten_cons, List.length_append, ih]

/-- C4: in every reachable state the total-free counter of the pool is the sum
of `left` over the blocks of the Directory, the allocated counter is the sum of
`num - left`, and `mpool_stat` reports these two counters and, as number of
blocks, the sum of the per-bucket counters `mqnarray`. -/
theorem C4_counter_consistency (mp : mpool_t) (live : List (Nat × Nat))
    (hr : Reachable mp live) :
    mp.left = ((blocks mp).map (fun b => b.left)).sum ∧
    mp.allocated = ((blocks mp).map (fun b => b.num - b.left)).sum ∧
    (mpool_stat mp).nobjs_resved = mp.left ∧
    (mpool_stat mp).nobjs_allocated = mp.allocated ∧
    (mpool_stat mp).nblks = mp.mqnarray.sum := by
  have h := Reachable_inv mp live hr
  rw [mpool_stat_eq mp live h, mqnarray_eq mp live h, sum_map_length]
  exact ⟨h.left_eq, h.alloc_eq, h.left_eq.symm, h.alloc_eq.symm, rfl⟩

/-- Witness of C4 in the pool with three outstanding allocations. -/
theorem C4_counter_consistency_witness :
    Reachable demo_state.1 demo_state.2 ∧
    demo_state.1.left = ((blocks demo_state.1).map (fun b => b.left)).sum ∧
    demo_state.1.allocated = ((blocks demo_state.1).map (fun b => b.num - b.left)).sum ∧
    (mpool_stat demo_state.1).nobjs_resved = demo_state.1.left ∧
    (mpool_stat demo_state.1).nobjs_allocated = demo_state.1.allocated ∧
    (mpool_stat demo_state.1).nblks = demo_state.1.mqnarray.sum :=
  ⟨demo_reachable, C4_counter_consistency demo_state.1 demo_state.2 demo_reachable⟩

/-! ## C10: teardown -/

theorem popcount_exists (bm : List Bool) (h : 0 < popcount bm) :
    ∃ n, 1 ≤ n ∧ BIT_get bm n = true := by
  unfold popcount at h
  have hm := List.count_pos_iff.1 h
  obtain ⟨i, hi, hv⟩ := List.getElem_of_mem hm
  refine ⟨i + 1, by omega, ?_⟩
  unfold BIT_get
  rw [List.getD_eq_getElem?_getD]
  simp [List.getElem?_eq_getElem hi, hv]

/-- The allocated counter is zero iff there is no live object. -/
theorem allocated_zero_iff (mp : mpool_t) (live : List (Nat × Nat)) (h : Inv mp live) :
    ((blocks mp).map (fun b => b.num - b.left)).sum = 0 ↔ live = [] := by
  constructor
  · intro hz
    cases hl : live with
    | nil => rfl
    | cons e rest =>
      exfalso
      obtain ⟨p, id⟩ := e
      have hin : (p, id) ∈ live := by rw [hl]; exact List.mem_cons_self _ _
      obtain ⟨b, hb, _, s, _, _, hbit, _⟩ := (h.live_iff p id).1 hin
      have h1 := popcount_pos b.bitmap s hbit
      have h2 := (h.blk b hb).left_eq
      have h3 := le_sum_map (blocks mp) (fun b => b.num - b.left) b hb
      simp only at h3
      omega
  · intro hl
    apply List.sum_eq_zero
    intro x hx
    obtain ⟨b, hb, rfl⟩ := List.mem_map.1 hx
    by_contra hne
    have hok := h.blk b hb
    have h2 := hok.left_eq
    obtain ⟨n, hn1, hbit⟩ := popcount_exists b.bitmap (by omega)
    have hn2 : n ≤ b.num := by
      by_contra hc
      rw [hok.bm_hi n (by omega)] at hbit
      exact absurd hbit (by simp)
    have := (h.live_iff (slot_ptr mp b n) b.id).2 ⟨b, hb, rfl, n, hn1, hn2, hbit, rfl⟩
    rw [hl] at this
    exact absurd this (by simp)

theorem release_list_mem (B : List mpool_blk_t) (e : mpool_event) :
    e ∈ (B.map (fun b => if b.mfree ≠ mbuffer_free.null then
        [mpool_event.mfree b.mfree b.base, mpool_event.free_blk b.id] else [])).flatten ↔
      ∃ b ∈ B, b.mfree ≠ mbuffer_free.null ∧
        (e = mpool_event.mfree b.mfree b.base ∨ e = mpool_event.free_blk b.id) := by
  rw [List.mem_flatten]
  constructor
  · rintro ⟨l, hl, he⟩
    obtain ⟨b, hb, hbl⟩ := List.mem_map.mp hl
    by_cases hm : b.mfree ≠ mbuffer_free.null
    · rw [if_pos hm] at hbl
      rw [← hbl] at he
      refine ⟨b, hb, hm, ?_⟩
      rcases List.mem_cons.mp he with h1 | h1
      · exact Or.inl h1
      · exact Or.inr (List.mem_singleton.mp h1)
    · rw [if_neg hm] at hbl
      rw [← hbl] at he
      exact absurd he (List.not_mem_nil _)
  · rintro ⟨b, hb, hm, he⟩
    refine ⟨[mpool_event.mfree b.mfree b.base, mpool_event.free_blk b.id],
      List.mem_map.mpr ⟨b, hb, if_pos hm⟩, ?_⟩
    rcases he with he | he
    · rw [he]; exact List.mem_cons_self _ _
    · rw [he]; exact List.mem_cons_of_mem _ (List.mem_singleton.mpr rfl)

theorem release_list_count (B : List mpool_blk_t) (hnd : (B.map (fun b => b.id)).Nodup)
    (b : mpool_blk_t) (hb : b ∈ B) (hm : b.mfree ≠ mbuffer_free.null) :
    ((B.map (fun b => if b.mfree ≠ mbuffer_free.null then
        [mpool_event.mfree b.mfree b.base, mpool_event.free_blk b.id] else [])).flatten).count
      (mpool_event.free_blk b.id) = 1 := by
  induction B with
  | nil => exact absurd hb (List.not_mem_nil _)
  | cons x t ih =>
    rw [List.map_cons, List.nodup_cons] at hnd
    rw [List.map_cons, List.flatten_cons, List.count_append]
    rcases List.mem_cons.mp hb with hx | ht
    · subst hx
      have hrest : ((t.map (fun b => if b.mfree ≠ mbuffer_free.null then
          [mpool_event.mfree b.mfree b.base, mpool_event.free_blk b.id] else [])).flatten).count
          (mpool_event.free_blk b.id) = 0 := by
        rw [List.count_eq_zero]
        intro hc
        obtain ⟨y, hy, _, he⟩ := (release_list_mem t _).mp hc
        rcases he with he | he
        · exact absurd he (by simp)
        · injection he with he
          exact hnd.1 (List.mem_map.mpr ⟨y, hy, he.symm⟩)
      rw [hrest, if_pos hm]
      simp
    · have hne : x.id ≠ b.id := fun e => hnd.1 (List.mem_map.mpr ⟨b, ht, e.symm⟩)
      have hx0 : (if x.mfree ≠ mbuffer_free.null then
          [mpool_event.mfree x.mfree x.base, mpool_event.free_blk x.id] else []).count
          (mpool_event.free_blk b.id) = 0 := by
        rw [List.count_eq_zero]
        intro hc
        by_cases hxm : x.mfree ≠ mbuffer_free.null
        · rw [if_pos hxm] at hc
          rcases List.mem_cons.mp hc with h1 | h1
          · exact absurd h1 (by simp)
          · have := List.mem_singleton.mp h1
            injection this with this
            exact hne this.symm
        · rw [if_neg hxm] at hc
          exact absurd hc (List.not_mem_nil _)
      rw [hx0, ih hnd.2 ht]

/-- C10: in every reachable state with at least one live object,
`mpool_destroy` without `force` makes no call to a release function and leaves
the pool as it is; with `force`, or when no object is live, it tears the pool
down, and the calls it makes are, bucket by bucket and block by block, the
release function of the block on its buffer followed by `free` on the record,
for the blocks of the Directory that have a release function and for no
other: every such block has its buffer released and its record freed exactly
once, a block without a release function is not freed, and nothing else is
released. -/
theorem C10_busy_teardown (mp : mpool_t) (live : List (Nat × Nat)) (force : Int)
    (hr : Reachable mp live) :
    (live ≠ [] → mpool_destroy mp 0 = (some mp, [])) ∧
    (force ≠ 0 ∨ live = [] →
      (mpool_destroy mp force).1 = none ∧
      (mpool_destroy mp force).2 =
        ((blocks mp).map (fun b => if b.mfree ≠ mbuffer_free.null then
          [mpool_event.mfree b.mfree b.base, mpool_event.free_blk b.id] else [])).flatten ∧
      (∀ b ∈ blocks mp, b.mfree ≠ mbuffer_free.null →
        mpool_event.mfree b.mfree b.base ∈ (mpool_destroy mp force).2 ∧
        (mpool_destroy mp force).2.count (mpool_event.free_blk b.id) = 1) ∧
      (∀ b ∈ blocks mp, b.mfree = mbuffer_free.null →
        mpool_event.free_blk b.id ∉ (mpool_destroy mp force).2) ∧
      (∀ e ∈ (mpool_destroy mp force).2, ∃ b ∈ blocks mp, b.mfree ≠ mbuffer_free.null ∧
        (e = mpool_event.mfree b.mfree b.base ∨ e = mpool_event.free_blk b.id))) := by
  have h := Reachable_inv mp live hr
  have hz := allocated_zero_iff mp live h
  have ht : mp.mbase.take mp.mbnum = mp.mbase := by
    rw [h.mbnum_eq]
    apply List.take_of_length_le
    rw [h.mbase_len]
  constructor
  · intro hne
    unfold mpool_destroy
    rw [mpool_stat_eq mp live h]
    dsimp only
    have : ¬ ((blocks mp).map (fun b => b.num - b.left)).sum = 0 := fun hc => hne (hz.1 hc)
    simp [this]
  · intro hc
    have hde : destroy_events = (fun b => if b.mfree ≠ mbuffer_free.null then
        [mpool_event.mfree b.mfree b.base, mpool_event.free_blk b.id] else []) := by
      funext b
      rfl
    have hd : mpool_destroy mp force = (none,
        ((blocks mp).map (fun b => if b.mfree ≠ mbuffer_free.null then
          [mpool_event.mfree b.mfree b.base, mpool_event.free_blk b.id] else [])).flatten) := by
      rw [← hde]
      unfold mpool_destroy
      rw [mpool_stat_eq mp live h, ht]
      dsimp only
      by_cases hs : ((blocks mp).map (fun b => b.num - b.left)).sum = 0
      · have e : (if ((blocks mp).map (fun b => b.num - b.left)).sum ≠ 0 then force else 1)
            = 1 := if_neg (fun hn => hn hs)
        rw [e, if_pos (by decide)]
        rfl
      · have hf : force ≠ 0 := by
          rcases hc with hc | hc
          · exact hc
          · exact absurd (hz.2 hc) hs
        have e : (if ((blocks mp).map (fun b => b.num - b.left)).sum ≠ 0 then force else 1)
            = force := if_pos hs
        rw [e, if_pos hf]
        rfl
    rw [hd]
    refine ⟨rfl, rfl, ?_, ?_, ?_⟩
    · intro b hb hm
      exact ⟨(release_list_mem (blocks mp) _).mpr ⟨b, hb, hm, Or.inl rfl⟩,
        release_list_count (blocks mp) h.ids_nodup b hb hm⟩
    · intro b hb hm hc
      obtain ⟨y, hy, hym, he⟩ := (release_list_mem (blocks mp) _).mp hc
      rcases he with he | he
      · exact absurd he (by simp)
      · injection he with he
        have := blk_unique (blocks mp) h.ids_nodup b y hb hy he
        rw [this] at hm
        exact hym hm
    · intro e he
      exact (release_list_mem (blocks mp) e).mp he

/-- Witness of C10: the pool with three outstanding allocations; a forced
teardown releases the buffer of its block and frees the record. -/
theorem C10_busy_teardown_witness :
    Reachable demo_state.1 demo_state.2 ∧ demo_state.2.length = 3 ∧
    mpool_destroy demo_state.1 0 = (some demo_state.1, []) ∧
    mpool_destroy demo_state.1 1 =
      (none, [mpool_event.mfree mbuffer_free.free 100000, mpool_event.free_blk 1000]) ∧
    (mpool_destroy demo_state.1 1).2 =
      ((blocks demo_state.1).map (fun b => if b.mfree ≠ mbuffer_free.null then
        [mpool_event.mfree b.mfree b.base, mpool_event.free_blk b.id] else [])).flatten :=
  ⟨demo_reachable, by decide,
    (C10_busy_teardown demo_state.1 demo_state.2 1 demo_reachable).1 (by decide),
    by decide,
    ((C10_busy_teardown demo_state.1 demo_state.2 1 demo_reachable).2 (Or.inl (by decide))).2.1⟩

/-! ## C5: the throttle -/

/-- C5 (the code breaks the claim): objects of 1048572 bytes, attributes
(4096, 4096, 5), no live object, an allocator that does not fail.  The first of
the five calls of `mpool_new` allowed by the throttle returns `NULL`: the block
size `2^20 * 4096 = 2^32` does not fit the `int length` of `mpool_new`, which
becomes `0`, and `mpool_new_blk` refuses a size below the slot size. -/
theorem C5_first_new_returns_null :
    ∃ mp live, Reachable mp live ∧
      (live = [] ∧ mp.allocated = 0 ∧ mp.attr.nmax_alloc = 5 ∧ new_blk_size mp = 0 ∧
        (mpool_new mp 1000 100000).map Prod.snd = some 0) :=
  exists_reachable_of_run 1048572 throttle_ops _ (fun _ _ => inferInstance) (by decide)

/-! ## C7: release of a drained block -/

/-- C7 (the code breaks the claim): objects of 4092 bytes, attributes
(4096, 0, unbounded), one object taken: the only block has capacity 1 and its
slot is occupied.  `mpool_delete` of that object makes no call to the release
function and the block stays in the Directory and enters the free queue: the
branch `1 == blk->left` is taken and the test `blk->left == blk->num` is
skipped. -/
theorem C7_capacity_one_block_not_released :
    ∃ mp live, Reachable mp live ∧
      (mp.attr.nmin_objs_cache = 0 ∧ live = [(100004, 1000)] ∧
        blk_summary mp = [(1000, 1, 0)] ∧
        (mpool_delete mp 100004).map (fun r => (r.2, blk_summary r.1, r.1.mq, r.1.left))
          = some (([] : List mpool_event), [(1000, 1, 1)], [1000], 1)) :=
  exists_reachable_of_run 4092 drain_one_ops _ (fun _ _ => inferInstance) (by decide)

/-! ## C9: flush -/

/-- C9 (the code breaks the claim): objects of 2044 bytes, attributes
(4096, 2, unbounded); after the calls of `flush_ops` the free queue holds the
fully free first block before the second block, which has one object left.
`mpool_flush` looks at the tail of the free queue only, finds a block that is
not fully free, and returns: the fully free block stays in the Directory and in
the free queue. -/
theorem C9_flush_leaves_free_block :
    ∃ mp live, Reachable mp live ∧
      (blk_summary mp = [(1000, 2, 2), (2000, 2, 1)] ∧ mp.mq = [1000, 2000] ∧
        (mpool_flush mp).map (fun r => (r.2, blk_summary r.1, r.1.mq))
          = some (([] : List mpool_event), [(1000, 2, 2), (2000, 2, 1)], [1000, 2000])) :=
  exists_reachable_of_run 2044 flush_ops _ (fun _ _ => inferInstance) (by decide)

/-! ## C6 and C8: counterexamples -/

/-- C6 fails as stated: in the freshly initialised pool for objects of 24 bytes
(default attributes) `mpool_new` followed by `mpool_delete` of its result leaves
a pool with one block and 292 free slots, where there was no block and no free
slot. -/
theorem C6_round_trip_counterexample :
    ∃ mp live, Reachable mp live ∧
      (mp.left = 0 ∧ blocks mp = [] ∧ mp.attr = m_default_attr ∧
        (round_trip mp 1000 100000).map (fun r => (r.1, r.2.left, blk_summary r.2))
          = some (100004, 292, [(1000, 292, 292)])) :=
  exists_reachable_of_run 24 [] _ (fun _ _ => inferInstance) (by decide)

/-- C8 fails as stated: with min-spare-cache 3 and blocks of capacity 3, the
first block has one occupied slot and the second block is fully free;
`mpool_delete` of the last object of the first block releases it, because the
three free slots of the second block cover the spare cache. -/
theorem C8_retention_counterexample :
    ∃ mp live, Reachable mp live ∧
      (mp.attr.nmin_objs_cache = 3 ∧ blk_summary mp = [(1000, 3, 2), (2000, 3, 3)] ∧
        (102731, 1000) ∈ live ∧
        (mpool_delete mp 102731).map (fun r => (r.2, blk_summary r.1, r.1.mq))
          = some ([mpool_event.mfree mbuffer_free.free 100000, mpool_event.free_blk 1000],
              [(2000, 3, 3)], [2000])) :=
  exists_reachable_of_run 1361 retain_ops _ (fun _ _ => inferInstance) (by decide)

/-! ## C8: retention of a drained block -/

theorem blocks_freed_state (mp : mpool_t) (b : mpool_blk_t) (s : Nat) :
    blocks (freed_state mp b s)
      = (blocks mp).map (fun x => if x.id = (freed_blk b s).id then freed_blk b s else x) :=
  flatten_set_blk mp.mbase (freed_blk b s)

/-- C8 (amended): in every reachable state, for every block of capacity `num`
with exactly one occupied slot, if the free slots of the other blocks of the
pool are fewer than the min-spare-cache attribute (`mp.left - b.left` is the
number of these slots), then `mpool_delete` of the last object of the block
makes no call to a release function, the block stays in the Directory, now
fully free, and in the free queue, and the number of blocks and the per-bucket
counters are unchanged. -/
theorem C8_retention_on_drain (mp : mpool_t) (live : List (Nat × Nat)) (ptr id : Nat)
    (b : mpool_blk_t) (hr : Reachable mp live) (hl : (ptr, id) ∈ live)
    (hb : b ∈ blocks mp) (hid : b.id = id) (hone : b.left + 1 = b.num)
    (hcache : (mp.left : Int) - (b.left : Int) < mp.attr.nmin_objs_cache) :
    ∃ mp2, mpool_delete mp ptr = some (mp2, []) ∧
      (∃ b2 ∈ blocks mp2, b2.id = id ∧ b2.left = b2.num) ∧ id ∈ mp2.mq ∧
      (blocks mp2).length = (blocks mp).length ∧ mp2.mqnarray = mp.mqnarray := by
  have h := Reachable_inv mp live hr
  obtain ⟨b1, s, hb1, hb1id, hs1, hs2, hbit, hptr, _, _, hso, hdel, hinv⟩ :=
    mpool_delete_live mp live ptr id h hl
  have hbb : b1 = b := blk_unique _ h.ids_nodup b1 b hb1 hb (by rw [hb1id, hid])
  subst hbb
  have hfacts : (delete_in_blk mp b1 (ptr - mp.align)).2 = [] ∧
      blocks (delete_in_blk mp b1 (ptr - mp.align)).1 = blocks (freed_state mp b1 s) ∧
      (delete_in_blk mp b1 (ptr - mp.align)).1.mqnarray = mp.mqnarray := by
    rw [delete_in_blk_eq, hso]
    split
    · exact ⟨rfl, rfl, rfl⟩
    · split
      · split
        · rename_i hrel
          exfalso
          have e1 : ((freed_state mp b1 s).left : Int) = (mp.left : Int) + 1 := by
            show ((mp.left + 1 : Nat) : Int) = _
            push_cast; rfl
          have e2 : ((freed_blk b1 s).left : Int) = (b1.left : Int) + 1 := by
            show ((b1.left + 1 : Nat) : Int) = _
            push_cast; rfl
          rw [e1, e2] at hrel
          omega
        · exact ⟨rfl, rfl, rfl⟩
      · exact ⟨rfl, rfl, rfl⟩
  refine ⟨(delete_in_blk mp b1 (ptr - mp.align)).1, ?_, ?_, ?_, ?_, hfacts.2.2⟩
  · rw [hdel, ← hfacts.1]
  · refine ⟨freed_blk b1 s, ?_, hid, ?_⟩
    · rw [hfacts.2.1, blocks_freed_state]
      exact (mem_blocks_upd (blocks mp) b1 (freed_blk b1 s) hb rfl _).2 (Or.inl rfl)
    · show b1.left + 1 = b1.num
      exact hone
  · refine (hinv.mq_mem id).2 ⟨freed_blk b1 s, ?_, hid, Nat.succ_pos _⟩
    rw [hfacts.2.1, blocks_freed_state]
    exact (mem_blocks_upd (blocks mp) b1 (freed_blk b1 s) hb rfl _).2 (Or.inl rfl)
  · rw [hfacts.2.1, blocks_freed_state, List.length_map]

theorem retain_one_reachable : Reachable retain_one_state.1 retain_one_state.2 :=
  run_reachable 1361 retain_one_ops retain_one_state (by decide)

/-- Witness of C8: blocks of capacity 3, min-spare-cache 3, one block with one
occupied slot and no other block. -/
theorem C8_retention_on_drain_witness :
    Reachable retain_one_state.1 retain_one_state.2 ∧
    (100003, 1000) ∈ retain_one_state.2 ∧ retain_one_blk ∈ blocks retain_one_state.1 ∧
    retain_one_blk.left + 1 = retain_one_blk.num ∧
    retain_one_state.1.attr.nmin_objs_cache = 3 ∧
    ∃ mp2, mpool_delete retain_one_state.1 100003 = some (mp2, []) ∧
      (∃ b2 ∈ blocks mp2, b2.id = 1000 ∧ b2.left = b2.num) ∧ 1000 ∈ mp2.mq ∧
      (blocks mp2).length = (blocks retain_one_state.1).length ∧
      mp2.mqnarray = retain_one_state.1.mqnarray :=
  ⟨retain_one_reachable, by decide, by decide, by decide, by decide,
    C8_retention_on_drain retain_one_state.1 retain_one_state.2 100003 1000 retain_one_blk
      retain_one_reachable (by decide) (by decide) (by decide) (by decide) (by decide)⟩

/-! ## C6: `mpool_new` followed by `mpool_delete` -/

theorem set_false_self (l : List Bool) (i : Nat) (h : l.getD i false = false) :
    l.set i false = l := by
  apply List.ext_getElem?
  intro n
  rw [List.getElem?_set]
  by_cases hin : i = n
  · subst hin
    rw [if_pos rfl]
    by_cases hl : i < l.length
    · rw [if_pos hl]
      rw [List.getD_eq_getElem?_getD, List.getElem?_eq_getElem hl] at h
      rw [List.getElem?_eq_getElem hl]
      simp only [Option.getD_some] at h
      rw [h]
    · rw [if_neg hl, List.getElem?_eq_none (by omega)]
  · rw [if_neg hin]

theorem BIT_clr_set (bm : List Bool) (n : Nat) (h : BIT_get bm n = false) :
    BIT_clr (BIT_set bm n) n = bm := by
  unfold BIT_clr BIT_set
  rw [List.set_set]
  exact set_false_self bm (n - 1) h

theorem freed_taken (blk : mpool_blk_t) (fs : Nat) (hl : 0 < blk.left)
    (hbit : BIT_get blk.bitmap blk.freeslot = false) :
    freed_blk (taken_blk blk fs) blk.freeslot = blk := by
  obtain ⟨id, slot, u16, base, e, len, bm, num, left, f, mf⟩ := blk
  unfold freed_blk taken_blk
  simp only at hl hbit ⊢
  rw [BIT_clr_set bm f hbit]
  congr 1
  omega

theorem set_blk_undo (D : List (List mpool_blk_t)) (b nb : mpool_blk_t)
    (hnd : (D.flatten.map (fun x => x.id)).Nodup) (hb : b ∈ D.flatten) (hid : nb.id = b.id) :
    set_blk (set_blk D nb) b = D := by
  unfold set_blk
  rw [List.map_map]
  have : ∀ c ∈ D, ((fun c : List mpool_blk_t => c.map (fun x => if x.id = b.id then b else x)) ∘
      (fun c : List mpool_blk_t => c.map (fun x => if x.id = nb.id then nb else x))) c = id c := by
    intro c hc
    simp only [Function.comp, List.map_map, id]
    have h2 : ∀ x ∈ c, ((fun x : mpool_blk_t => if x.id = b.id then b else x) ∘
        (fun x : mpool_blk_t => if x.id = nb.id then nb else x)) x = id x := by
      intro x hx
      simp only [Function.comp, id]
      by_cases hxi : x.id = nb.id
      · rw [if_pos hxi, if_pos hid]
        exact (blk_unique _ hnd x b (List.mem_flatten.2 ⟨c, hc, hx⟩) hb (by rw [hxi, hid])).symm
      · rw [if_neg hxi, if_neg (by rw [← hid]; exact hxi)]
    rw [List.map_congr_left h2, List.map_id]
  rw [List.map_congr_left this, List.map_id]

theorem chain_insert_filter (blk : mpool_blk_t) (c : List mpool_blk_t)
    (hc : ∀ x ∈ c, x.id ≠ blk.id) :
    (chain_insert blk c).filter (fun x => x.id != blk.id) = c := by
  induction c with
  | nil => simp [chain_insert]
  | cons it rest ih =>
    have hit : (it.id != blk.id) = true := by
      simpa using hc it (List.mem_cons_self _ _)
    have hrest := ih (fun x hx => hc x (List.mem_cons_of_mem _ hx))
    have hrest0 : rest.filter (fun x => x.id != blk.id) = rest := by
      rw [List.filter_eq_self]
      intro x hx
      simpa using hc x (List.mem_cons_of_mem _ hx)
    unfold chain_insert
    split
    · rw [List.filter_cons_of_neg (by simp), List.filter_cons]
      simp only [hit, if_true, hrest0]
    · rw [List.filter_cons]
      simp only [hit, if_true, hrest]

theorem hlist_del_set_insert (D : List (List mpool_blk_t)) (blk : mpool_blk_t) (i : Nat)
    (hD : ∀ c ∈ D, ∀ x ∈ c, x.id ≠ blk.id) :
    hlist_del (D.set i (chain_insert blk (D.getD i []))) blk.id = D := by
  unfold hlist_del
  induction D generalizing i with
  | nil => rfl
  | cons c D ih =>
    have hfc : ∀ c1 ∈ c :: D, c1.filter (fun x => x.id != blk.id) = c1 := by
      intro c1 hc1
      rw [List.filter_eq_self]
      intro x hx
      simpa using hD c1 hc1 x hx
    cases i with
    | zero =>
      simp only [List.set_cons_zero, List.map_cons, List.getD_cons_zero]
      rw [chain_insert_filter blk c (hD c (List.mem_cons_self _ _))]
      congr 1
      rw [List.map_congr_left (fun c1 hc1 => hfc c1 (List.mem_cons_of_mem _ hc1))]
      exact List.map_id' D
    | succ i =>
      simp only [List.set_cons_succ, List.map_cons, List.getD_cons_succ]
      rw [hfc c (List.mem_cons_self _ _)]
      congr 1
      exact ih i (fun c1 hc1 => hD c1 (List.mem_cons_of_mem _ hc1))

theorem hlist_del_link (mp : mpool_t) (blk : mpool_blk_t) (hid : id_fresh mp blk.id) :
    hlist_del (link_blk mp blk).mbase blk.id = mp.mbase :=
  hlist_del_set_insert mp.mbase blk blk.slot
    (fun c hc x hx => hid x (List.mem_flatten.2 ⟨c, hc, x |> fun _ => hx⟩))

/-- Taking an object from a block and giving it back at once: either the
Directory and the total free count are as before, or the block, fully free, has
been released. -/
theorem take_delete (mp : mpool_t) (live : List (Nat × Nat)) (blk : mpool_blk_t)
    (mp1 : mpool_t) (ptr : Nat) (mp2 : mpool_t) (ev : List mpool_event)
    (h : Inv mp live) (hb : blk ∈ blocks mp) (ht : take_obj mp blk = some (mp1, ptr))
    (hd : mpool_delete mp1 ptr = some (mp2, ev)) :
    (mp2.mbase = mp.mbase ∧ mp2.left = mp.left) ∨
      (mp2.mbase = hlist_del mp.mbase blk.id ∧ mp2.left = mp.left - blk.left) := by
  have hok := h.blk blk hb
  obtain ⟨hl, hf1, hf2, hbit, hptr, fs, _, _, hmp1⟩ :=
    take_obj_some mp blk mp1 ptr hok.u16_eq ht
  obtain ⟨hinv1, _⟩ := take_obj_inv mp live blk mp1 ptr h hb ht
  obtain ⟨b1, s, hb1, hb1id, hs1, _, _, hptr1, _, _, hso, hdel, _⟩ :=
    mpool_delete_live mp1 _ ptr blk.id hinv1 (List.mem_cons_self _ _)
  have hobj : mp1.objlen = mp.objlen := by rw [hmp1]
  have halign : mp1.align = mp.align := by rw [hmp1]
  have hmb : mp1.mbase = set_blk mp.mbase (taken_blk blk fs) := by rw [hmp1]
  have hleft1 : mp1.left = mp.left - 1 := by rw [hmp1]
  have hB1 : blocks mp1
      = (blocks mp).map (fun x => if x.id = (taken_blk blk fs).id then taken_blk blk fs else x) := by
    unfold blocks
    rw [hmb]
    exact flatten_set_blk mp.mbase (taken_blk blk fs)
  have hb1eq : b1 = taken_blk blk fs := by
    rw [hB1] at hb1
    rcases (mem_blocks_upd (blocks mp) blk (taken_blk blk fs) hb rfl b1).1 hb1 with h1 | ⟨_, h2⟩
    · exact h1
    · exact absurd hb1id h2
  subst hb1eq
  have hseq : s = blk.freeslot := by
    have e : slot_ptr mp blk s = slot_ptr mp blk blk.freeslot := by
      rw [← hptr, hptr1]
      unfold slot_ptr
      rw [hobj, halign]
      rfl
    exact slot_ptr_inj mp blk s blk.freeslot (by have := h.objlen_ge; omega) hs1 hf1 e
  subst hseq
  have hsum := le_sum_map (blocks mp) (fun b => b.left) blk hb
  have hle := h.left_eq
  simp only at hsum
  have hfb : freed_blk (taken_blk blk fs) blk.freeslot = blk := freed_taken blk fs hl hbit
  have hfs_mbase : (freed_state mp1 (taken_blk blk fs) blk.freeslot).mbase = mp.mbase := by
    show set_blk mp1.mbase (freed_blk (taken_blk blk fs) blk.freeslot) = mp.mbase
    rw [hfb, hmb]
    exact set_blk_undo mp.mbase blk (taken_blk blk fs) h.ids_nodup hb rfl
  have hfs_left : (freed_state mp1 (taken_blk blk fs) blk.freeslot).left = mp.left := by
    show mp1.left + 1 = mp.left
    rw [hleft1]
    omega
  rw [hdel] at hd
  injection hd with hd
  have hmp2 : mp2 = (delete_in_blk mp1 (taken_blk blk fs) (ptr - mp1.align)).1 := by rw [hd]
  have hso1 : (ptr - mp1.align - blk.base) / mp1.objlen + 1 = blk.freeslot := hso
  rw [hmp2, delete_in_blk_eq]
  have hbase : (taken_blk blk fs).base = blk.base := rfl
  rw [hbase, hso1, hfb]
  split
  · exact Or.inl ⟨hfs_mbase, hfs_left⟩
  · split
    · split
      · right
        constructor
        · show hlist_del (freed_state mp1 (taken_blk blk fs) blk.freeslot).mbase blk.id = _
          rw [hfs_mbase]
        · show (freed_state mp1 (taken_blk blk fs) blk.freeslot).left - blk.left = _
          rw [hfs_left]
      · exact Or.inl ⟨hfs_mbase, hfs_left⟩
    · exact Or.inl ⟨hfs_mbase, hfs_left⟩

theorem length_hlist_del (mp : mpool_t) (live : List (Nat × Nat)) (h : Inv mp live)
    (b : mpool_blk_t) (hb : b ∈ blocks mp) :
    (hlist_del mp.mbase b.id).flatten.length + 1 = (blocks mp).length := by
  rw [flatten_hlist_del]
  exact length_filter_ne (blocks mp) b h.ids_nodup hb

/-- C6 (amended): in every reachable state in which `mpool_new` succeeds,
`mpool_new` followed at once by `mpool_delete` of its result yields a pool with
the same total free count and the same Directory (the same block records in
the same buckets), provided the pool holds as many blocks after the two calls
as before: that is, unless `mpool_new` had to create a block that
`mpool_delete` then keeps, or `mpool_delete` releases a block that was there,
fully free, before the two calls. -/
theorem C6_round_trip (mp : mpool_t) (live : List (Nat × Nat)) (nblk cbuf ptr : Nat)
    (mp2 : mpool_t) (hr : Reachable mp live)
    (hid : nblk ≠ 0 → id_fresh mp nblk)
    (hcbuf : cbuf ≠ 0 → buf_fresh mp cbuf (new_blk_size mp / mp.objlen * mp.objlen))
    (hrt : round_trip mp nblk cbuf = some (ptr, mp2))
    (hn : (blocks mp2).length = (blocks mp).length) :
    mp2.left = mp.left ∧ mp2.mbase = mp.mbase ∧ blocks mp2 = blocks mp := by
  have h := Reachable_inv mp live hr
  have h1 := Inv_nacquires mp live (mp.nacquires + 1) h
  suffices hs : mp2.left = mp.left ∧ mp2.mbase = mp.mbase by
    refine ⟨hs.1, hs.2, ?_⟩
    unfold blocks
    rw [hs.2]
  unfold round_trip at hrt
  split at hrt
  · rename_i mp1 p1 hnew
    split at hrt
    · exact absurd hrt (by simp)
    · rename_i hp
      split at hrt
      · rename_i m2 ev hdel
        injection hrt with hrt
        injection hrt with hrt1 hrt2
        subst hrt1; subst hrt2
        unfold mpool_new mpool_new_core at hnew
        dsimp only at hnew
        split at hnew
        · simp at hnew
          exact absurd hnew.2.symm hp
        · split at hnew
          · rename_i id0 rest hmq
            split at hnew
            · rename_i blk hblk
              cases ht : take_obj { mp with nacquires := mp.nacquires + 1 } blk with
              | none => rw [ht] at hnew; simp at hnew
              | some r =>
                obtain ⟨m1, q1⟩ := r
                rw [ht] at hnew
                simp only [Option.map_some', Option.some.injEq, Prod.mk.injEq] at hnew
                obtain ⟨e1, e2⟩ := hnew
                subst e1; subst e2
                obtain ⟨hb, _⟩ := get_blk_some _ _ _ hblk
                rcases take_delete _ live blk m1 q1 m2 ev h1 hb ht hdel with hc | hc
                · exact ⟨hc.2, hc.1⟩
                · exfalso
                  have := length_hlist_del mp live h blk hb
                  have e : blocks m2 = (hlist_del mp.mbase blk.id).flatten := by
                    unfold blocks; rw [hc.1]
                  rw [e] at hn
                  omega
            · simp at hnew
          · split at hnew
            · simp at hnew
              exact absurd hnew.2.symm hp
            · rename_i m0 blk hnb
              obtain ⟨hinv0, hb0, hfull, hfresh, hlink⟩ := mpool_new_blk_inv _ live 0 _
                mbuffer_free.null nblk cbuf m0 blk h1 hid (fun hc => absurd rfl hc) hcbuf hnb
              cases ht : take_obj m0 blk with
              | none => rw [ht] at hnew; simp at hnew
              | some r =>
                obtain ⟨m1, q1⟩ := r
                rw [ht] at hnew
                simp only [Option.map_some', Option.some.injEq, Prod.mk.injEq] at hnew
                obtain ⟨e1, e2⟩ := hnew
                subst e1; subst e2
                have hslot : blk.slot < mp.mbase.length := by
                  rw [h.mbase_len]; exact (hinv0.blk blk hb0).slot_lt
                have hlen0 : (blocks m0).length = (blocks mp).length + 1 := by
                  rw [hlink]
                  exact (link_blk_blocks _ blk hslot).length_eq
                rcases take_delete m0 live blk m1 q1 m2 ev hinv0 hb0 ht hdel with hc | hc
                · exfalso
                  have e : blocks m2 = blocks m0 := by
                    unfold blocks; rw [hc.1]
                  rw [e] at hn
                  omega
                · constructor
                  · rw [hc.2, hlink]
                    show mp.left + blk.left - blk.left = mp.left
                    omega
                  · rw [hc.1, hlink]
                    exact hlist_del_link _ blk hfresh
      · exact absurd hrt (by simp)
  · exact absurd hrt (by simp)

/-- Witness of C6: the pool with three outstanding allocations, whose block
has free slots. -/
theorem C6_round_trip_witness :
    Reachable demo_state.1 demo_state.2 ∧
    round_trip demo_state.1 0 0 = some (100088, demo_round_trip) ∧
    (blocks demo_round_trip).length = (blocks demo_state.1).length ∧
    demo_round_trip.left = demo_state.1.left ∧ demo_round_trip.mbase = demo_state.1.mbase ∧
    blocks demo_round_trip = blocks demo_state.1 :=
  ⟨demo_reachable, by decide, by decide,
    C6_round_trip demo_state.1 demo_state.2 0 0 100088 demo_round_trip demo_reachable
      (fun hc => absurd rfl hc) (fun hc => absurd rfl hc) (by decide) (by decide)⟩

/-! ## Release of a drained block of capacity at least 2 -/

/-- With min-spare-cache 0, `mpool_delete` of the last object of a block of
capacity at least 2 releases the block: its release function, if any, is called
once on the buffer and `free` once on the record, the block leaves the
Directory and the free queue, the number of blocks decreases by one, and the
total free count drops by the capacity, counted from the value that includes
the slot just given back. -/
theorem release_on_drain_of_two (mp : mpool_t) (live : List (Nat × Nat)) (ptr id : Nat)
    (b : mpool_blk_t) (hr : Reachable mp live) (hl : (ptr, id) ∈ live)
    (hb : b ∈ blocks mp) (hid : b.id = id) (hone : b.left + 1 = b.num) (htwo : 2 ≤ b.num)
    (hcache : mp.attr.nmin_objs_cache = 0) :
    ∃ mp2, mpool_delete mp ptr = some (mp2,
        (if b.mfree ≠ mbuffer_free.null then [mpool_event.mfree b.mfree b.base] else [])
          ++ [mpool_event.free_blk id]) ∧
      (∀ x ∈ blocks mp2, x.id ≠ id) ∧ id ∉ mp2.mq ∧
      (blocks mp2).length + 1 = (blocks mp).length ∧
      mp2.left + b.num = mp.left + 1 := by
  have h := Reachable_inv mp live hr
  obtain ⟨b1, s, hb1, hb1id, hs1, hs2, hbit, hptr, _, _, hso, hdel, hinv⟩ :=
    mpool_delete_live mp live ptr id h hl
  have hbb : b1 = b := blk_unique _ h.ids_nodup b1 b hb1 hb (by rw [hb1id, hid])
  subst hbb
  have hsum := le_sum_map (blocks mp) (fun x => x.left) b1 hb
  have hle := h.left_eq
  simp only at hsum
  have hnb : freed_blk b1 s ∈ blocks (freed_state mp b1 s) := by
    rw [blocks_freed_state]
    exact (mem_blocks_upd (blocks mp) b1 (freed_blk b1 s) hb rfl _).2 (Or.inl rfl)
  have hinvf := freed_state_inv mp live b1 s h hb hs1 hs2 hbit
  have hres : delete_in_blk mp b1 (ptr - mp.align) =
      (unlink_blk (freed_state mp b1 s) (freed_blk b1 s), release_events (freed_blk b1 s)) := by
    rw [delete_in_blk_eq, hso]
    have e0 : (freed_blk b1 s).left = b1.left + 1 := rfl
    have e3 : (freed_blk b1 s).num = b1.num := rfl
    rw [if_neg (by rw [e0]; omega), if_pos (by rw [e0, e3]; exact hone)]
    have e1 : ((freed_state mp b1 s).left : Int) = (mp.left : Int) + 1 := by
      show ((mp.left + 1 : Nat) : Int) = _
      push_cast; rfl
    have e2 : ((freed_blk b1 s).left : Int) = (b1.left : Int) + 1 := by
      show ((b1.left + 1 : Nat) : Int) = _
      push_cast; rfl
    rw [if_pos (by rw [e1, e2, hcache]; omega)]
  refine ⟨unlink_blk (freed_state mp b1 s) (freed_blk b1 s), ?_, ?_, ?_, ?_, ?_⟩
  · rw [hdel, hres, ← hid]
    rfl
  · intro x hx
    rw [blocks_unlink] at hx
    have := ((mem_filter_ne _ _ _).1 hx).2
    rw [← hid]; exact this
  · show id ∉ (freed_state mp b1 s).mq.erase (freed_blk b1 s).id
    intro hin
    have := (hinvf.mq_nodup.mem_erase_iff).1 hin
    exact this.1 hid.symm
  · rw [blocks_unlink]
    have := length_filter_ne (blocks (freed_state mp b1 s)) (freed_blk b1 s) hinvf.ids_nodup hnb
    rw [this, blocks_freed_state, List.length_map]
  · show mp.left + 1 - (b1.left + 1) + b1.num = mp.left + 1
    omega

/-! ## The assertions of `mpool_new` hold for blocks of fewer than 2^20 slots -/

theorem count_true_ge (bm : List Bool) : ∀ n, n ≤ bm.length →
    (∀ s, 1 ≤ s → s ≤ n → BIT_get bm s = true) → n ≤ popcount bm := by
  induction bm with
  | nil =>
    intro n hn _
    have : n = 0 := by simpa using hn
    subst this
    exact Nat.zero_le _
  | cons a t ih =>
    intro n hn hall
    cases n with
    | zero => exact Nat.zero_le _
    | succ m =>
      have ha : a = true := by
        have := hall 1 (le_refl _) (by omega)
        simpa [BIT_get] using this
      have ht := ih m (by simpa using hn) (fun s h1 h2 => by
        have := hall (s + 1) (by omega) (by omega)
        unfold BIT_get at this ⊢
        have e : s + 1 - 1 = (s - 1) + 1 := by omega
        rw [e] at this
        simpa using this)
      subst ha
      unfold popcount at ht ⊢
      simp only [List.count_cons_self]
      omega

theorem exists_clear_bit (bm : List Bool) (n : Nat) (hn : n ≤ bm.length)
    (h : popcount bm < n) : ∃ s, 1 ≤ s ∧ s ≤ n ∧ BIT_get bm s = false := by
  by_contra hc
  push_neg at hc
  have := count_true_ge bm n hn (fun s h1 h2 => by simpa using hc s h1 h2)
  omega

theorem u16_full_false (bm : List Bool) (w : Nat) (h : u16_full bm w = false) :
    ∃ j, j < 16 ∧ BIT_get bm (16 * w + (j + 1)) = false := by
  unfold u16_full at h
  have h2 : ¬ ((List.range 16).all (fun j => BIT_get bm (16 * w + j + 1)) = true) := by
    rw [h]; decide
  rw [List.all_eq_true] at h2
  push_neg at h2
  obtain ⟨j, hj, hb⟩ := h2
  exact ⟨j, List.mem_range.mp hj, by simpa using hb⟩

theorem u16_full_true (bm : List Bool) (w j : Nat) (h : u16_full bm w = true) (hj : j < 16) :
    BIT_get bm (16 * w + (j + 1)) = true := by
  unfold u16_full at h
  rw [List.all_eq_true] at h
  exact h j (List.mem_range.mpr hj)

theorem scan_freeslot_some (blk : mpool_blk_t) (bm : List Bool)
    (hu : blk.u16_num = blk.num / 16)
    (s : Nat) (hs1 : 1 ≤ s) (hs2 : s ≤ blk.num) (hbit : BIT_get bm s = false) :
    ∃ fs, scan_freeslot blk bm = some fs := by
  unfold scan_freeslot
  cases hw : (List.range blk.u16_num).find? (fun w => !(u16_full bm w)) with
  | some w =>
    dsimp only
    have hp := List.find?_some hw
    have hf : u16_full bm w = false := by simpa using hp
    obtain ⟨j, hj, hb⟩ := u16_full_false bm w hf
    cases h2 : (List.range 16).find? (fun j => !(BIT_get bm (16 * w + (j + 1)))) with
    | some j2 => exact ⟨_, rfl⟩
    | none =>
      rw [List.find?_eq_none] at h2
      have := h2 j (List.mem_range.mpr hj)
      rw [hb] at this
      exact absurd rfl this
  | none =>
    dsimp only
    rw [List.find?_eq_none] at hw
    have hall : ∀ w, w < blk.u16_num → u16_full bm w = true := by
      intro w hlt
      have := hw w (List.mem_range.mpr hlt)
      simpa using this
    have hq : blk.num / 16 ≤ (s - 1) / 16 := by
      by_contra hc
      have hlt : (s - 1) / 16 < blk.u16_num := by omega
      have := u16_full_true bm ((s - 1) / 16) ((s - 1) % 16) (hall _ hlt) (Nat.mod_lt _ (by decide))
      have e : 16 * ((s - 1) / 16) + ((s - 1) % 16 + 1) = s := by omega
      rw [e, hbit] at this
      exact absurd this (by decide)
    cases h2 : (List.range (blk.num % 16)).find?
        (fun j => !(BIT_get bm (16 * blk.u16_num + (j + 1)))) with
    | some j2 => exact ⟨_, rfl⟩
    | none =>
      rw [List.find?_eq_none] at h2
      have hj : (s - 1) % 16 < blk.num % 16 := by omega
      have := h2 ((s - 1) % 16) (List.mem_range.mpr hj)
      have e : 16 * blk.u16_num + ((s - 1) % 16 + 1) = s := by omega
      rw [e, hbit] at this
      exact absurd rfl this

theorem take_obj_total (mp : mpool_t) (live : List (Nat × Nat)) (blk : mpool_blk_t)
    (h : Inv mp live) (hb : blk ∈ blocks mp) (hl : 0 < blk.left) (hn : blk.num < 2 ^ 20) :
    ∃ r, take_obj mp blk = some r := by
  have ok := h.blk blk hb
  obtain ⟨h1, h2, h3⟩ := ok.hint hl
  have hu : blk.u16_num = blk.num / 16 := by
    have := ok.u16_eq
    omega
  unfold take_obj
  rw [if_neg (not_not.mpr ⟨hl, h1, h2⟩), if_neg (by rw [h3]; decide)]
  dsimp only
  by_cases h0 : blk.left - 1 = 0
  · rw [if_pos h0]; exact ⟨_, rfl⟩
  · rw [if_neg h0]
    by_cases hc : blk.freeslot + 1 > blk.num ∨ BIT_get (BIT_set blk.bitmap blk.freeslot) (blk.freeslot + 1)
    · rw [if_pos hc]
      have hlen := ok.bm_len
      have hpc := popcount_set blk.bitmap blk.freeslot (by omega) h3
      have hle := ok.left_eq
      obtain ⟨s, hs1, hs2, hs3⟩ := exists_clear_bit (BIT_set blk.bitmap blk.freeslot) blk.num
        (by rw [BIT_set_length]; exact hlen) (by omega)
      obtain ⟨fs, hfs⟩ := scan_freeslot_some blk _ hu s hs1 hs2 hs3
      rw [hfs]
      exact ⟨_, rfl⟩
    · rw [if_neg hc]
      exact ⟨_, rfl⟩

theorem mpool_new_blk_calloc (mp : mpool_t) (size : Nat) (nblk cbuf : Nat)
    (mp1 : mpool_t) (blk : mpool_blk_t)
    (hr : mpool_new_blk mp 0 size mbuffer_free.null nblk cbuf = some (mp1, blk)) :
    blk = mk_blk mp nblk cbuf (size / mp.objlen * mp.objlen) (size / mp.objlen)
        mbuffer_free.free ∧
      mp1 = link_blk mp blk ∧ nblk ≠ 0 ∧ cbuf ≠ 0 ∧ mp.objlen ≤ size := by
  unfold mpool_new_blk at hr
  split at hr
  · exact absurd hr (by simp)
  · rename_i h1
    split at hr
    · exact absurd hr (by simp)
    · rename_i h2
      rw [if_pos rfl] at hr
      split at hr
      · exact absurd hr (by simp)
      · rename_i h3
        dsimp only at hr
        injection hr with hr
        injection hr with hr1 hr2
        subst hr2
        refine ⟨rfl, hr1.symm, h2, h3, ?_⟩
        push_neg at h1
        exact h1.2

/-- The three ways `mpool_new` returns: refused by the throttle or by the
allocator (the state only counts the call), an object of the head of the free
queue, or an object of a block created by the call. -/
theorem mpool_new_core_cases (mp : mpool_t) (nblk cbuf : Nat)
    (mp1 : mpool_t) (ptr id : Nat)
    (hr : mpool_new_core mp nblk cbuf = some (mp1, ptr, id)) :
    (mp1 = { mp with nacquires := mp.nacquires + 1 } ∧ ptr = 0 ∧ id = 0) ∨
    (∃ blk rest, mp.mq = blk.id :: rest ∧ id = blk.id ∧
      get_blk { mp with nacquires := mp.nacquires + 1 } blk.id = some blk ∧
      take_obj { mp with nacquires := mp.nacquires + 1 } blk = some (mp1, ptr)) ∨
    (∃ blk m2, mp.mq = [] ∧ id = blk.id ∧
      mpool_new_blk { mp with nacquires := mp.nacquires + 1 } 0 (new_blk_size mp)
        mbuffer_free.null nblk cbuf = some (m2, blk) ∧
      take_obj m2 blk = some (mp1, ptr)) := by
  unfold mpool_new_core at hr
  dsimp only at hr
  split at hr
  · injection hr with hr
    injection hr with hr1 hr2
    injection hr2 with hr2 hr3
    exact Or.inl ⟨hr1.symm, hr2.symm, hr3.symm⟩
  · split at hr
    · rename_i id0 rest hmq
      split at hr
      · rename_i blk hblk
        cases ht : take_obj { mp with nacquires := mp.nacquires + 1 } blk with
        | none => rw [ht] at hr; exact absurd hr (by simp)
        | some r =>
          obtain ⟨m2, p2⟩ := r
          rw [ht] at hr
          simp only [Option.map_some'] at hr
          injection hr with hr
          injection hr with hr1 hr2
          injection hr2 with hr2 hr3
          subst hr1; subst hr2; subst hr3
          have hid := (get_blk_some _ _ _ hblk).2
          refine Or.inr (Or.inl ⟨blk, rest, ?_, rfl, ?_, ht⟩)
          · rw [hid]; exact hmq
          · rw [hid]; exact hblk
      · exact absurd hr (by simp)
    · rename_i hmq
      split at hr
      · injection hr with hr
        injection hr with hr1 hr2
        injection hr2 with hr2 hr3
        exact Or.inl ⟨hr1.symm, hr2.symm, hr3.symm⟩
      · rename_i m2 blk hnb
        cases ht : take_obj m2 blk with
        | none => rw [ht] at hr; exact absurd hr (by simp)
        | some r =>
          obtain ⟨m3, p3⟩ := r
          rw [ht] at hr
          simp only [Option.map_some'] at hr
          injection hr with hr
          injection hr with hr1 hr2
          injection hr2 with hr2 hr3
          subst hr1; subst hr2; subst hr3
          exact Or.inr (Or.inr ⟨blk, m2, hmq, rfl, hnb, ht⟩)

/-- In a pool whose blocks have fewer than 2^20 slots no assertion of
`mpool_new` fails: the call returns. -/
theorem mpool_new_core_total (mp : mpool_t) (live : List (Nat × Nat)) (nblk cbuf : Nat)
    (h : Inv mp live)
    (hid : nblk ≠ 0 → id_fresh mp nblk)
    (hcbuf : cbuf ≠ 0 → buf_fresh mp cbuf (new_blk_size mp / mp.objlen * mp.objlen))
    (hsmall : ∀ b ∈ blocks mp, b.num < 2 ^ 20)
    (hnew : new_blk_size mp / mp.objlen < 2 ^ 20) :
    ∃ r, mpool_new_core mp nblk cbuf = some r := by
  have h1 := Inv_nacquires mp live (mp.nacquires + 1) h
  unfold mpool_new_core
  dsimp only
  split
  · exact ⟨_, rfl⟩
  · split
    · rename_i id0 rest hmq
      have hmem : id0 ∈ mp.mq := by
        have : mp.mq = id0 :: rest := hmq
        rw [this]; exact List.mem_cons_self _ _
      obtain ⟨b, hb, hbid, hbl⟩ := (h.mq_mem id0).mp hmem
      have hg := get_blk_of_mem _ live h1 b hb
      rw [hbid] at hg
      rw [hg]
      dsimp only
      obtain ⟨r, hr⟩ := take_obj_total _ live b h1 hb hbl (hsmall b hb)
      rw [hr]
      exact ⟨_, rfl⟩
    · split
      · exact ⟨_, rfl⟩
      · rename_i m2 blk hnb
        obtain ⟨hinv2, hb2, hfull, _, _⟩ := mpool_new_blk_inv _ live 0 _ mbuffer_free.null nblk cbuf
          m2 blk h1 hid (fun hc => absurd rfl hc) hcbuf hnb
        obtain ⟨hblk, _, _, _, _⟩ := mpool_new_blk_calloc _ _ _ _ _ _ hnb
        have hnum : blk.num = new_blk_size mp / mp.objlen := by rw [hblk]; rfl
        have hpos := (hinv2.blk blk hb2).num_pos
        obtain ⟨r, hr⟩ := take_obj_total m2 live blk hinv2 hb2 (by omega) (by omega)
        rw [hr]
        exact ⟨_, rfl⟩

/-! ## C12: clamping of the attributes -/

theorem attr_check_eq (attr : mpool_attr_t) :
    attr_check attr =
      ⟨max attr.blk_size 4096, max attr.nmin_objs_cache 0,
        if attr.nmax_alloc ≥ 0 then attr.nmax_alloc else -1⟩ := by
  obtain ⟨b, c, m⟩ := attr
  unfold attr_check
  dsimp only
  split_ifs <;> dsimp only at * <;> simp only [mpool_attr_t.mk.injEq] <;>
    refine ⟨?_, ?_, ?_⟩ <;>
    first
      | trivial
      | rfl
      | omega

theorem attr_check_idem (attr : mpool_attr_t) : attr_check (attr_check attr) = attr_check attr := by
  rw [attr_check_eq (attr_check attr), attr_check_eq attr]
  simp only [mpool_attr_t.mk.injEq]
  refine ⟨?_, ?_, ?_⟩
  · simp
  · simp
  · split_ifs <;> rfl

/-- C12 (attribute clamping): for every attribute triple, `mpool_attr_get`
after `mpool_attr_set` returns (max(blk_size, 4096), max(nmin_objs_cache, 0),
nmax_alloc if nmax_alloc >= 0 else -1); setting the values returned by
`mpool_attr_get` again leaves the pool unchanged; and `mpool_attr_set` changes
no field of the pool other than the attributes: the Directory, the block
records in it, the free queue, the per-bucket counts, the counters, the header
bytes and the object size are those of the pool before the call. -/
theorem C12_attr_clamping (mp : mpool_t) (attr : mpool_attr_t) :
    mpool_attr_get (mpool_attr_set mp attr) =
        ⟨max attr.blk_size 4096, max attr.nmin_objs_cache 0,
          if attr.nmax_alloc ≥ 0 then attr.nmax_alloc else -1⟩ ∧
      mpool_attr_set (mpool_attr_set mp attr) (mpool_attr_get (mpool_attr_set mp attr)) =
        mpool_attr_set mp attr ∧
      (mpool_attr_set mp attr).mbase = mp.mbase ∧
      blocks (mpool_attr_set mp attr) = blocks mp ∧
      (mpool_attr_set mp attr).mq = mp.mq ∧
      (mpool_attr_set mp attr).mqnarray = mp.mqnarray ∧
      (mpool_attr_set mp attr).mbnum = mp.mbnum ∧
      (mpool_attr_set mp attr).left = mp.left ∧
      (mpool_attr_set mp attr).allocated = mp.allocated ∧
      (mpool_attr_set mp attr).nacquires = mp.nacquires ∧
      (mpool_attr_set mp attr).mem = mp.mem ∧
      (mpool_attr_set mp attr).objlen = mp.objlen ∧
      (mpool_attr_set mp attr).align = mp.align := by
  refine ⟨attr_check_eq attr, ?_, rfl, rfl, rfl, rfl, rfl, rfl, rfl, rfl, rfl, rfl, rfl⟩
  unfold mpool_attr_set mpool_attr_get
  dsimp only
  rw [attr_check_idem]

/-! ## C15: membership in the free queue -/

/-- C15 (Free-List membership): in every reachable state a block of the
Directory is linked in the free queue iff its `left` is positive, each such
block appears in the free queue exactly once, the free queue has no other
repetition, and every entry of the free queue is a block of the Directory. -/
theorem C15_free_list_membership (mp : mpool_t) (live : List (Nat × Nat))
    (hr : Reachable mp live) :
    (∀ b ∈ blocks mp, (b.id ∈ mp.mq ↔ 0 < b.left)) ∧
      (∀ b ∈ blocks mp, 0 < b.left → mp.mq.count b.id = 1) ∧
      mp.mq.Nodup ∧
      (∀ id ∈ mp.mq, ∃ b ∈ blocks mp, b.id = id) := by
  have h := Reachable_inv mp live hr
  have hmem : ∀ b ∈ blocks mp, (b.id ∈ mp.mq ↔ 0 < b.left) := by
    intro b hb
    constructor
    · intro hq
      obtain ⟨b1, hb1, hid, hl⟩ := (h.mq_mem b.id).mp hq
      have := blk_unique (blocks mp) h.ids_nodup b1 b hb1 hb hid
      rw [← this]; exact hl
    · intro hl
      exact (h.mq_mem b.id).mpr ⟨b, hb, rfl, hl⟩
  refine ⟨hmem, ?_, h.mq_nodup, ?_⟩
  · intro b hb hl
    exact List.count_eq_one_of_mem h.mq_nodup ((hmem b hb).mpr hl)
  · intro id hq
    obtain ⟨b1, hb1, hid, _⟩ := (h.mq_mem id).mp hq
    exact ⟨b1, hb1, hid⟩

theorem C15_free_list_membership_witness :
    Reachable demo_state.1 demo_state.2 ∧
      ((∀ b ∈ blocks demo_state.1, (b.id ∈ demo_state.1.mq ↔ 0 < b.left)) ∧
        (∀ b ∈ blocks demo_state.1, 0 < b.left → demo_state.1.mq.count b.id = 1) ∧
        demo_state.1.mq.Nodup ∧
        (∀ id ∈ demo_state.1.mq, ∃ b ∈ blocks demo_state.1, b.id = id)) :=
  ⟨demo_reachable, C15_free_list_membership demo_state.1 demo_state.2 demo_reachable⟩

/-! ## C19: the acquisition counter and the throttle -/

theorem take_obj_nacquires (mp : mpool_t) (blk : mpool_blk_t) (mp1 : mpool_t) (ptr : Nat)
    (h : take_obj mp blk = some (mp1, ptr)) : mp1.nacquires = mp.nacquires := by
  unfold take_obj at h
  split at h
  · exact absurd h (by simp)
  · split at h
    · exact absurd h (by simp)
    · dsimp only at h
      split at h
      · injection h with h
        injection h with h1 h2
        rw [← h1]
      · split at h
        · exact absurd h (by simp)
        · injection h with h
          injection h with h1 h2
          rw [← h1]

/-- C19 (acquisition counter and throttled failure): every call of `mpool_new`
that returns, with an object or with `NULL`, leaves `nacquires`, which
`mpool_stat` reports as `nobjs_acquired`, one higher than before; a call made
while `nmax_alloc >= 0` and `allocated >= nmax_alloc` returns `NULL`, creates no
block and changes nothing but that counter, whatever the free queue holds; and
in a reachable pool whose blocks have fewer than 2^20 slots the call does
return. -/
theorem C19_acquisition_counter (mp : mpool_t) (nblk cbuf : Nat) :
    (∀ mp1 ptr, mpool_new mp nblk cbuf = some (mp1, ptr) →
      mp1.nacquires = mp.nacquires + 1 ∧
      (mpool_stat mp1).nobjs_acquired = (mpool_stat mp).nobjs_acquired + 1) ∧
    ((mp.attr.nmax_alloc ≥ 0 ∧ (mp.allocated : Int) ≥ mp.attr.nmax_alloc) →
      mpool_new mp nblk cbuf = some ({ mp with nacquires := mp.nacquires + 1 }, 0)) ∧
    (∀ live, Reachable mp live →
      (nblk ≠ 0 → id_fresh mp nblk) →
      (cbuf ≠ 0 → buf_fresh mp cbuf (new_blk_size mp / mp.objlen * mp.objlen)) →
      (∀ b ∈ blocks mp, b.num < 2 ^ 20) → new_blk_size mp / mp.objlen < 2 ^ 20 →
      ∃ mp1 ptr, mpool_new mp nblk cbuf = some (mp1, ptr)) := by
  refine ⟨?_, ?_, ?_⟩
  · intro mp1 ptr hnew
    have hn : mp1.nacquires = mp.nacquires + 1 := by
      unfold mpool_new at hnew
      cases hc : mpool_new_core mp nblk cbuf with
      | none => rw [hc] at hnew; exact absurd hnew (by simp)
      | some r =>
        obtain ⟨m, p, id⟩ := r
        rw [hc] at hnew
        simp only [Option.map_some'] at hnew
        injection hnew with hnew
        injection hnew with e1 e2
        subst e1
        rcases mpool_new_core_cases mp nblk cbuf m p id hc with h1 | h2 | h3
        · rw [h1.1]
        · obtain ⟨blk, rest, _, _, _, ht⟩ := h2
          rw [take_obj_nacquires _ blk m p ht]
        · obtain ⟨blk, m2, _, _, hnb, ht⟩ := h3
          rw [take_obj_nacquires _ blk m p ht]
          obtain ⟨_, hm2, _⟩ := mpool_new_blk_calloc _ _ _ _ _ _ hnb
          rw [hm2]
          rfl
    exact ⟨hn, by unfold mpool_stat; dsimp only; exact hn⟩
  · intro hth
    unfold mpool_new mpool_new_core
    dsimp only
    rw [if_pos hth]
    rfl
  · intro live hr hid hcbuf hsmall hnew
    obtain ⟨r, hr2⟩ := mpool_new_core_total mp live nblk cbuf (Reachable_inv mp live hr)
      hid hcbuf hsmall hnew
    exact ⟨r.1, r.2.1, by unfold mpool_new; rw [hr2]; rfl⟩

theorem C19_acquisition_counter_witness :
    mpool_new demo_state.1 0 0 = some (demo_new.1, demo_new.2.1) ∧
      demo_new.1.nacquires = demo_state.1.nacquires + 1 ∧
      (mpool_stat demo_new.1).nobjs_acquired = (mpool_stat demo_state.1).nobjs_acquired + 1 :=
  ⟨by decide,
    (C19_acquisition_counter demo_state.1 0 0).1 demo_new.1 demo_new.2.1 (by decide)⟩

/-! ## C20: padding of the object size -/

/-- C20 (the claim fails for the four largest sizes): for the requested size
`2^64 - 4` the padded size computed by `mpool_init` in `size_t` wraps to 0, so
`objlen` is not above the requested size and is not the requested size plus
`align`. -/
theorem C20_padding_wraps :
    ∃ mp, mpool_init (2 ^ 64 - 4) = some mp ∧ mp.align = 4 ∧ mp.objlen = 0 ∧
      ¬ (2 ^ 64 - 4 < mp.objlen) ∧ mp.objlen ≠ 2 ^ 64 - 4 + mp.align :=
  ⟨_, rfl, by decide, by decide, by decide, by decide⟩

/-- C20 (object-size padding, for the sizes whose padded size fits `size_t`):
for every requested object size `n` with `0 < n < 2^64 - 4`, `mpool_init` sets
`align = 4 - n mod 4` and `objlen = n + align`, so that `1 <= align <= 4`,
`objlen` is a multiple of 4, `n < objlen <= n + 4` (a multiple of 4 grows by
4), and for a slot at address `slot` the user region
`[slot + align, slot + objlen)` has exactly `n` bytes and starts above the
header byte at `slot`; the pointer handed out for a slot is the slot address
plus `align`. -/
theorem C20_object_size_padding (n : Nat) (hn : 0 < n) (hfit : n < 2 ^ 64 - 4) :
    ∃ mp, mpool_init n = some mp ∧ mp.align = 4 - n % 4 ∧ mp.objlen = n + mp.align ∧
      1 ≤ mp.align ∧ mp.align ≤ 4 ∧ mp.objlen % 4 = 0 ∧ n < mp.objlen ∧ mp.objlen ≤ n + 4 ∧
      (n % 4 = 0 → mp.objlen = n + 4) ∧
      (∀ slot, (slot + mp.objlen) - (slot + mp.align) = n ∧ slot < slot + mp.align) ∧
      (∀ b s, slot_ptr mp b s = (b.base + (s - 1) * mp.objlen) + mp.align) := by
  have hwrap : ((4 - n % 4) + n) % 2 ^ 64 = (4 - n % 4) + n := Nat.mod_eq_of_lt (by omega)
  unfold mpool_init
  rw [if_pos hn, hwrap]
  refine ⟨_, rfl, rfl, ?_, ?_, ?_, ?_, ?_, ?_, ?_, ?_, ?_⟩
  · show (4 - n % 4) + n = n + (4 - n % 4)
    omega
  · show 1 ≤ 4 - n % 4
    omega
  · show 4 - n % 4 ≤ 4
    omega
  · show ((4 - n % 4) + n) % 4 = 0
    omega
  · show n < (4 - n % 4) + n
    omega
  · show (4 - n % 4) + n ≤ n + 4
    omega
  · intro h
    show (4 - n % 4) + n = n + 4
    omega
  · intro slot
    show (slot + ((4 - n % 4) + n)) - (slot + (4 - n % 4)) = n ∧ slot < slot + (4 - n % 4)
    omega
  · intro b s
    rfl

theorem C20_object_size_padding_witness :
    0 < 24 ∧ 24 < 2 ^ 64 - 4 ∧ ∃ mp, mpool_init 24 = some mp ∧ mp.align = 4 - 24 % 4 ∧ mp.objlen = 24 + mp.align ∧
      1 ≤ mp.align ∧ mp.align ≤ 4 ∧ mp.objlen % 4 = 0 ∧ 24 < mp.objlen ∧ mp.objlen ≤ 24 + 4 ∧
      (24 % 4 = 0 → mp.objlen = 24 + 4) ∧
      (∀ slot, (slot + mp.objlen) - (slot + mp.align) = 24 ∧ slot < slot + mp.align) ∧
      (∀ b s, slot_ptr mp b s = (b.base + (s - 1) * mp.objlen) + mp.align) :=
  ⟨by decide, by decide, C20_object_size_padding 24 (by decide) (by decide)⟩

/-! ## C13: no object is handed out twice -/

theorem balance_slot_min (cs : List Nat) : ∀ (pre : List Nat) (el sl : Nat),
    sl < pre.length → (pre ++ cs).getD sl 0 = el →
    (∀ j, j < pre.length → el ≤ (pre ++ cs).getD j 0) →
    (∀ j, j < sl → el < (pre ++ cs).getD j 0) →
    balance_slot el sl pre.length cs < (pre ++ cs).length ∧
      (∀ j, j < (pre ++ cs).length →
        (pre ++ cs).getD (balance_slot el sl pre.length cs) 0 ≤ (pre ++ cs).getD j 0) ∧
      (∀ j, j < balance_slot el sl pre.length cs →
        (pre ++ cs).getD (balance_slot el sl pre.length cs) 0 < (pre ++ cs).getD j 0) := by
  induction cs with
  | nil =>
    intro pre el sl hsl hel hle hlt
    simp only [balance_slot, List.append_nil] at *
    rw [hel]
    exact ⟨hsl, hle, hlt⟩
  | cons c cs ih =>
    intro pre el sl hsl hel hle hlt
    have happ : pre ++ c :: cs = (pre ++ [c]) ++ cs := by simp
    have hlen : (pre ++ [c]).length = pre.length + 1 := by simp
    have hc : (pre ++ c :: cs).getD pre.length 0 = c := by
      rw [List.getD_eq_getElem?_getD, List.getElem?_append_right (le_refl _)]
      simp
    unfold balance_slot
    by_cases h0 : el = 0
    · rw [if_pos h0, hel]
      refine ⟨by simp; omega, ?_, hlt⟩
      intro j _
      omega
    · rw [if_neg h0]
      by_cases hgt : el > c
      · rw [if_pos hgt]
        have := ih (pre ++ [c]) c pre.length (by omega) (by rw [← happ]; exact hc)
          (by
            intro j hj
            rw [← happ]
            by_cases hjp : j < pre.length
            · have := hle j hjp
              omega
            · have : j = pre.length := by omega
              rw [this, hc])
          (by
            intro j hj
            rw [← happ]
            have := hle j hj
            omega)
        rw [hlen, ← happ] at this
        exact this
      · rw [if_neg hgt]
        have := ih (pre ++ [c]) el sl (by omega) (by rw [← happ]; exact hel)
          (by
            intro j hj
            rw [← happ]
            by_cases hjp : j < pre.length
            · exact hle j hjp
            · have : j = pre.length := by omega
              rw [this, hc]
              omega)
          (by
            intro j hj
            rw [← happ]
            exact hlt j hj)
        rw [hlen, ← happ] at this
        exact this

/-- The bucket chosen by `mk_blk` is the lowest index whose count is the
minimum of the 25 counts. -/
theorem mk_blk_slot_min (mp : mpool_t) (nblk buffer1 size1 nobjs : Nat) (mfree1 : mbuffer_free)
    (hn : mp.mbnum = 25) (hl : mp.mqnarray.length = 25) :
    (mk_blk mp nblk buffer1 size1 nobjs mfree1).slot < 25 ∧
      (∀ j, j < 25 → mp.mqnarray.getD (mk_blk mp nblk buffer1 size1 nobjs mfree1).slot 0
        ≤ mp.mqnarray.getD j 0) ∧
      (∀ j, j < (mk_blk mp nblk buffer1 size1 nobjs mfree1).slot →
        mp.mqnarray.getD (mk_blk mp nblk buffer1 size1 nobjs mfree1).slot 0
          < mp.mqnarray.getD j 0) := by
  have htake : mp.mqnarray.take mp.mbnum = mp.mqnarray := by
    rw [hn]; exact List.take_of_length_le (by omega)
  have hsplit : [mp.mqnarray.getD 0 0] ++ mp.mqnarray.drop 1 = mp.mqnarray := by
    cases hq : mp.mqnarray with
    | nil => rw [hq] at hl; simp at hl
    | cons a t => simp
  have key := balance_slot_min (mp.mqnarray.drop 1) [mp.mqnarray.getD 0 0]
    (mp.mqnarray.getD 0 0) 0 (by simp) (by rw [hsplit])
    (by
      intro j hj
      have : j = 0 := by simpa using hj
      rw [hsplit, this])
    (by intro j hj; omega)
  rw [hsplit, hl] at key
  have hslot : (mk_blk mp nblk buffer1 size1 nobjs mfree1).slot =
      balance_slot (mp.mqnarray.getD 0 0) 0 1 (mp.mqnarray.drop 1) := by
    show (balance_slot (mp.mqnarray.getD 0 0) 0 1 ((mp.mqnarray.take mp.mbnum).drop 1)) % 256 = _
    rw [htake]
    exact Nat.mod_eq_of_lt (by
      have := key.1
      simp only [List.length_singleton] at this
      omega)
  rw [hslot]
  simpa using key

theorem mpool_new_blk_some (mp : mpool_t) (buffer size : Nat) (mfree : mbuffer_free)
    (nblk cbuf : Nat) (mp1 : mpool_t) (blk : mpool_blk_t)
    (hr : mpool_new_blk mp buffer size mfree nblk cbuf = some (mp1, blk)) :
    mp1 = link_blk mp blk ∧ blk.num = size / mp.objlen ∧
      ∃ b1 s1 mf, blk = mk_blk mp nblk b1 s1 (size / mp.objlen) mf := by
  unfold mpool_new_blk at hr
  split at hr
  · exact absurd hr (by simp)
  · split at hr
    · exact absurd hr (by simp)
    · split at hr
      · split at hr
        · exact absurd hr (by simp)
        · dsimp only at hr
          injection hr with hr
          injection hr with hr1 hr2
          subst hr2
          exact ⟨hr1.symm, rfl, _, _, _, rfl⟩
      · dsimp only at hr
        injection hr with hr
        injection hr with hr1 hr2
        subst hr2
        exact ⟨hr1.symm, rfl, _, _, _, rfl⟩

theorem getD_set_nat (l : List Nat) (i j v : Nat) (hi : i < l.length) :
    (l.set i v).getD j 0 = if j = i then v else l.getD j 0 := by
  simp only [List.getD_eq_getElem?_getD, List.getElem?_set]
  by_cases h : i = j
  · subst h
    simp [hi]
  · have h2 : ¬ j = i := fun e => h e.symm
    simp [h, h2]

/-- C17 (balanced bucket assignment): whatever the 25 per-bucket counts are,
a block created by `mpool_new_blk` is put in the lowest-indexed bucket whose
count is the minimum of the 25 counts; the count of that bucket grows by one
and no other count changes; every slot header of the new block stores that
bucket index; and in every reachable state each of the 25 counts is the length
of the chain of its bucket. -/
theorem C17_balanced_bucket (mp : mpool_t) (buffer size : Nat) (mfree : mbuffer_free)
    (nblk cbuf : Nat) (mp1 : mpool_t) (blk : mpool_blk_t)
    (hn : mp.mbnum = 25) (hl : mp.mqnarray.length = 25)
    (hr : mpool_new_blk mp buffer size mfree nblk cbuf = some (mp1, blk)) :
    blk.slot < 25 ∧
      (∀ j, j < 25 → mp.mqnarray.getD blk.slot 0 ≤ mp.mqnarray.getD j 0) ∧
      (∀ j, j < blk.slot → mp.mqnarray.getD blk.slot 0 < mp.mqnarray.getD j 0) ∧
      (∀ j, mp1.mqnarray.getD j 0 =
        if j = blk.slot then mp.mqnarray.getD j 0 + 1 else mp.mqnarray.getD j 0) ∧
      mp1.mqnarray.length = 25 ∧
      (∀ i, i < blk.num → mp1.mem.lookup (blk.base + i * mp1.objlen) = some blk.slot) ∧
      (∀ m l, Reachable m l → m.mbnum = 25 ∧ m.mqnarray.length = 25 ∧
        ∀ i, i < 25 → m.mqnarray.getD i 0 = (m.mbase.getD i []).length) := by
  obtain ⟨hm1, _, b1, s1, mf, hblk⟩ := mpool_new_blk_some mp buffer size mfree nblk cbuf mp1 blk hr
  have hmin := mk_blk_slot_min mp nblk b1 s1 (size / mp.objlen) mf hn hl
  rw [← hblk] at hmin
  obtain ⟨hs, hle, hlt⟩ := hmin
  refine ⟨hs, hle, hlt, ?_, ?_, ?_, ?_⟩
  · intro j
    rw [hm1]
    show (mp.mqnarray.set blk.slot (mp.mqnarray.getD blk.slot 0 + 1)).getD j 0 = _
    rw [getD_set_nat _ _ _ _ (by omega)]
    by_cases hj : j = blk.slot
    · rw [if_pos hj, if_pos hj, hj]
    · rw [if_neg hj, if_neg hj]
  · rw [hm1]
    show (mp.mqnarray.set blk.slot (mp.mqnarray.getD blk.slot 0 + 1)).length = 25
    rw [List.length_set]
    exact hl
  · intro i hi
    rw [hm1]
    show (write_hdrs mp.mem blk.base mp.objlen blk.num blk.slot).lookup
      (blk.base + i * mp.objlen) = some blk.slot
    exact write_hdrs_in _ _ _ _ _ _ (by omega) hi
  · intro m l hreach
    have h := Reachable_inv m l hreach
    refine ⟨h.mbnum_eq, h.mqn_len, ?_⟩
    intro i hi
    rw [mqnarray_eq m l h]
    simp only [List.getD_eq_getElem?_getD, List.getElem?_map]
    cases hx : m.mbase[i]? with
    | none =>
      have := List.getElem?_eq_none_iff.1 hx
      rw [h.mbase_len] at this
      omega
    | some c => rfl

theorem C17_balanced_bucket_witness :
    demo_state.1.mbnum = 25 ∧ demo_state.1.mqnarray.length = 25 ∧
      mpool_new_blk demo_state.1 0 4096 mbuffer_free.null 3000 300000 =
        some (demo_new_blk.1, demo_new_blk.2) ∧
      demo_new_blk.2.slot = 1 ∧
      (demo_new_blk.2.slot < 25 ∧
        (∀ j, j < 25 → demo_state.1.mqnarray.getD demo_new_blk.2.slot 0
          ≤ demo_state.1.mqnarray.getD j 0) ∧
        (∀ j, j < demo_new_blk.2.slot →
          demo_state.1.mqnarray.getD demo_new_blk.2.slot 0 < demo_state.1.mqnarray.getD j 0) ∧
        (∀ j, demo_new_blk.1.mqnarray.getD j 0 =
          if j = demo_new_blk.2.slot then demo_state.1.mqnarray.getD j 0 + 1
          else demo_state.1.mqnarray.getD j 0) ∧
        demo_new_blk.1.mqnarray.length = 25 ∧
        (∀ i, i < demo_new_blk.2.num →
          demo_new_blk.1.mem.lookup (demo_new_blk.2.base + i * demo_new_blk.1.objlen)
            = some demo_new_blk.2.slot) ∧
        (∀ m l, Reachable m l → m.mbnum = 25 ∧ m.mqnarray.length = 25 ∧
          ∀ i, i < 25 → m.mqnarray.getD i 0 = (m.mbase.getD i []).length)) :=
  ⟨by decide, by decide, by decide, by decide,
    C17_balanced_bucket demo_state.1 0 4096 mbuffer_free.null 3000 300000
      demo_new_blk.1 demo_new_blk.2 (by decide) (by decide) (by decide)⟩

/-! ## C18: the size of a new block -/

theorem to_size_t_natCast (k : Nat) (hk : k < 2 ^ 64) : to_size_t (k : Int) = k := by
  unfold to_size_t
  have : ((k : Int) % 2 ^ 64) = (k : Int) := Int.emod_eq_of_lt (by omega) (by omega)
  rw [this]
  exact Int.toNat_ofNat k

theorem to_int_small (k : Nat) (hk : k < 2 ^ 31) : to_int k = (k : Int) := by
  unfold to_int
  have : k % 2 ^ 32 = k := Nat.mod_eq_of_lt (by omega)
  rw [this, if_pos hk]

theorem roundup_max (g x : Nat) (hg : 0 < g) (hx : 0 < x) :
    (max g x + g - 1) / g * g = (x + g - 1) / g * g := by
  by_cases h : g ≤ x
  · rw [max_eq_right h]
  · rw [max_eq_left (by omega)]
    have e1 : (g + g - 1) / g = 1 := Nat.div_eq_of_lt_le (by omega) (by omega)
    have e2 : (x + g - 1) / g = 1 := Nat.div_eq_of_lt_le (by omega) (by omega)
    rw [e1, e2]

theorem new_blk_size_eq (mp : mpool_t) (g c : Nat)
    (hg : mp.attr.blk_size = (g : Int)) (hc : mp.attr.nmin_objs_cache = (c : Int))
    (hg1 : 0 < g) (ho : 0 < mp.objlen) (hfit : mp.objlen * max c 1 + g - 1 < 2 ^ 31) :
    new_blk_size mp = (mp.objlen * max c 1 + g - 1) / g * g := by
  have hcle : c ≤ mp.objlen * max c 1 :=
    le_trans (le_max_left c 1) (Nat.le_mul_of_pos_left _ ho)
  have hk : to_size_t (if (c : Int) ≠ 0 then (c : Int) else 1) = max c 1 := by
    by_cases h0 : c = 0
    · subst h0
      simp only [Nat.cast_zero, ne_eq, not_true_eq_false, if_false]
      exact to_size_t_natCast 1 (by omega)
    · have : (c : Int) ≠ 0 := by exact_mod_cast h0
      rw [if_pos this, to_size_t_natCast c (by omega)]
      exact (max_eq_left (by omega)).symm
  have hgs : to_size_t (g : Int) = g := to_size_t_natCast g (by omega)
  have hle : (mp.objlen * max c 1 + g - 1) / g * g ≤ mp.objlen * max c 1 + g - 1 :=
    Nat.div_mul_le_self _ _
  unfold new_blk_size
  simp only [hg, hc, hk, hgs]
  generalize mp.objlen * max c 1 = X at *
  have e3 : ((X % 2 ^ 64 + g) % 2 ^ 64 + 2 ^ 64 - 1) % 2 ^ 64 = X + g - 1 := by omega
  rw [e3]
  generalize (X + g - 1) / g * g = Y at *
  have e4 : Y % 2 ^ 64 = Y := Nat.mod_eq_of_lt (by omega)
  rw [e4, to_int_small Y (by omega), to_size_t_natCast Y (by omega)]

/-- C18 (the claim fails when the spare cache is 0 and a slot is larger than
the growth granularity): with slots of 4100 bytes (objects of 4096 bytes),
granularity 4096 and min-spare-cache 0, `mpool_new` on the empty free queue
requests 8192 bytes, not max(4096, 0 * 4100) = 4096 rounded up to a multiple
of 4096, and the new block has capacity 1, not 4096 / 4100 = 0. -/
theorem C18_sizing_counterexample :
    ∃ mp live, Reachable mp live ∧
      (mp.objlen = 4100 ∧ mp.attr.blk_size = 4096 ∧ mp.attr.nmin_objs_cache = 0 ∧
        mp.mq = [] ∧ new_blk_size mp = 8192 ∧
        (max 4096 (0 * mp.objlen) + 4096 - 1) / 4096 * 4096 = 4096 ∧
        (mpool_new_core mp 1000 100000).map
            (fun r => (r.2.1, (blocks r.1).map (fun b => (b.id, b.num, b.length))))
          = some (100004, [(1000, 1, 4100)])) :=
  exists_reachable_of_run 4096 big_slot_ops _ (fun _ _ => inferInstance) (by decide)

/-- C18 (block sizing on growth, amended): for every padded object size
`o > 0`, growth granularity `g >= 4096` and min-spare-cache `c >= 0` such that
`o * max(c, 1) + g - 1` fits the `int` of the code, the size `mpool_new`
requests for a new block is `max(g, max(c, 1) * o)` rounded up to the next
multiple of `g` (a spare cache of 0 counts as 1, so that one object always
fits); and when `mpool_new` finds the free queue empty and returns an object,
the object comes from a block created with that size, whose capacity is the
size divided by `o`, rounded down. -/
theorem C18_block_sizing (mp : mpool_t) (g c : Nat)
    (hg : mp.attr.blk_size = (g : Int)) (hc : mp.attr.nmin_objs_cache = (c : Int))
    (hg1 : 4096 ≤ g) (ho : 0 < mp.objlen) (hfit : mp.objlen * max c 1 + g - 1 < 2 ^ 31) :
    new_blk_size mp = (max g (max c 1 * mp.objlen) + g - 1) / g * g ∧
      ∀ nblk cbuf mp1 ptr id, mp.mq = [] →
        mpool_new_core mp nblk cbuf = some (mp1, ptr, id) → ptr ≠ 0 →
        ∃ blk m2,
          mpool_new_blk { mp with nacquires := mp.nacquires + 1 } 0
            ((max g (max c 1 * mp.objlen) + g - 1) / g * g) mbuffer_free.null nblk cbuf
              = some (m2, blk) ∧
          blk.id = id ∧
          blk.num = ((max g (max c 1 * mp.objlen) + g - 1) / g * g) / mp.objlen := by
  have hsize : new_blk_size mp = (max g (max c 1 * mp.objlen) + g - 1) / g * g := by
    rw [Nat.mul_comm (max c 1) mp.objlen,
      roundup_max g (mp.objlen * max c 1) (by omega)
        (Nat.mul_pos ho (lt_of_lt_of_le Nat.zero_lt_one (le_max_right c 1))),
      new_blk_size_eq mp g c hg hc (by omega) ho hfit]
  refine ⟨hsize, ?_⟩
  intro nblk cbuf mp1 ptr id hmq hnew hp
  rcases mpool_new_core_cases mp nblk cbuf mp1 ptr id hnew with h1 | h2 | h3
  · exact absurd h1.2.1 hp
  · obtain ⟨blk, rest, hq, _⟩ := h2
    rw [hmq] at hq
    exact absurd hq (by simp)
  · obtain ⟨blk, m2, _, hid, hnb, _⟩ := h3
    rw [hsize] at hnb
    refine ⟨blk, m2, hnb, hid.symm, ?_⟩
    exact (mpool_new_blk_some _ _ _ _ _ _ _ _ hnb).2.1

theorem C18_block_sizing_witness :
    big_slot_state.1.attr.blk_size = ((4096 : Nat) : Int) ∧
      big_slot_state.1.attr.nmin_objs_cache = ((0 : Nat) : Int) ∧
      big_slot_state.1.objlen = 4100 ∧
      new_blk_size big_slot_state.1
        = (max 4096 (max 0 1 * big_slot_state.1.objlen) + 4096 - 1) / 4096 * 4096 :=
  ⟨by decide, by decide, by decide,
    (C18_block_sizing big_slot_state.1 4096 0 (by decide) (by decide) (by decide) (by decide)
      (by decide)).1⟩

/-! ## C16: which block `mpool_new` serves -/

/-- C16 (the code breaks the claim): objects of 1361 bytes, attributes
(4096, 0, unbounded); two blocks of three slots are filled, then one object of
the first block and two of the second are deleted.  In that reachable state
the free queue is not empty, the first block (1000) has 1 free slot and the
second (2000) has 2, the head of the free queue is the second block, and
`mpool_new` takes its object from the second block. -/
theorem C16_new_serves_emptier_block :
    ∃ mp live, Reachable mp live ∧
      (mp.mq = [2000, 1000] ∧ blk_summary mp = [(1000, 3, 1), (2000, 3, 2)] ∧
        blk_left mp 1000 = 1 ∧ blk_left mp 2000 = 2 ∧
        (mpool_new_core mp 0 0).map (fun r => (r.2.1, r.2.2)) = some (201367, 2000)) :=
  exists_reachable_of_run 1361 order_ops _ (fun _ _ => inferInstance) (by decide)

/-! ## Draining a block -/

theorem filter_map_upd (B : List mpool_blk_t) (nb : mpool_blk_t) :
    (B.map (fun x => if x.id = nb.id then nb else x)).filter (fun x => x.id != nb.id)
      = B.filter (fun x => x.id != nb.id) := by
  induction B with
  | nil => rfl
  | cons x t ih =>
    by_cases hx : x.id = nb.id
    · simp only [List.map_cons, if_pos hx, List.filter_cons, bne_self_eq_false, hx, ih]
      simp
    · have hne : (x.id != nb.id) = true := by simpa using hx
      simp only [List.map_cons, if_neg hx, List.filter_cons, hne, if_true, ih]

/-- With min-spare-cache 0, deleting all the live objects of a block of at
least two slots, in any order, releases the block with the last call: every
call returns, the only calls made to the outside are the release of the buffer
and of the record, and the Directory loses exactly that block. -/
theorem drain_block (ps : List Nat) : ∀ (mp : mpool_t) (live : List (Nat × Nat))
    (b : mpool_blk_t), Inv mp live → b ∈ blocks mp → 2 ≤ b.num →
    mp.attr.nmin_objs_cache = 0 → ps ≠ [] → ps.Nodup →
    (∀ p, p ∈ ps ↔ (p, b.id) ∈ live) →
    ∃ mp2, delete_all mp ps = some (mp2, release_events b) ∧
      blocks mp2 = (blocks mp).filter (fun x => x.id != b.id) ∧
      Inv mp2 (live.filter (fun e => decide (e.1 ∉ ps))) := by
  induction ps with
  | nil => intro mp live b _ _ _ _ hne; exact absurd rfl hne
  | cons p tail ih =>
    intro mp live b h hb hnum hcache _ hnd hiff
    have hl : (p, b.id) ∈ live := (hiff p).mp (List.mem_cons_self _ _)
    obtain ⟨b1, s, hb1, hid1, hs1, hs2, hbit, hptr, _, _, hs, hdel, hinv1⟩ :=
      mpool_delete_live mp live p b.id h hl
    have hbb : b1 = b := blk_unique (blocks mp) h.ids_nodup b1 b hb1 hb hid1
    subst hbb
    have hfs := freed_state_inv mp live b1 s h hb1 hs1 hs2 hbit
    rw [← hptr] at hfs
    have hblocks := blocks_freed_state mp b1 s
    have hnb : freed_blk b1 s ∈ blocks (freed_state mp b1 s) := by
      rw [hblocks]
      exact (mem_blocks_upd (blocks mp) b1 (freed_blk b1 s) hb1 rfl _).mpr (Or.inl rfl)
    have hok := hfs.blk _ hnb
    have hpnd : p ∉ tail := (List.nodup_cons.mp hnd).1
    have htnd : tail.Nodup := (List.nodup_cons.mp hnd).2
    have hiff2 : ∀ q, q ∈ tail ↔ (q, b1.id) ∈ live.filter (fun e => e.1 != p) := by
      intro q
      rw [List.mem_filter, ← hiff q]
      constructor
      · intro hq
        refine ⟨List.mem_cons_of_mem _ hq, ?_⟩
        have : q ≠ p := fun e => hpnd (e ▸ hq)
        simpa using this
      · rintro ⟨hq, hne⟩
        have hne2 : q ≠ p := by simpa using hne
        rcases List.mem_cons.mp hq with e | e
        · exact absurd e hne2
        · exact e
    have hdel2 := delete_in_blk_eq mp b1 (p - mp.align)
    rw [hs] at hdel2
    cases htail : tail with
    | nil =>
      subst htail
      -- no live object is left in the block: it is fully free
      have hpc : popcount (freed_blk b1 s).bitmap = 0 := by
        by_contra hc
        obtain ⟨n, hn1, hn2⟩ := popcount_exists _ (Nat.pos_of_ne_zero hc)
        have hn3 : n ≤ (freed_blk b1 s).num := by
          by_contra hgt
          have := hok.bm_hi n (by omega)
          rw [this] at hn2
          exact absurd hn2 (by decide)
        have := (hfs.live_iff (slot_ptr (freed_state mp b1 s) (freed_blk b1 s) n) b1.id).mpr
          ⟨_, hnb, rfl, n, hn1, hn3, hn2, rfl⟩
        have := (hiff2 _).mpr this
        exact absurd this (List.not_mem_nil _)
      have hfull : (freed_blk b1 s).left = (freed_blk b1 s).num := by
        have := hok.left_eq
        omega
      have hnum2 : (freed_blk b1 s).num = b1.num := rfl
      have hne1 : ¬ (freed_blk b1 s).left = 1 := by omega
      have hrel : ((freed_state mp b1 s).left : Int) ≥
          ((freed_blk b1 s).left : Int) + mp.attr.nmin_objs_cache := by
        rw [hcache, hfs.left_eq]
        have := le_sum_map (blocks (freed_state mp b1 s)) (fun x => x.left) _ hnb
        simp only [add_zero, ge_iff_le, Nat.cast_le]
        exact this
      rw [if_neg hne1, if_pos hfull, if_pos hrel] at hdel2
      rw [hdel2] at hdel hinv1
      refine ⟨unlink_blk (freed_state mp b1 s) (freed_blk b1 s), ?_, ?_, ?_⟩
      · unfold delete_all
        rw [hdel]
        simp only [delete_all, List.append_nil]
        rfl
      · rw [blocks_unlink, hblocks]
        exact filter_map_upd (blocks mp) (freed_blk b1 s)
      · have e : live.filter (fun e => decide (e.1 ∉ [p])) = live.filter (fun e => e.1 != p) := by
          apply List.filter_congr
          intro x _
          by_cases hxp : x.1 = p <;> simp [hxp]
        rw [e]
        exact hinv1
    | cons q tail2 =>
      rw [htail] at hiff2 ih hpnd htnd
      -- another live object is left in the block: it is not fully free
      have hq := (hiff2 q).mp (List.mem_cons_self _ _)
      obtain ⟨x, hx, hxid, n, hn1, hn2, hn3, _⟩ := (hfs.live_iff q b1.id).mp hq
      have hxe : x = freed_blk b1 s :=
        blk_unique _ hfs.ids_nodup x _ hx hnb hxid
      rw [hxe] at hn3
      have hpos := popcount_pos _ n hn3
      have hnf : ¬ (freed_blk b1 s).left = (freed_blk b1 s).num := by
        have := hok.left_eq
        omega
      have hres : delete_in_blk mp b1 (p - mp.align) = (freed_state mp b1 s, []) := by
        rw [hdel2]
        by_cases h1 : (freed_blk b1 s).left = 1
        · rw [if_pos h1]
        · rw [if_neg h1, if_neg hnf]
      rw [hres] at hdel
      obtain ⟨mp2, hd2, hb2, hinv2⟩ := ih (freed_state mp b1 s)
        (live.filter (fun e => e.1 != p)) (freed_blk b1 s) hfs hnb hnum hcache
        (by simp) htnd hiff2
      refine ⟨mp2, ?_, ?_, ?_⟩
      · unfold delete_all
        rw [hdel]
        dsimp only
        rw [hd2]
        rfl
      · rw [hb2, hblocks]
        exact filter_map_upd (blocks mp) (freed_blk b1 s)
      · have e : live.filter (fun e => decide (e.1 ∉ p :: q :: tail2)) =
            (live.filter (fun e => e.1 != p)).filter (fun e => decide (e.1 ∉ q :: tail2)) := by
          rw [List.filter_filter]
          apply List.filter_congr
          intro x _
          by_cases hxp : x.1 = p <;> simp [hxp]
        rw [e]
        exact hinv2

/-! ## C14: the next-free-slot hint and the assertions of `mpool_new` -/

/-- Validity of the next-free-slot hint: in every reachable state every block
with a free slot has `1 <= freeslot <= num` and the bit `freeslot` of its
bitmap clear, so the assertions at the start of the slot reservation hold for
the head of the free queue. -/
theorem hint_valid (mp : mpool_t) (live : List (Nat × Nat)) (hr : Reachable mp live) :
    ∀ b ∈ blocks mp, 0 < b.left →
      1 ≤ b.freeslot ∧ b.freeslot ≤ b.num ∧ BIT_get b.bitmap b.freeslot = false :=
  fun b hb hl => ((Reachable_inv mp live hr).blk b hb).hint hl

/-! ## Forward computation of `mpool_new` -/

theorem take_obj_next (mp : mpool_t) (blk : mpool_blk_t)
    (hl : 2 ≤ blk.left) (h1 : 1 ≤ blk.freeslot) (h2 : blk.freeslot + 1 ≤ blk.num)
    (h3 : BIT_get blk.bitmap blk.freeslot = false)
    (h4 : BIT_get (BIT_set blk.bitmap blk.freeslot) (blk.freeslot + 1) = false) :
    take_obj mp blk = some ({ mp with
        mbase := set_blk mp.mbase (taken_blk blk (blk.freeslot + 1))
        mq := mq_move_forward (blk_left mp) blk.id (blk.left - 1) mp.mq
        left := mp.left - 1
        allocated := mp.allocated + 1 }, slot_ptr mp blk blk.freeslot) := by
  unfold take_obj
  rw [if_neg (not_not.mpr ⟨by omega, h1, by omega⟩), if_neg (by rw [h3]; decide)]
  dsimp only
  rw [if_neg (by omega), if_neg (by
    intro hc
    rcases hc with hc | hc
    · omega
    · rw [h4] at hc; exact absurd hc (by decide))]
  rfl

theorem take_obj_last (mp : mpool_t) (blk : mpool_blk_t)
    (hl : blk.left = 1) (h1 : 1 ≤ blk.freeslot) (h2 : blk.freeslot ≤ blk.num)
    (h3 : BIT_get blk.bitmap blk.freeslot = false) :
    take_obj mp blk = some ({ mp with
        mbase := set_blk mp.mbase (taken_blk blk blk.freeslot)
        mq := mp.mq.erase blk.id
        left := mp.left - 1
        allocated := mp.allocated + 1 }, slot_ptr mp blk blk.freeslot) := by
  unfold take_obj
  rw [if_neg (not_not.mpr ⟨by omega, h1, h2⟩), if_neg (by rw [h3]; decide)]
  dsimp only
  rw [if_pos (by omega)]
  rfl

/-- When the 16-bit word count of a block is 0 and its capacity is a multiple
of 16, the search for a clear bit looks at no bit at all. -/
theorem scan_freeslot_none (blk : mpool_blk_t) (bm : List Bool)
    (hu : blk.u16_num = 0) (hm : blk.num % 16 = 0) : scan_freeslot blk bm = none := by
  unfold scan_freeslot
  rw [hu, hm]
  rfl

theorem take_obj_scan_none (mp : mpool_t) (blk : mpool_blk_t)
    (hl : 2 ≤ blk.left) (h1 : 1 ≤ blk.freeslot) (h2 : blk.freeslot ≤ blk.num)
    (h3 : BIT_get blk.bitmap blk.freeslot = false)
    (h4 : blk.freeslot + 1 > blk.num ∨
      BIT_get (BIT_set blk.bitmap blk.freeslot) (blk.freeslot + 1) = true)
    (hu : blk.u16_num = 0) (hm : blk.num % 16 = 0) : take_obj mp blk = none := by
  unfold take_obj
  rw [if_neg (not_not.mpr ⟨by omega, h1, h2⟩), if_neg (by rw [h3]; decide)]
  dsimp only
  rw [if_neg (by omega), if_pos h4, scan_freeslot_none blk _ hu hm]

theorem mpool_new_core_head (mp : mpool_t) (nblk cbuf : Nat) (b : mpool_blk_t) (rest : List Nat)
    (hth : mp.attr.nmax_alloc < 0) (hmq : mp.mq = b.id :: rest)
    (hg : get_blk mp b.id = some b) :
    mpool_new_core mp nblk cbuf =
      (take_obj { mp with nacquires := mp.nacquires + 1 } b).map (fun r => (r.1, r.2, b.id)) := by
  obtain ⟨al, ol, mq, mb, mqn, mbn, nacq, lf, alc, atr, mm⟩ := mp
  dsimp only at hth hmq ⊢
  subst hmq
  have hg2 : get_blk ⟨al, ol, b.id :: rest, mb, mqn, mbn, nacq + 1, lf, alc, atr, mm⟩ b.id
      = some b := hg
  unfold mpool_new_core
  dsimp only
  rw [if_neg (fun hc => absurd hc.1 (by omega)), hg2]

theorem mpool_new_blk_calloc_eq (mp : mpool_t) (size nblk cbuf : Nat)
    (hn : nblk ≠ 0) (hc : cbuf ≠ 0) (hs : mp.objlen ≤ size) :
    mpool_new_blk mp 0 size mbuffer_free.null nblk cbuf =
      some (link_blk mp (mk_blk mp nblk cbuf (size / mp.objlen * mp.objlen) (size / mp.objlen)
          mbuffer_free.free),
        mk_blk mp nblk cbuf (size / mp.objlen * mp.objlen) (size / mp.objlen)
          mbuffer_free.free) := by
  unfold mpool_new_blk
  rw [if_neg (by
    intro h
    rcases h with h | h
    · exact h.1 rfl
    · exact absurd hs (Nat.not_le_of_lt h)), if_neg hn, if_pos rfl, if_neg hc]

theorem mpool_new_core_empty (mp : mpool_t) (nblk cbuf : Nat)
    (hth : mp.attr.nmax_alloc < 0) (hmq : mp.mq = []) (hn : nblk ≠ 0) (hc : cbuf ≠ 0)
    (hs : mp.objlen ≤ new_blk_size mp) :
    mpool_new_core mp nblk cbuf =
      (take_obj
        (link_blk { mp with nacquires := mp.nacquires + 1 }
          (mk_blk { mp with nacquires := mp.nacquires + 1 } nblk cbuf
            (new_blk_size mp / mp.objlen * mp.objlen) (new_blk_size mp / mp.objlen)
            mbuffer_free.free))
        (mk_blk { mp with nacquires := mp.nacquires + 1 } nblk cbuf
          (new_blk_size mp / mp.objlen * mp.objlen) (new_blk_size mp / mp.objlen)
          mbuffer_free.free)).map (fun r => (r.1, r.2, nblk)) := by
  have hnb := mpool_new_blk_calloc_eq { mp with nacquires := mp.nacquires + 1 }
    (new_blk_size mp) nblk cbuf hn hc hs
  obtain ⟨al, ol, mq, mb, mqn, mbn, nacq, lf, alc, atr, mm⟩ := mp
  dsimp only at hth hmq hnb hs ⊢
  subst hmq
  have hsz : new_blk_size ⟨al, ol, [], mb, mqn, mbn, nacq + 1, lf, alc, atr, mm⟩
      = new_blk_size ⟨al, ol, [], mb, mqn, mbn, nacq, lf, alc, atr, mm⟩ := rfl
  unfold mpool_new_core
  dsimp only
  rw [if_neg (fun h => absurd h.1 (by omega)), hsz, hnb]
  rfl

/-! ## Forward computation of one call on a pool -/

theorem mq_move_forward_single (f : Nat → Nat) (id l : Nat) :
    mq_move_forward f id l [id] = [id] := by
  simp [mq_move_forward, ins_first_after]

theorem mq_add_blk_nil (f : Nat → Nat) (id l : Nat) : mq_add_blk f id l [] = [id] := rfl

theorem blocks_set_blk (mp : mpool_t) (nb : mpool_blk_t) :
    (set_blk mp.mbase nb).flatten = (blocks mp).map (fun x => if x.id = nb.id then nb else x) :=
  flatten_set_blk mp.mbase nb

/-- A call of `mpool_new` on an empty free queue, when the allocator returns
the record `nblk` and the buffer `cbuf` and the block has room for two objects:
the call returns slot 1 of the new block, which becomes the only entry of the
free queue. -/
theorem step_new_first (mp : mpool_t) (live : List (Nat × Nat)) (nblk cbuf : Nat)
    (hr : Reachable mp live) (hmq : mp.mq = []) (hth : mp.attr.nmax_alloc < 0)
    (hn : nblk ≠ 0) (hc : cbuf ≠ 0) (hid : id_fresh mp nblk)
    (hbuf : buf_fresh mp cbuf (new_blk_size mp / mp.objlen * mp.objlen))
    (hs : mp.objlen ≤ new_blk_size mp) (h2 : 2 ≤ new_blk_size mp / mp.objlen) :
    ∃ mp1 b0, step (mp, live) (pool_op.new nblk cbuf)
        = some (mp1, (cbuf + mp.align, nblk) :: live) ∧
      fresh_blk b0 nblk cbuf (new_blk_size mp / mp.objlen)
        (new_blk_size mp / mp.objlen * mp.objlen) ∧
      (blocks mp1).Perm (taken_blk b0 2 :: blocks mp) ∧ mp1.mq = [nblk] ∧
      mp1.attr = mp.attr ∧ mp1.objlen = mp.objlen ∧ mp1.align = mp.align := by
  have h := Reachable_inv mp live hr
  have hcore := mpool_new_core_empty mp nblk cbuf hth hmq hn hc hs
  have hfresh : fresh_blk (mk_blk { mp with nacquires := mp.nacquires + 1 } nblk cbuf
      (new_blk_size mp / mp.objlen * mp.objlen) (new_blk_size mp / mp.objlen)
      mbuffer_free.free) nblk cbuf (new_blk_size mp / mp.objlen)
      (new_blk_size mp / mp.objlen * mp.objlen) :=
    { id_eq := rfl, base_eq := rfl, num_eq := rfl, length_eq := rfl, left_eq := rfl,
      freeslot_eq := rfl,
      u16_eq := rfl, mfree_eq := rfl, bits := fun n => BIT_get_replicate _ n,
      len := by
        show _ ≤ (List.replicate _ false).length
        rw [List.length_replicate]
        omega }
  generalize hb0 : mk_blk { mp with nacquires := mp.nacquires + 1 } nblk cbuf
      (new_blk_size mp / mp.objlen * mp.objlen) (new_blk_size mp / mp.objlen)
      mbuffer_free.free = b0 at hcore hfresh
  have hslot : b0.slot < 25 := by
    rw [← hb0]
    exact (mk_blk_slot_min _ _ _ _ _ _ h.mbnum_eq h.mqn_len).1
  have h4 : BIT_get (BIT_set b0.bitmap b0.freeslot) (b0.freeslot + 1) = false := by
    rw [hfresh.freeslot_eq, BIT_get_set _ _ _ (le_refl _) (by omega), if_neg (by omega)]
    exact hfresh.bits _
  rw [take_obj_next _ b0 (by rw [hfresh.left_eq]; exact h2) (by rw [hfresh.freeslot_eq])
    (by rw [hfresh.freeslot_eq, hfresh.num_eq]; exact h2) (hfresh.bits _) h4] at hcore
  simp only [Option.map_some'] at hcore
  have hp : slot_ptr (link_blk { mp with nacquires := mp.nacquires + 1 } b0) b0 b0.freeslot
      = cbuf + mp.align := by
    unfold slot_ptr
    rw [hfresh.freeslot_eq, hfresh.base_eq]
    show cbuf + (1 - 1) * mp.objlen + mp.align = _
    simp
  rw [hp] at hcore
  cases hcase : mpool_new_core mp nblk cbuf with
  | none => rw [hcase] at hcore; exact absurd hcore (by simp)
  | some r =>
    obtain ⟨mp1, p, i⟩ := r
    rw [hcase] at hcore
    injection hcore with hcore
    injection hcore with e1 e2
    injection e2 with e2 e3
    rw [e2, e3] at hcase
    refine ⟨mp1, b0, ?_, hfresh, ?_, ?_, ?_, ?_, ?_⟩
    · dsimp only [step]
      rw [if_pos ⟨fun _ => hid, fun _ => hbuf⟩, hcase]
      dsimp only
      rw [if_neg (by have := h.align_pos; omega)]
    · rw [e1]
      show ((set_blk (link_blk { mp with nacquires := mp.nacquires + 1 } b0).mbase
        (taken_blk b0 (b0.freeslot + 1))).flatten).Perm _
      rw [blocks_set_blk, hfresh.freeslot_eq]
      have hperm := link_blk_blocks { mp with nacquires := mp.nacquires + 1 } b0
        (by rw [h.mbase_len]; exact hslot)
      have hmap := hperm.map (fun x => if x.id = (taken_blk b0 2).id then taken_blk b0 2 else x)
      have hrest : (blocks mp).map
          (fun x => if x.id = (taken_blk b0 2).id then taken_blk b0 2 else x) = blocks mp :=
        map_upd_of_not_mem _ _ (fun b hb => by
          have := hid b hb
          show b.id ≠ b0.id
          rw [hfresh.id_eq]
          exact this)
      have hcons : (b0 :: blocks mp).map
          (fun x => if x.id = (taken_blk b0 2).id then taken_blk b0 2 else x)
          = taken_blk b0 2 :: blocks mp := by
        rw [List.map_cons, hrest]
        have : b0.id = (taken_blk b0 2).id := rfl
        rw [if_pos this]
      rw [← hcons]
      exact hmap
    · rw [e1]
      show mq_move_forward _ b0.id (b0.left - 1)
        (mq_add_blk _ b0.id b0.left mp.mq) = [nblk]
      rw [hmq]
      rw [mq_add_blk_nil, mq_move_forward_single, hfresh.id_eq]
    · rw [e1]; rfl
    · rw [e1]; rfl
    · rw [e1]; rfl

/-- A call of `mpool_new` on a pool whose only block has at least two free
slots, the slot after the hint being free: the call returns the slot of the
hint and moves the hint to the next slot. -/
theorem step_new_next (mp : mpool_t) (live : List (Nat × Nat)) (b : mpool_blk_t)
    (hr : Reachable mp live) (hb : blocks mp = [b]) (hmq : mp.mq = [b.id])
    (hth : mp.attr.nmax_alloc < 0) (hl : 2 ≤ b.left) (h2 : b.freeslot + 1 ≤ b.num)
    (h4 : BIT_get b.bitmap (b.freeslot + 1) = false) :
    ∃ mp1, step (mp, live) (pool_op.new 0 0)
        = some (mp1, (slot_ptr mp b b.freeslot, b.id) :: live) ∧
      blocks mp1 = [taken_blk b (b.freeslot + 1)] ∧ mp1.mq = [b.id] ∧
      mp1.attr = mp.attr ∧ mp1.objlen = mp.objlen ∧ mp1.align = mp.align := by
  have h := Reachable_inv mp live hr
  have hbm : b ∈ blocks mp := by rw [hb]; exact List.mem_singleton.mpr rfl
  obtain ⟨h1, _, h3⟩ := (h.blk b hbm).hint (by omega)
  have h4b : BIT_get (BIT_set b.bitmap b.freeslot) (b.freeslot + 1) = false := by
    rw [BIT_get_set _ _ _ h1 (by omega), if_neg (by omega)]
    exact h4
  have hcore := mpool_new_core_head mp 0 0 b [] hth hmq (get_blk_of_mem mp live h b hbm)
  rw [take_obj_next _ b hl h1 h2 h3 h4b] at hcore
  simp only [Option.map_some'] at hcore
  have hp : slot_ptr { mp with nacquires := mp.nacquires + 1 } b b.freeslot
      = slot_ptr mp b b.freeslot := rfl
  rw [hp] at hcore
  have hne : slot_ptr mp b b.freeslot ≠ 0 := by
    unfold slot_ptr
    have := h.align_pos
    omega
  cases hcase : mpool_new_core mp 0 0 with
  | none => rw [hcase] at hcore; exact absurd hcore (by simp)
  | some r =>
    obtain ⟨mp1, p, i⟩ := r
    rw [hcase] at hcore
    injection hcore with hcore
    injection hcore with e1 e2
    injection e2 with e2 e3
    rw [e2, e3] at hcase
    refine ⟨mp1, ?_, ?_, ?_, ?_, ?_, ?_⟩
    · dsimp only [step]
      rw [if_pos ⟨fun hc => absurd rfl hc, fun hc => absurd rfl hc⟩, hcase]
      dsimp only
      rw [if_neg hne]
    · rw [e1]
      show (set_blk mp.mbase (taken_blk b (b.freeslot + 1))).flatten = _
      rw [blocks_set_blk, hb]
      show [if b.id = b.id then taken_blk b (b.freeslot + 1) else b] = _
      rw [if_pos rfl]
    · rw [e1]
      show mq_move_forward _ b.id (b.left - 1) mp.mq = [b.id]
      rw [hmq, mq_move_forward_single]
    · rw [e1]
    · rw [e1]
    · rw [e1]

/-- A call of `mpool_new` on a pool whose only block has one free slot left:
the call returns that slot and the free queue becomes empty. -/
theorem step_new_last (mp : mpool_t) (live : List (Nat × Nat)) (b : mpool_blk_t)
    (hr : Reachable mp live) (hb : blocks mp = [b]) (hmq : mp.mq = [b.id])
    (hth : mp.attr.nmax_alloc < 0) (hl : b.left = 1) :
    ∃ mp1, step (mp, live) (pool_op.new 0 0)
        = some (mp1, (slot_ptr mp b b.freeslot, b.id) :: live) ∧
      blocks mp1 = [taken_blk b b.freeslot] ∧ mp1.mq = [] ∧
      mp1.attr = mp.attr ∧ mp1.objlen = mp.objlen ∧ mp1.align = mp.align := by
  have h := Reachable_inv mp live hr
  have hbm : b ∈ blocks mp := by rw [hb]; exact List.mem_singleton.mpr rfl
  obtain ⟨h1, h2, h3⟩ := (h.blk b hbm).hint (by omega)
  have hcore := mpool_new_core_head mp 0 0 b [] hth hmq (get_blk_of_mem mp live h b hbm)
  rw [take_obj_last _ b hl h1 h2 h3] at hcore
  simp only [Option.map_some'] at hcore
  have hp : slot_ptr { mp with nacquires := mp.nacquires + 1 } b b.freeslot
      = slot_ptr mp b b.freeslot := rfl
  rw [hp] at hcore
  have hne : slot_ptr mp b b.freeslot ≠ 0 := by
    unfold slot_ptr
    have := h.align_pos
    omega
  cases hcase : mpool_new_core mp 0 0 with
  | none => rw [hcase] at hcore; exact absurd hcore (by simp)
  | some r =>
    obtain ⟨mp1, p, i⟩ := r
    rw [hcase] at hcore
    injection hcore with hcore
    injection hcore with e1 e2
    injection e2 with e2 e3
    rw [e2, e3] at hcase
    refine ⟨mp1, ?_, ?_, ?_, ?_, ?_, ?_⟩
    · dsimp only [step]
      rw [if_pos ⟨fun hc => absurd rfl hc, fun hc => absurd rfl hc⟩, hcase]
      dsimp only
      rw [if_neg hne]
    · rw [e1]
      show (set_blk mp.mbase (taken_blk b b.freeslot)).flatten = _
      rw [blocks_set_blk, hb]
      show [if b.id = b.id then taken_blk b b.freeslot else b] = _
      rw [if_pos rfl]
    · rw [e1]
      show mp.mq.erase b.id = []
      rw [hmq]
      simp
    · rw [e1]
    · rw [e1]
    · rw [e1]

/-- A call of `mpool_delete` on a live object of a block that is neither full
nor left fully free by the call: the bit of the slot is cleared, the hint is
set to the slot, and the free queue is unchanged. -/
theorem step_delete_keep (mp : mpool_t) (live : List (Nat × Nat)) (b : mpool_blk_t) (p : Nat)
    (hr : Reachable mp live) (hbm : b ∈ blocks mp) (hlive : (p, b.id) ∈ live)
    (hne1 : 0 < b.left) (hne2 : b.left + 1 ≠ b.num) :
    ∃ s, 1 ≤ s ∧ s ≤ b.num ∧ p = slot_ptr mp b s ∧ BIT_get b.bitmap s = true ∧
      step (mp, live) (pool_op.delete p)
        = some (freed_state mp b s, live.filter (fun e => e.1 != p)) ∧
      (freed_state mp b s).mq = mp.mq := by
  have h := Reachable_inv mp live hr
  obtain ⟨b1, s, hb1, hid1, hs1, hs2, hbit, hptr, _, _, hs, hdel, _⟩ :=
    mpool_delete_live mp live p b.id h hlive
  have hbb : b1 = b := blk_unique (blocks mp) h.ids_nodup b1 b hb1 hbm hid1
  subst hbb
  have hleft : (freed_blk b1 s).left = b1.left + 1 := rfl
  have hnum : (freed_blk b1 s).num = b1.num := rfl
  have hres : delete_in_blk mp b1 (p - mp.align) = (freed_state mp b1 s, []) := by
    rw [delete_in_blk_eq, hs, if_neg (by omega), if_neg (by omega)]
  rw [hres] at hdel
  refine ⟨s, hs1, hs2, hptr, hbit, ?_, ?_⟩
  · dsimp only [step]
    rw [if_pos (List.mem_map.mpr ⟨(p, b1.id), hlive, rfl⟩), hdel]
  · show (if (freed_blk b1 s).left = 1 then b1.id :: mp.mq else mp.mq) = mp.mq
    rw [if_neg (by omega)]

/-! ## Sequences of calls -/

theorem run_from_cons (st st1 : mpool_t × List (Nat × Nat)) (op : pool_op) (ops : List pool_op)
    (hs : step st op = some st1) : run_from st (op :: ops) = run_from st1 ops := by
  show (match step st op with
    | some st1 => run_from st1 ops
    | none => none) = _
  rw [hs]

theorem run_from_append (ops1 ops2 : List pool_op) (st st1 : mpool_t × List (Nat × Nat))
    (h1 : run_from st ops1 = some st1) : run_from st (ops1 ++ ops2) = run_from st1 ops2 := by
  induction ops1 generalizing st with
  | nil =>
    have : some st = some st1 := h1
    injection this with this
    rw [this]
    rfl
  | cons op ops ih =>
    cases hs : step st op with
    | none =>
      have : run_from st (op :: ops) = none := by
        show (match step st op with
          | some st1 => run_from st1 ops
          | none => none) = _
        rw [hs]
      rw [this] at h1
      exact absurd h1 (by simp)
    | some st2 =>
      rw [run_from_cons st st2 op ops hs] at h1
      rw [List.cons_append, run_from_cons st st2 op _ hs]
      exact ih st2 h1

/-- The start of a scenario: `mpool_init` for objects of `n` bytes, then
`mpool_attr_set`. -/
theorem run_start (n : Nat) (a : mpool_attr_t) (hn : 0 < n) (hfit : n < 2 ^ 64 - 4) :
    ∃ s0, (∀ ops, run n (pool_op.attr_set a :: ops) = run_from (s0, []) ops) ∧
      Reachable s0 [] ∧
      s0.mq = [] ∧ blocks s0 = [] ∧ s0.attr = attr_check a ∧
      s0.objlen = n + (4 - n % 4) ∧ s0.align = 4 - n % 4 := by
  have hwrap : ((4 - n % 4) + n) % 2 ^ 64 = n + (4 - n % 4) := by
    rw [Nat.mod_eq_of_lt (by omega)]
    omega
  cases hi : mpool_init n with
  | none =>
    unfold mpool_init at hi
    rw [if_pos hn] at hi
    exact absurd hi (by simp)
  | some mp0 =>
    have hr0 : Reachable mp0 [] := Reachable.init n mp0 hfit hi
    have hinit := hi
    unfold mpool_init at hi
    rw [if_pos hn] at hi
    injection hi with hi
    refine ⟨mpool_attr_set mp0 a, ?_, Reachable.attr_set mp0 [] a hr0, ?_, ?_, rfl, ?_, ?_⟩
    · intro ops
      unfold run
      rw [if_pos hfit, hinit]
      exact run_from_cons (mp0, []) (mpool_attr_set mp0 a, []) (pool_op.attr_set a) ops rfl
    · rw [← hi]; rfl
    · rw [← hi]; exact flatten_replicate_nil 25
    · rw [← hi]; exact hwrap
    · rw [← hi]; rfl

/-! ## C14: the next-free-slot hint and the assertions of `mpool_new` -/

/-- C14 (the code breaks the claim): objects of 1 byte (slots of 4 bytes),
attributes (4194304, 0, unbounded).  The first `mpool_new` creates a block of
2^20 slots, whose `uint16_t u16_num` is 65536 truncated to 0; a second object
is taken and the first one given back (`huge_ops`).  Every call returns, and
in the state reached the hint of the block is valid (`freeslot = 1`, bit 1
clear, 2^20 - 1 free slots), but the next `mpool_new` takes slot 1, finds slot
2 occupied, scans no word of the bitmap and fails the assertion
`num <= index`. -/
theorem C14_scan_assertion_fails :
    ∃ st, run 1 huge_ops = some st ∧ Reachable st.1 st.2 ∧ st.1.mq = [1000] ∧
      blk_summary st.1 = [(1000, 1048576, 1048575)] ∧
      (blocks st.1).map (fun b => (b.u16_num, b.freeslot, BIT_get b.bitmap 1,
        BIT_get b.bitmap 2)) = [(0, 1, false, true)] ∧
      mpool_new_core st.1 0 0 = none := by
  obtain ⟨s0, hrun0, hr0, hmq0, hb0, hattr0, hol0, hal0⟩ :=
    run_start 1 ⟨4194304, 0, -1⟩ (by decide) (by decide)
  have hck : attr_check ⟨4194304, 0, -1⟩ = ⟨4194304, 0, -1⟩ := by decide
  rw [hck] at hattr0
  have hol : s0.objlen = 4 := by rw [hol0]
  have hal : s0.align = 3 := by rw [hal0]
  have hth0 : s0.attr.nmax_alloc < 0 := by rw [hattr0]; decide
  have hsize : new_blk_size s0 = 4194304 := by
    rw [new_blk_size_eq s0 4194304 0 (by rw [hattr0]; rfl) (by rw [hattr0]; rfl) (by decide)
      (by rw [hol]; decide) (by rw [hol]; decide), hol]
    decide
  -- the first call creates the block and returns its slot 1
  obtain ⟨mp1, b0, hstep1, hf, hperm1, hmq1, hattr1, hol1, hal1⟩ :=
    step_new_first s0 [] 1000 100000 hr0 hmq0 hth0 (by decide) (by decide)
      (fun b hb => by rw [hb0] at hb; exact absurd hb (List.not_mem_nil _))
      (fun b hb => by rw [hb0] at hb; exact absurd hb (List.not_mem_nil _))
      (by rw [hsize, hol]; decide) (by rw [hsize, hol]; decide)
  rw [hsize, hol] at hf
  have hnum0 : b0.num = 1048576 := by rw [hf.num_eq]
  have hleft0 : b0.left = 1048576 := by rw [hf.left_eq]
  have hu0 : b0.u16_num = 0 := by rw [hf.u16_eq]
  have hlen0 : 1048576 ≤ b0.bitmap.length := by
    have := hf.len
    exact le_trans (by decide) this
  rw [hb0] at hperm1
  have hb1 : blocks mp1 = [taken_blk b0 2] := List.perm_singleton.mp hperm1
  rw [hal] at hstep1
  have hr1 := step_reachable (s0, []) _ _ hr0 hstep1
  have hid0 : (taken_blk b0 2).id = 1000 := hf.id_eq
  -- the second call returns slot 2
  obtain ⟨mp2, hstep2, hb2, hmq2, hattr2, hol2, hal2⟩ :=
    step_new_next mp1 _ (taken_blk b0 2) hr1 hb1 (by rw [hmq1, hid0])
      (by rw [hattr1]; exact hth0)
      (by show 2 ≤ b0.left - 1; omega) (by show 2 + 1 ≤ b0.num; omega)
      (by
        show BIT_get (BIT_set b0.bitmap b0.freeslot) (2 + 1) = false
        rw [hf.freeslot_eq, BIT_get_set _ _ _ (le_refl _) (by omega), if_neg (by omega)]
        exact hf.bits _)
  have hr2 := step_reachable _ _ _ hr1 hstep2
  -- the first object is given back
  obtain ⟨s, hs1, hs2, hp, hbit, hstep3, hmq3⟩ :=
    step_delete_keep mp2 _ (taken_blk (taken_blk b0 2) 3) 100003 hr2
      (by rw [hb2]; exact List.mem_singleton.mpr rfl)
      (by
        have : (taken_blk (taken_blk b0 2) 3).id = 1000 := hf.id_eq
        rw [this]
        exact List.mem_cons_of_mem _ (List.mem_singleton.mpr rfl))
      (by show 0 < b0.left - 1 - 1; omega)
      (by show b0.left - 1 - 1 + 1 ≠ b0.num; omega)
  have hs : s = 1 := by
    have hbase : (taken_blk (taken_blk b0 2) 3).base = 100000 := hf.base_eq
    unfold slot_ptr at hp
    rw [hbase, hol2, hol1, hol, hal2, hal1, hal] at hp
    omega
  subst hs
  have hr3 := step_reachable _ _ _ hr2 hstep3
  have hb3 : blocks (freed_state mp2 (taken_blk (taken_blk b0 2) 3) 1)
      = [freed_blk (taken_blk (taken_blk b0 2) 3) 1] := by
    rw [blocks_freed_state, hb2]
    show [if (taken_blk (taken_blk b0 2) 3).id = (taken_blk (taken_blk b0 2) 3).id then _
      else _] = _
    rw [if_pos rfl]
  have hq3 : (freed_state mp2 (taken_blk (taken_blk b0 2) 3) 1).mq = [1000] := by
    rw [hmq3, hmq2, hid0]
  have hbm1 : BIT_get (freed_blk (taken_blk (taken_blk b0 2) 3) 1).bitmap 1 = false := by
    show BIT_get (BIT_clr (BIT_set (BIT_set b0.bitmap b0.freeslot) 2) 1) 1 = false
    rw [BIT_get_clr _ _ _ (le_refl _) (le_refl _), if_pos ⟨rfl, by
      rw [BIT_set_length, BIT_set_length]; omega⟩]
  have hbm2 : BIT_get (freed_blk (taken_blk (taken_blk b0 2) 3) 1).bitmap 2 = true := by
    show BIT_get (BIT_clr (BIT_set (BIT_set b0.bitmap b0.freeslot) 2) 1) 2 = true
    rw [BIT_get_clr _ 1 2 (by omega) (by omega), if_neg (by omega),
      BIT_get_set _ 2 2 (by omega) (by omega), if_pos ⟨rfl, by
        rw [BIT_set_length]; omega⟩]
  refine ⟨(freed_state mp2 (taken_blk (taken_blk b0 2) 3) 1, _), ?_, hr3, hq3, ?_, ?_, ?_⟩
  · show run 1 huge_ops = _
    unfold huge_ops
    rw [hrun0, run_from_cons _ _ _ _ hstep1, run_from_cons _ _ _ _ hstep2,
      run_from_cons _ _ _ _ hstep3]
    rfl
  · unfold blk_summary
    rw [hb3]
    show [((b0.id, b0.num, b0.left - 1 - 1 + 1) : Nat × Nat × Nat)] = _
    rw [hf.id_eq, hnum0, hleft0]
  · rw [hb3]
    show [((b0.u16_num, 1, BIT_get (freed_blk (taken_blk (taken_blk b0 2) 3) 1).bitmap 1,
      BIT_get (freed_blk (taken_blk (taken_blk b0 2) 3) 1).bitmap 2) : Nat × Nat × Bool × Bool)] = _
    rw [hu0, hbm1, hbm2]
  · have hg := get_blk_of_mem _ _ (Reachable_inv _ _ hr3)
      (freed_blk (taken_blk (taken_blk b0 2) 3) 1) (by rw [hb3]; exact List.mem_singleton.mpr rfl)
    rw [mpool_new_core_head _ 0 0 (freed_blk (taken_blk (taken_blk b0 2) 3) 1) []
      (by
        show mp2.attr.nmax_alloc < 0
        rw [hattr2, hattr1]; exact hth0)
      (by rw [hq3]; exact congrArg (fun x => [x]) hf.id_eq.symm) hg,
      take_obj_scan_none _ _ (by show 2 ≤ b0.left - 1 - 1 + 1; omega) (le_refl _)
        (by show 1 ≤ b0.num; omega) hbm1
        (Or.inr (by
          show BIT_get (BIT_set (freed_blk (taken_blk (taken_blk b0 2) 3) 1).bitmap 1) (1 + 1)
            = true
          rw [BIT_get_set _ 1 2 (by omega) (by omega), if_neg (by omega)]
          exact hbm2))
        hu0 (by show b0.num % 16 = 0; omega)]
    rfl

/-! ## Filling a block slot by slot -/

theorem fill_blk_id (b0 : mpool_blk_t) (k : Nat) : (fill_blk b0 k).id = b0.id := by
  induction k with
  | zero => rfl
  | succ k ih => exact ih

theorem fill_blk_num (b0 : mpool_blk_t) (k : Nat) : (fill_blk b0 k).num = b0.num := by
  induction k with
  | zero => rfl
  | succ k ih => exact ih

theorem fill_blk_base (b0 : mpool_blk_t) (k : Nat) : (fill_blk b0 k).base = b0.base := by
  induction k with
  | zero => rfl
  | succ k ih => exact ih

theorem fill_blk_length (b0 : mpool_blk_t) (k : Nat) : (fill_blk b0 k).length = b0.length := by
  induction k with
  | zero => rfl
  | succ k ih => exact ih

theorem fill_blk_mfree (b0 : mpool_blk_t) (k : Nat) : (fill_blk b0 k).mfree = b0.mfree := by
  induction k with
  | zero => rfl
  | succ k ih => exact ih

theorem fill_blk_left (b0 : mpool_blk_t) (k : Nat) : (fill_blk b0 k).left = b0.left - k := by
  induction k with
  | zero => rfl
  | succ k ih =>
    show (fill_blk b0 k).left - 1 = _
    rw [ih]
    omega

theorem fill_blk_freeslot (b0 : mpool_blk_t) (k : Nat) (h : b0.freeslot = 1) :
    (fill_blk b0 k).freeslot = k + 1 := by
  cases k with
  | zero => exact h
  | succ k => rfl

theorem fill_blk_bm_length (b0 : mpool_blk_t) (k : Nat) :
    (fill_blk b0 k).bitmap.length = b0.bitmap.length := by
  induction k with
  | zero => rfl
  | succ k ih =>
    show (BIT_set (fill_blk b0 k).bitmap (fill_blk b0 k).freeslot).length = _
    rw [BIT_set_length, ih]

theorem fill_blk_bits (b0 : mpool_blk_t) (hfs : b0.freeslot = 1)
    (hclr : ∀ n, BIT_get b0.bitmap n = false) (k : Nat) (hk : k ≤ b0.bitmap.length) :
    ∀ n, 1 ≤ n → (BIT_get (fill_blk b0 k).bitmap n = true ↔ n ≤ k) := by
  induction k with
  | zero =>
    intro n hn
    show BIT_get b0.bitmap n = true ↔ _
    rw [hclr n]
    constructor
    · intro h; exact absurd h (by decide)
    · intro h; omega
  | succ k ih =>
    intro n hn
    show BIT_get (BIT_set (fill_blk b0 k).bitmap (fill_blk b0 k).freeslot) n = true ↔ _
    rw [fill_blk_freeslot b0 k hfs, BIT_get_set _ _ _ (by omega) hn]
    by_cases hnk : k + 1 = n
    · rw [if_pos ⟨hnk, by rw [fill_blk_bm_length]; omega⟩]
      constructor
      · intro _; omega
      · intro _; rfl
    · rw [if_neg (fun hc => hnk hc.1), ih (by omega) n hn]
      omega

theorem fill_live_mem (base objlen align id : Nat) (k : Nat) (p i : Nat) :
    (p, i) ∈ fill_live base objlen align id k ↔
      i = id ∧ ∃ j, j < k ∧ p = base + j * objlen + align := by
  induction k with
  | zero =>
    constructor
    · intro h; exact absurd h (List.not_mem_nil _)
    · rintro ⟨_, j, hj, _⟩; omega
  | succ k ih =>
    show (p, i) ∈ (base + k * objlen + align, id) :: fill_live base objlen align id k ↔ _
    rw [List.mem_cons, ih]
    constructor
    · rintro (h | ⟨h1, j, hj, h2⟩)
      · injection h with h1 h2
        exact ⟨h2, k, by omega, h1⟩
      · exact ⟨h1, j, by omega, h2⟩
    · rintro ⟨h1, j, hj, h2⟩
      by_cases hjk : j = k
      · left
        rw [h1, h2, hjk]
      · right
        exact ⟨h1, j, by omega, h2⟩

theorem fill_live_map_fst (base objlen align id : Nat) (k : Nat) :
    (fill_live base objlen align id k).map Prod.fst
      = ((List.range k).map (fun j => base + j * objlen + align)).reverse := by
  induction k with
  | zero => rfl
  | succ k ih =>
    show (base + k * objlen + align) :: (fill_live base objlen align id k).map Prod.fst = _
    rw [ih, List.range_succ, List.map_append, List.reverse_append]
    rfl

/-- From a pool whose only block has its slots `1..j` handed out in order,
`m` more calls of `mpool_new` hand out the slots `j + 1..j + m`, as long as a
free slot is left after the last call. -/
theorem fill_steps (b0 : mpool_blk_t) (nblk cbuf N len : Nat)
    (hf : fresh_blk b0 nblk cbuf N len) :
    ∀ (m j : Nat) (mp : mpool_t) (live : List (Nat × Nat)),
      Reachable mp live → blocks mp = [fill_blk b0 j] → mp.mq = [nblk] →
      mp.attr.nmax_alloc < 0 → j + m + 1 ≤ N →
      live = fill_live cbuf mp.objlen mp.align nblk j →
      ∃ mp1, run_from (mp, live) (List.replicate m (pool_op.new 0 0))
          = some (mp1, fill_live cbuf mp.objlen mp.align nblk (j + m)) ∧
        Reachable mp1 (fill_live cbuf mp.objlen mp.align nblk (j + m)) ∧
        blocks mp1 = [fill_blk b0 (j + m)] ∧ mp1.mq = [nblk] ∧
        mp1.attr = mp.attr ∧ mp1.objlen = mp.objlen ∧ mp1.align = mp.align := by
  intro m
  induction m with
  | zero =>
    intro j mp live hr hb hmq _ _ hlive
    subst hlive
    exact ⟨mp, rfl, hr, hb, hmq, rfl, rfl, rfl⟩
  | succ m ih =>
    intro j mp live hr hb hmq hth hj hlive
    have hfs := fill_blk_freeslot b0 j hf.freeslot_eq
    have hbit : BIT_get (fill_blk b0 j).bitmap ((fill_blk b0 j).freeslot + 1) = false := by
      have := fill_blk_bits b0 hf.freeslot_eq hf.bits j (by have := hf.len; omega)
        ((fill_blk b0 j).freeslot + 1) (by omega)
      cases hx : BIT_get (fill_blk b0 j).bitmap ((fill_blk b0 j).freeslot + 1) with
      | false => rfl
      | true =>
        have := this.mp hx
        omega
    obtain ⟨mp1, hstep, hb1, hmq1, hattr1, hol1, hal1⟩ :=
      step_new_next mp live (fill_blk b0 j) hr hb
        (by rw [hmq, fill_blk_id, hf.id_eq])
        hth
        (by rw [fill_blk_left, hf.left_eq]; omega)
        (by rw [hfs, fill_blk_num, hf.num_eq]; omega)
        hbit
    have hptr : slot_ptr mp (fill_blk b0 j) (fill_blk b0 j).freeslot
        = cbuf + j * mp.objlen + mp.align := by
      unfold slot_ptr
      rw [hfs, fill_blk_base, hf.base_eq]
      rfl
    rw [hptr, fill_blk_id, hf.id_eq] at hstep
    rw [hfs] at hb1
    have hlive1 : ((cbuf + j * mp.objlen + mp.align, nblk) :: live)
        = fill_live cbuf mp1.objlen mp1.align nblk (j + 1) := by
      rw [hlive, hol1, hal1]
      rfl
    have hr1 := step_reachable (mp, live) _ _ hr hstep
    obtain ⟨mp2, hrun, hr2, hb2, hmq2, hattr2, hol2, hal2⟩ :=
      ih (j + 1) mp1 _ hr1 hb1 (by rw [hmq1, fill_blk_id, hf.id_eq])
        (by rw [hattr1]; exact hth) (by omega) hlive1
    have e : j + 1 + m = j + (m + 1) := by omega
    rw [e, hol1, hal1] at hrun hr2
    rw [e] at hb2
    refine ⟨mp2, ?_, hr2, hb2, hmq2, by rw [hattr2, hattr1], by rw [hol2, hol1],
      by rw [hal2, hal1]⟩
    rw [List.replicate_succ, run_from_cons _ _ _ _ hstep]
    exact hrun

theorem new_blk_size_congr (mp mp1 : mpool_t) (ha : mp1.attr = mp.attr)
    (ho : mp1.objlen = mp.objlen) : new_blk_size mp1 = new_blk_size mp := by
  unfold new_blk_size
  rw [ha, ho]

theorem scenario_ptrs_mem (c1 p : Nat) :
    p ∈ scenario_ptrs c1 ↔ ∃ j, j < 146 ∧ p = c1 + j * 28 + 4 := by
  unfold scenario_ptrs
  rw [List.mem_map]
  constructor
  · rintro ⟨j, hj, he⟩
    exact ⟨j, List.mem_range.mp hj, he.symm⟩
  · rintro ⟨j, hj, he⟩
    exact ⟨j, List.mem_range.mpr hj, he.symm⟩

theorem scenario_ptrs_nodup (c1 : Nat) : (scenario_ptrs c1).Nodup := by
  unfold scenario_ptrs
  apply List.Nodup.map _ (List.nodup_range 146)
  intro i j h
  dsimp only at h
  omega

theorem scenario_ptrs_length (c1 : Nat) : (scenario_ptrs c1).length = 146 := by
  unfold scenario_ptrs
  rw [List.length_map, List.length_range]

/-- The first part of the literal scenario: the first call creates a block of
146 slots, and 146 calls hand out its slots in order and fill it. -/
theorem scenario_fill (n1 c1 : Nat) (hn1 : n1 ≠ 0) (hc1 : c1 ≠ 0) :
    ∃ mp1 mp146 bfull,
      run 24 (scenario_fill_ops n1 c1 0) = some (mp1, [(c1 + 4, n1)]) ∧
      blk_summary mp1 = [(n1, 146, 145)] ∧
      (∀ ops, run 24 (scenario_fill_ops n1 c1 145 ++ ops)
        = run_from (mp146, fill_live c1 28 4 n1 146) ops) ∧
      Reachable mp146 (fill_live c1 28 4 n1 146) ∧
      blocks mp146 = [bfull] ∧ mp146.mq = [] ∧ mp146.attr = ⟨4096, 0, -1⟩ ∧
      mp146.objlen = 28 ∧ mp146.align = 4 ∧
      bfull.id = n1 ∧ bfull.base = c1 ∧ bfull.num = 146 ∧ bfull.left = 0 ∧
      bfull.length = 4088 ∧ bfull.mfree = mbuffer_free.free := by
  obtain ⟨s0, hrun0, hr0, hmq0, hb0, hattr0, hol0, hal0⟩ :=
    run_start 24 ⟨4096, 0, -1⟩ (by decide) (by decide)
  have hck : attr_check ⟨4096, 0, -1⟩ = ⟨4096, 0, -1⟩ := by decide
  rw [hck] at hattr0
  have hol : s0.objlen = 28 := by rw [hol0]
  have hal : s0.align = 4 := by rw [hal0]
  have hth0 : s0.attr.nmax_alloc < 0 := by rw [hattr0]; decide
  have hsize : new_blk_size s0 = 4096 := by
    rw [new_blk_size_eq s0 4096 0 (by rw [hattr0]; rfl) (by rw [hattr0]; rfl) (by decide)
      (by rw [hol]; decide) (by rw [hol]; decide), hol]
    decide
  -- the first call creates the block and returns its slot 1
  obtain ⟨mp1, b0, hstep1, hf, hperm1, hmq1, hattr1, hol1, hal1⟩ :=
    step_new_first s0 [] n1 c1 hr0 hmq0 hth0 hn1 hc1
      (fun b hb => by rw [hb0] at hb; exact absurd hb (List.not_mem_nil _))
      (fun b hb => by rw [hb0] at hb; exact absurd hb (List.not_mem_nil _))
      (by rw [hsize, hol]; decide) (by rw [hsize, hol]; decide)
  rw [hsize, hol] at hf
  have hN : (4096 : Nat) / 28 = 146 := by decide
  have hL : (4096 : Nat) / 28 * 28 = 4088 := by decide
  rw [hN] at hf
  have hf2 : fresh_blk b0 n1 c1 146 4088 := hf
  rw [hb0] at hperm1
  have hb1 : blocks mp1 = [fill_blk b0 1] := List.perm_singleton.mp hperm1
  rw [hal] at hstep1
  have hr1 : Reachable mp1 [(c1 + 4, n1)] := step_reachable (s0, []) _ _ hr0 hstep1
  have hol1b : mp1.objlen = 28 := by rw [hol1, hol]
  have hal1b : mp1.align = 4 := by rw [hal1, hal]
  have hth1 : mp1.attr.nmax_alloc < 0 := by rw [hattr1]; exact hth0
  have hlive1 : [(c1 + 4, n1)] = fill_live c1 mp1.objlen mp1.align n1 1 := by
    rw [hol1b, hal1b]
    show _ = [(c1 + 0 * 28 + 4, n1)]
    rw [Nat.zero_mul, Nat.add_zero]
  -- the calls 2..145
  obtain ⟨mp145, hrun145, hr145, hb145, hmq145, hattr145, hol145, hal145⟩ :=
    fill_steps b0 n1 c1 146 4088 hf2 144 1 mp1 _ hr1 hb1 hmq1 hth1 (by decide) hlive1
  rw [hol1b, hal1b] at hrun145 hr145
  have e145 : 1 + 144 = 145 := rfl
  rw [e145] at hrun145 hr145 hb145
  -- the call 146 takes the last free slot
  have hid145 : (fill_blk b0 145).id = n1 := by rw [fill_blk_id, hf2.id_eq]
  have hbase145 : (fill_blk b0 145).base = c1 := by rw [fill_blk_base, hf2.base_eq]
  have hnum145 : (fill_blk b0 145).num = 146 := by rw [fill_blk_num, hf2.num_eq]
  have hleft145 : (fill_blk b0 145).left = 1 := by rw [fill_blk_left, hf2.left_eq]
  have hlen145 : (fill_blk b0 145).length = 4088 := by rw [fill_blk_length, hf2.length_eq]
  have hmf145 : (fill_blk b0 145).mfree = mbuffer_free.free := by
    rw [fill_blk_mfree, hf2.mfree_eq]
  have hfs145 : (fill_blk b0 145).freeslot = 146 := fill_blk_freeslot b0 145 hf2.freeslot_eq
  generalize fill_blk b0 145 = b145 at hb145 hid145 hbase145 hnum145 hleft145 hlen145 hmf145 hfs145
  obtain ⟨mp146, hstep146, hb146, hmq146, hattr146, hol146, hal146⟩ :=
    step_new_last mp145 _ b145 hr145 hb145 (by rw [hmq145, hid145])
      (by rw [hattr145]; exact hth1) hleft145
  have hptr : slot_ptr mp145 b145 b145.freeslot = c1 + 145 * 28 + 4 := by
    unfold slot_ptr
    rw [hfs145, hbase145, hol145, hol1b, hal145, hal1b]
  rw [hptr, hid145] at hstep146
  have hlive146 : ((c1 + 145 * 28 + 4, n1) :: fill_live c1 28 4 n1 145)
      = fill_live c1 28 4 n1 146 := rfl
  rw [hlive146] at hstep146
  have hr146 := step_reachable (mp145, _) _ _ hr145 hstep146
  have hrunall : ∀ ops, run 24 (scenario_fill_ops n1 c1 145 ++ ops)
      = run_from (mp146, fill_live c1 28 4 n1 146) ops := by
    intro ops
    unfold scenario_fill_ops
    rw [List.cons_append, hrun0, List.cons_append, run_from_cons _ _ _ _ hstep1,
      List.replicate_succ' 144, List.append_assoc,
      run_from_append _ _ _ _ hrun145, List.singleton_append,
      run_from_cons _ _ _ _ hstep146]
  refine ⟨mp1, mp146, taken_blk b145 b145.freeslot, ?_, ?_, hrunall,
    hr146, hb146, hmq146, ?_, ?_, ?_, hid145, hbase145, hnum145, ?_, hlen145, hmf145⟩
  · unfold scenario_fill_ops
    rw [hrun0, List.replicate_zero, run_from_cons _ _ _ _ hstep1]
    rfl
  · unfold blk_summary
    rw [hb1]
    show [((b0.id, b0.num, b0.left - 1) : Nat × Nat × Nat)] = _
    rw [hf2.id_eq, hf2.num_eq, hf2.left_eq]
  · rw [hattr146, hattr145, hattr1, hattr0]
  · rw [hol146, hol145, hol1b]
  · rw [hal146, hal145, hal1b]
  · show b145.left - 1 = 0
    rw [hleft145]

/-! ## C11: the literal scenario -/

/-- C11 (literal scenario): a pool for objects of 24 bytes with attributes
(4096, 0, unbounded); for the first block the allocator returns the record
`n1` and the buffer `c1`, for the second the record `n2` and the buffer `c2`
(non-null, distinct records, non-overlapping buffers of 4088 bytes).  The
first `mpool_new` creates exactly one block, of capacity 146 = 4096 / 28, and
returns its slot 1; the calls 1..146 are all served from that block (their
pointers are its 146 slots) and leave it with 0 free slots and the free queue
empty; the 147th call creates a second block and takes its slot 1; then
deleting the 146 objects of the first block, in any order `ps`, makes no
assertion fail, releases the first block with its buffer, and leaves exactly
one block, the second, with its object still allocated and a pool total free
count of 145. -/
theorem C11_literal_scenario (n1 c1 n2 c2 : Nat) (ps : List Nat)
    (hn1 : n1 ≠ 0) (hc1 : c1 ≠ 0) (hn2 : n2 ≠ 0) (hc2 : c2 ≠ 0) (hne : n2 ≠ n1)
    (hdisj : c2 + 4088 ≤ c1 ∨ c1 + 4088 ≤ c2) (hp : ps.Perm (scenario_ptrs c1)) :
    ∃ st1 st146 st147 mp2,
      run 24 (scenario_fill_ops n1 c1 0) = some st1 ∧
      blk_summary st1.1 = [(n1, 146, 145)] ∧ st1.2 = [(c1 + 4, n1)] ∧
      run 24 (scenario_fill_ops n1 c1 145) = some st146 ∧
      blk_summary st146.1 = [(n1, 146, 0)] ∧ st146.1.mq = [] ∧ st146.1.left = 0 ∧
      st146.2.map Prod.fst = (scenario_ptrs c1).reverse ∧ (∀ e ∈ st146.2, e.2 = n1) ∧
      run 24 (scenario_ops n1 c1 n2 c2) = some st147 ∧
      (blk_summary st147.1).Perm [(n1, 146, 0), (n2, 146, 145)] ∧
      st147.2 = (c2 + 4, n2) :: st146.2 ∧
      delete_all st147.1 ps
        = some (mp2, [mpool_event.mfree mbuffer_free.free c1, mpool_event.free_blk n1]) ∧
      blk_summary mp2 = [(n2, 146, 145)] ∧ mp2.left = 145 ∧ mp2.allocated = 1 := by
  obtain ⟨mp1, mp146, bfull, hrun1, hsum1, hrun146, hr146, hb146, hmq146, hattr146, hol146,
    hal146, hid, hbase, hnum, hleft, hlen, hmf⟩ := scenario_fill n1 c1 hn1 hc1
  have h146 := Reachable_inv _ _ hr146
  have hth : mp146.attr.nmax_alloc < 0 := by rw [hattr146]; decide
  have hsize : new_blk_size mp146 = 4096 := by
    rw [new_blk_size_eq mp146 4096 0 (by rw [hattr146]; rfl) (by rw [hattr146]; rfl) (by decide)
      (by rw [hol146]; decide) (by rw [hol146]; decide), hol146]
    decide
  have hL : (4096 : Nat) / 28 * 28 = 4088 := by decide
  have hN : (4096 : Nat) / 28 = 146 := by decide
  -- the call 147 creates the second block
  obtain ⟨mp147, b2, hstep147, hf2, hperm, hmq147, hattr147, hol147, hal147⟩ :=
    step_new_first mp146 _ n2 c2 hr146 hmq146 hth hn2 hc2
      (fun b hb => by
        rw [hb146] at hb
        rw [List.mem_singleton.mp hb, hid]
        exact fun e => hne e.symm)
      (fun b hb => by
        rw [hb146] at hb
        rw [List.mem_singleton.mp hb, hbase, hlen, hsize, hol146, hL]
        exact hdisj)
      (by rw [hsize, hol146]; decide) (by rw [hsize, hol146]; decide)
  rw [hsize, hol146, hN] at hf2
  rw [hb146] at hperm
  rw [hal146] at hstep147
  have hr147 := step_reachable (mp146, _) _ _ hr146 hstep147
  have h147 := Reachable_inv _ _ hr147
  have hbfull : bfull ∈ blocks mp147 := hperm.mem_iff.mpr (by simp)
  have hid2 : (taken_blk b2 2).id = n2 := hf2.id_eq
  -- the 146 objects of the first block are deleted
  have hiff : ∀ p, p ∈ ps ↔ (p, bfull.id) ∈ (c2 + 4, n2) :: fill_live c1 28 4 n1 146 := by
    intro p
    rw [hp.mem_iff, scenario_ptrs_mem, hid, List.mem_cons, fill_live_mem]
    constructor
    · intro h
      exact Or.inr ⟨rfl, h⟩
    · rintro (h | h)
      · injection h with _ h2
        exact absurd h2.symm hne
      · exact h.2
  obtain ⟨mp2, hdel, hb2, hinv2⟩ := drain_block ps mp147 _ bfull h147 hbfull
    (by rw [hnum]; decide) (by rw [hattr147, hattr146])
    (by
      intro e
      rw [e] at hp
      have := hp.length_eq
      rw [scenario_ptrs_length] at this
      exact absurd this (by decide))
    (hp.nodup_iff.mpr (scenario_ptrs_nodup c1)) hiff
  have hev : release_events bfull
      = [mpool_event.mfree mbuffer_free.free c1, mpool_event.free_blk n1] := by
    unfold release_events
    rw [hmf, hbase, hid, if_pos (by decide)]
    rfl
  rw [hev] at hdel
  have hfl : [taken_blk b2 2, bfull].filter (fun x => x.id != bfull.id) = [taken_blk b2 2] := by
    have e1 : ((taken_blk b2 2).id != bfull.id) = true := by
      rw [hid2, hid]
      simpa using hne
    have e2 : (bfull.id != bfull.id) = false := by simp
    rw [List.filter_cons, e1, if_pos rfl, List.filter_cons, e2]
    rfl
  have hblocks2 : blocks mp2 = [taken_blk b2 2] := by
    have := hperm.filter (fun x => x.id != bfull.id)
    rw [← hb2, hfl] at this
    exact List.perm_singleton.mp this
  have hsum146 : blk_summary mp146 = [(n1, 146, 0)] := by
    unfold blk_summary
    rw [hb146]
    show [((bfull.id, bfull.num, bfull.left) : Nat × Nat × Nat)] = _
    rw [hid, hnum, hleft]
  have hsum147 : (blk_summary mp147).Perm [(n1, 146, 0), (n2, 146, 145)] := by
    have := hperm.map (fun b => ((b.id, b.num, b.left) : Nat × Nat × Nat))
    have e : [taken_blk b2 2, bfull].map (fun b => ((b.id, b.num, b.left) : Nat × Nat × Nat))
        = [(n2, 146, 145), (n1, 146, 0)] := by
      show [((b2.id, b2.num, b2.left - 1) : Nat × Nat × Nat), (bfull.id, bfull.num, bfull.left)]
        = _
      rw [hf2.id_eq, hf2.num_eq, hf2.left_eq, hid, hnum, hleft]
    rw [e] at this
    exact this.trans (List.Perm.swap _ _ _)
  refine ⟨(mp1, [(c1 + 4, n1)]), (mp146, fill_live c1 28 4 n1 146),
    (mp147, (c2 + 4, n2) :: fill_live c1 28 4 n1 146), mp2, hrun1, hsum1, rfl, ?_, hsum146,
    hmq146, ?_, ?_, ?_, ?_, hsum147, rfl, hdel, ?_, ?_, ?_⟩
  · have := hrun146 []
    rw [List.append_nil] at this
    rw [this]
    rfl
  · show mp146.left = 0
    rw [h146.left_eq, hb146]
    show [bfull.left].sum = 0
    rw [hleft]
    rfl
  · show (fill_live c1 28 4 n1 146).map Prod.fst = _
    rw [fill_live_map_fst]
    rfl
  · intro e he
    obtain ⟨p, i⟩ := e
    exact ((fill_live_mem c1 28 4 n1 146 p i).mp he).1
  · unfold scenario_ops
    rw [hrun146, run_from_cons _ _ _ _ hstep147]
    rfl
  · unfold blk_summary
    rw [hblocks2]
    show [((b2.id, b2.num, b2.left - 1) : Nat × Nat × Nat)] = _
    rw [hf2.id_eq, hf2.num_eq, hf2.left_eq]
  · rw [hinv2.left_eq, hblocks2]
    show [b2.left - 1].sum = 145
    rw [hf2.left_eq]
    rfl
  · rw [hinv2.alloc_eq, hblocks2]
    show [b2.num - (b2.left - 1)].sum = 1
    rw [hf2.left_eq, hf2.num_eq]
    rfl

theorem C11_literal_scenario_witness :
    (1000 ≠ 0 ∧ 100000 ≠ 0 ∧ 2000 ≠ 0 ∧ 200000 ≠ 0 ∧ 2000 ≠ 1000 ∧
      (200000 + 4088 ≤ 100000 ∨ 100000 + 4088 ≤ 200000) ∧
      (scenario_ptrs 100000).Perm (scenario_ptrs 100000)) ∧
    ∃ st1 st146 st147 mp2,
      run 24 (scenario_fill_ops 1000 100000 0) = some st1 ∧
      blk_summary st1.1 = [(1000, 146, 145)] ∧ st1.2 = [(100000 + 4, 1000)] ∧
      run 24 (scenario_fill_ops 1000 100000 145) = some st146 ∧
      blk_summary st146.1 = [(1000, 146, 0)] ∧ st146.1.mq = [] ∧ st146.1.left = 0 ∧
      st146.2.map Prod.fst = (scenario_ptrs 100000).reverse ∧ (∀ e ∈ st146.2, e.2 = 1000) ∧
      run 24 (scenario_ops 1000 100000 2000 200000) = some st147 ∧
      (blk_summary st147.1).Perm [(1000, 146, 0), (2000, 146, 145)] ∧
      st147.2 = (200000 + 4, 2000) :: st146.2 ∧
      delete_all st147.1 (scenario_ptrs 100000)
        = some (mp2, [mpool_event.mfree mbuffer_free.free 100000, mpool_event.free_blk 1000]) ∧
      blk_summary mp2 = [(2000, 146, 145)] ∧ mp2.left = 145 ∧ mp2.allocated = 1 :=
  ⟨⟨by decide, by decide, by decide, by decide, by decide, Or.inr (by decide), List.Perm.refl _⟩,
    C11_literal_scenario 1000 100000 2000 200000 (scenario_ptrs 100000) (by decide) (by decide)
      (by decide) (by decide) (by decide) (Or.inr (by decide)) (List.Perm.refl _)⟩

end Mpool
